import Mathlib

/-!
Formal model of the dumpstate report parser (CERT-EDF/dumpstate-py).

Python `bytes` and `str` values are modelled as `List Char` (the reports are
ASCII; one char per byte).  Fallible Python operations (`int(...)`,
`datetime.strptime`, tuple unpacking, indexing) are modelled in an
exception monad `PRes` over the error kinds the interpreter can raise.
Scanning functions take an explicit fuel argument (always called with at
least the length of the scanned text) so that every definition is a plain
structural recursion that the kernel can evaluate.
Each Lean definition is a transcription of the corresponding Python
function; dataclasses become structures with the same fields and defaults.
-/

set_option maxRecDepth 100000

abbrev Bytes := List Char

def bs (s : String) : Bytes := s.toList

/-- PyErr enumerates the exception classes the modelled code can raise. -/
inductive PyErr where
  | valueError
  | attributeError
  | indexError
  | typeError
  deriving Repr, DecidableEq

abbrev PRes (α : Type) := Except PyErr α

instance {ε α : Type} [DecidableEq ε] [DecidableEq α] : DecidableEq (Except ε α) := fun a b =>
  match a, b with
  | .ok x, .ok y =>
    if h : x = y then isTrue (by subst h; rfl) else isFalse (fun c => by cases c; exact h rfl)
  | .error x, .error y =>
    if h : x = y then isTrue (by subst h; rfl) else isFalse (fun c => by cases c; exact h rfl)
  | .ok _, .error _ => isFalse (fun c => Except.noConfusion c)
  | .error _, .ok _ => isFalse (fun c => Except.noConfusion c)

/-- pyIsSpace models the whitespace class used by bytes.strip / regex \s. -/
def pyIsSpace (c : Char) : Bool :=
  c = ' ' || c = '\t' || c = '\n' || c = '\r' || c = '\x0b' || c = '\x0c'

/-- pyLStrip models bytes.lstrip() with no argument. -/
def pyLStrip (l : Bytes) : Bytes := l.dropWhile pyIsSpace

/-- pyRStrip models bytes.rstrip() with no argument. -/
def pyRStrip (l : Bytes) : Bytes := (l.reverse.dropWhile pyIsSpace).reverse

/-- pyStrip models bytes.strip() with no argument. -/
def pyStrip (l : Bytes) : Bytes := pyRStrip (pyLStrip l)

/-- pyStripChar models bytes.strip(c) for a one-byte argument. -/
def pyStripChar (c : Char) (l : Bytes) : Bytes :=
  ((l.dropWhile (· = c)).reverse.dropWhile (· = c)).reverse

/-- splitChar models bytes.split(sep) for a one-byte separator: split at every
occurrence, keeping empty pieces. -/
def splitChar (sep : Char) : Bytes → List Bytes
  | [] => [[]]
  | c :: rest =>
    let r := splitChar sep rest
    if c = sep then [] :: r
    else match r with
      | [] => [[c]]
      | h :: t => (c :: h) :: t

/-- splitWsGo: accumulator pass behind splitWs. -/
def splitWsGo : Bytes → Bytes → List Bytes
  | [], acc => if acc = [] then [] else [acc.reverse]
  | c :: rest, acc =>
    if pyIsSpace c then
      if acc = [] then splitWsGo rest []
      else acc.reverse :: splitWsGo rest []
    else splitWsGo rest (c :: acc)

/-- splitWs models bytes.split() with no argument: split on whitespace runs,
dropping empty pieces. -/
def splitWs (l : Bytes) : List Bytes := splitWsGo l []

/-- isDigitC for ASCII decimal digits. -/
def isDigitC (c : Char) : Bool := '0' ≤ c && c ≤ '9'

def digitVal (c : Char) : Nat := c.toNat - '0'.toNat

def digitsToNat (l : Bytes) : Nat := l.foldl (fun a c => a * 10 + digitVal c) 0

/-- pyInt models Python int(b) on a bytes argument: surrounding whitespace is
allowed, then an optional sign and a nonempty digit run; anything else raises
ValueError. -/
def pyInt (l : Bytes) : PRes Int :=
  let s := pyStrip l
  match s with
  | '-' :: ds =>
    if ds ≠ [] ∧ ds.all isDigitC then .ok (-(digitsToNat ds : Int)) else .error .valueError
  | '+' :: ds =>
    if ds ≠ [] ∧ ds.all isDigitC then .ok (digitsToNat ds : Int) else .error .valueError
  | ds =>
    if ds ≠ [] ∧ ds.all isDigitC then .ok (digitsToNat ds : Int) else .error .valueError

/-- pyFloatCore parses digits[.digits] into a rational. -/
def pyFloatCore (t : Bytes) : PRes Rat :=
  let intPart := t.takeWhile isDigitC
  let rest := t.dropWhile isDigitC
  match rest with
  | [] => if intPart ≠ [] then .ok (digitsToNat intPart : Rat) else .error .valueError
  | '.' :: frac =>
    if (intPart ≠ [] ∨ frac ≠ []) ∧ frac.all isDigitC then
      .ok ((digitsToNat intPart : Rat) + (digitsToNat frac : Rat) / ((10 : Rat) ^ frac.length))
    else .error .valueError
  | _ => .error .valueError

/-- pyFloat models Python float(b) restricted to plain decimal literals
(optional sign, digits, optional fractional part), which is the only shape the
modelled call sites feed it; other inputs raise ValueError. -/
def pyFloat (l : Bytes) : PRes Rat :=
  match pyStrip l with
  | '-' :: t => do pure (-(← pyFloatCore t))
  | '+' :: t => pyFloatCore t
  | t => pyFloatCore t

/-- pyReplaceGo: fuel-indexed scan behind pyReplaceAll; fuel bounds the number
of characters examined, so calling it with the text's length is exact. -/
def pyReplaceGo (old new_ : Bytes) : Nat → Bytes → Bytes
  | _, [] => []
  | 0, l => l
  | fuel + 1, c :: rest =>
    if old ≠ [] ∧ old.isPrefixOf (c :: rest) then
      new_ ++ pyReplaceGo old new_ fuel ((c :: rest).drop old.length)
    else
      c :: pyReplaceGo old new_ fuel rest

/-- pyReplaceAll models bytes.replace(old, new) (all non-overlapping
occurrences, left to right) for a nonempty old. -/
def pyReplaceAll (old new_ l : Bytes) : Bytes := pyReplaceGo old new_ l.length l

/-- findSub models the position of the first occurrence of a pattern as a
substring; none when the pattern does not occur. -/
def findSub (pat : Bytes) : Bytes → Option Nat
  | [] => if pat = [] then some 0 else none
  | c :: rest =>
    if pat.isPrefixOf (c :: rest) then some 0
    else (findSub pat rest).map (· + 1)

/-- containsSub: the pattern occurs as a contiguous substring. -/
def containsSub (l pat : Bytes) : Bool := (findSub pat l).isSome

/-- afterFirst: the suffix just after the first occurrence of pat, when pat
occurs (the tail a regex continues matching from after a literal anchor). -/
def afterFirst (pat : Bytes) : Bytes → Option Bytes
  | [] => if pat = [] then some [] else none
  | c :: rest =>
    if pat.isPrefixOf (c :: rest) then some ((c :: rest).drop pat.length)
    else afterFirst pat rest

/- ======================================================================
   dumpstate/process/__init__.py
   ====================================================================== -/

/-- ThreadInfo mirrors the dataclass of the same name: a single thread line
from a process dump.  cpu_percent (a Python float fed only percentage
literals) is modelled as a rational. -/
structure ThreadInfo where
  pid : Int := 0
  tid : Int := 0
  user : Bytes := []
  name : Bytes := []
  state : Bytes := []
  cmd : Bytes := []
  label : Bytes := []
  ppid : Int := 0
  vsz : Bytes := []
  rss : Bytes := []
  wchan : Bytes := []
  addr : Bytes := []
  pri : Bytes := []
  ni : Bytes := []
  rtprio : Bytes := []
  sched : Bytes := []
  pcy : Bytes := []
  time : Bytes := []
  cpu_percent : Rat := 0
  virt : Bytes := []
  res : Bytes := []
  deriving Repr, DecidableEq

/-- ThreadInfo._parse_ps.  The guard returns unchanged below 14 columns, but
the 16-name tuple unpacking then needs at least 16 columns, so 14 or 15
columns raise ValueError exactly as the interpreter would. -/
def ThreadInfo.parsePs (t : ThreadInfo) (raw : Bytes) : PRes ThreadInfo := do
  let parts := splitWs raw
  if parts.length < 14 then
    return t
  if parts.length ≥ 16 then
    let pid ← pyInt parts[2]!
    let tid ← pyInt parts[3]!
    let ppid ← pyInt parts[4]!
    let cmd_parts := parts.drop 16
    return { t with
      label := parts[0]!, user := parts[1]!, pid := pid, tid := tid, ppid := ppid,
      vsz := parts[5]!, rss := parts[6]!, wchan := parts[7]!, addr := parts[8]!,
      state := parts[9]!, pri := parts[10]!, ni := parts[11]!, rtprio := parts[12]!,
      sched := parts[13]!, pcy := parts[14]!, time := parts[15]!,
      name := (cmd_parts.intersperse (bs " ")).flatten }
  else
    -- starred unpacking of 16 names from a 14- or 15-element list
    throw .valueError

/-- ThreadInfo._parse_top.  parts[3] is bound to a dynamic attribute pr (not a
declared field) in the source; it is not modelled since nothing reads it. -/
def ThreadInfo.parseTop (t : ThreadInfo) (raw : Bytes) : PRes ThreadInfo := do
  let parts := splitWs raw
  if parts.length < 12 then
    return t
  let pid ← pyInt parts[0]!
  let tid ← pyInt parts[1]!
  let cpu ← pyFloat (pyReplaceAll (bs "%") [] parts[5]!)
  return { t with
    pid := pid, tid := tid, user := parts[2]!, ni := parts[4]!,
    cpu_percent := cpu, state := parts[6]!, virt := parts[7]!, res := parts[8]!,
    pcy := parts[9]!, cmd := parts[10]!,
    name := ((parts.drop 11).intersperse (bs " ")).flatten }

/-- ThreadInfo.parse: strip the line and dispatch on the source name. -/
def ThreadInfo.parseLine (t : ThreadInfo) (line : Bytes) (source : String) : PRes ThreadInfo :=
  if source = "ps" then t.parsePs (pyStrip line)
  else if source = "top" then t.parseTop (pyStrip line)
  else .ok t

/-- Process mirrors the dataclass: a process and its threads (dict modelled as
an insertion-ordered association list). -/
structure Process where
  pid : Int
  user : Bytes
  name : Bytes
  threads : List (Int × ThreadInfo) := []
  deriving Repr, DecidableEq

def assocGet (l : List (Int × ThreadInfo)) (k : Int) : Option ThreadInfo :=
  (l.find? (fun p => p.1 = k)).map (·.2)

def assocSet (l : List (Int × ThreadInfo)) (k : Int) (v : ThreadInfo) :
    List (Int × ThreadInfo) :=
  if (l.find? (fun p => p.1 = k)).isSome then
    l.map (fun p => if p.1 = k then (k, v) else p)
  else l ++ [(k, v)]

/-- Process.add_thread.  The source iterates thread_info.__dict__ and copies
each attribute guarded by `value is not None`; no ThreadInfo attribute is
ever None (the dataclass defaults are b''/0/0.0 and the two parsers assign
only split results, parsed ints and a parsed float), so the guard always
holds and every field of the existing entry is overwritten in the merge. -/
def Process.addThread (p : Process) (t : ThreadInfo) : Process :=
  match assocGet p.threads t.tid with
  | none => { p with threads := p.threads ++ [(t.tid, t)] }
  | some _old => { p with threads := assocSet p.threads t.tid t }

/- concrete run used to exhibit the merge behaviour: a ps line and a top line
   for the same pid/tid -/

def c1PsLine : Bytes :=
  bs "u:r:zygote:s0 root 1234 1234 1 2000000 40000 0 0 S 19 0 - 0 fg 01:23 init"

def c1TopLine : Bytes :=
  bs "1234 1234 root 20 0 12.5% S 1.5G 100M fg init init"

def c1Merged : PRes Process := do
  let t1 ← ThreadInfo.parseLine {} c1PsLine "ps"
  let t2 ← ThreadInfo.parseLine {} c1TopLine "top"
  let p : Process := { pid := t1.pid, user := t1.user, name := t1.name }
  return (p.addThread t1).addThread t2

/- ======================================================================
   JSON values (the result type of json.loads in dumpstate/usb/__init__.py)
   ====================================================================== -/

/-- Json models the values produced by json.loads.  Numbers are kept as their
literal text (the modelled code never does arithmetic on them), objects as
insertion-ordered association lists. -/
inductive Json where
  | null
  | bool (b : Bool)
  | num (lit : Bytes)
  | str (s : Bytes)
  | arr (elems : List Json)
  | obj (members : List (Bytes × Json))
  deriving Repr

/-- pyDictGet models dict.get(key) on a parsed-JSON object: json.loads keeps
the last value for a duplicated key, so lookup takes the last binding. -/
def pyDictGet (members : List (Bytes × Json)) (key : Bytes) : Option Json :=
  (members.reverse.find? (fun p => p.1 = key)).map (·.2)

/-- intOfNumLit: Python int() applied to the float/int behind a JSON numeric
literal (truncation toward zero for a fractional literal). -/
def intOfNumLit (lit : Bytes) : PRes Int :=
  match lit with
  | '-' :: t =>
    let ip := t.takeWhile isDigitC
    if ip ≠ [] then .ok (-(digitsToNat ip : Int)) else .error .valueError
  | t =>
    let ip := t.takeWhile isDigitC
    if ip ≠ [] then .ok (digitsToNat ip : Int) else .error .valueError

/-- pyIntJson: Python int(x) on a value read out of parsed JSON. -/
def pyIntJson : Json → PRes Int
  | .num lit => intOfNumLit lit
  | .str s => pyInt s
  | .bool b => .ok (if b then 1 else 0)
  | .null => .error .typeError
  | .arr _ => .error .typeError
  | .obj _ => .error .typeError

/- ======================================================================
   dumpstate/usb/__init__.py: UsbConnection
   ====================================================================== -/

/-- UsbConnection mirrors the dataclass: information about one host
connection event.  The Python fields are declared bytes/int with zero/empty
defaults, but parse assigns props.get(...) results directly, so the modelled
field types admit the None (and non-bytes) values the code can actually
store; timestamp is modelled by the millisecond value handed to
datetime.fromtimestamp. -/
structure UsbConnection where
  device_address : Option Json := some (.str [])
  mode : Int := 0
  timestamp : Option Int := none
  manufacturer : Option Json := some (.str [])
  product : Option Json := some (.str [])
  deriving Repr

/-- UsbConnection.parse: transcription of the props-dict consumer.  A missing
mode key makes int(props.get('mode', -1)) return -1; missing
device_address/manufacturer/product keys store None. -/
def UsbConnection.parseProps (c : UsbConnection) (props : List (Bytes × Json)) :
    PRes UsbConnection := do
  let device_address := pyDictGet props (bs "device_address")
  let mode ← match pyDictGet props (bs "mode") with
    | none => pure (-1 : Int)
    | some v => pyIntJson v
  let timestamp_ms ← match pyDictGet props (bs "timestamp") with
    | none => pure (0 : Int)
    | some v => pyIntJson v
  return { c with
    device_address := device_address,
    mode := mode,
    timestamp := if timestamp_ms ≠ 0 then some timestamp_ms else none,
    manufacturer := pyDictGet props (bs "manufacturer"),
    product := pyDictGet props (bs "product") }

/- ======================================================================
   dumpstate/usb/__init__.py: balanced-delimiter boundary scan
   (parse_usb_manager_state, the block between `start_match = ...` and the
   json_like_content slice)
   ====================================================================== -/

/-- wsThenBrace: at this position the regex tail \s*{ matches (a possibly
empty whitespace run followed by an opening brace). -/
def wsThenBrace (l : Bytes) : Bool :=
  match l.dropWhile pyIsSpace with
  | '{' :: _ => true
  | _ => false

/-- reSearchWsBraceGo: scan for the first line-start position where \s*{
matches, tracking whether the current position starts a line. -/
def reSearchWsBraceGo : Bool → Nat → Bytes → Option Nat
  | _, _, [] => none
  | atStart, pos, c :: rest =>
    if atStart ∧ wsThenBrace (c :: rest) then some pos
    else reSearchWsBraceGo (c = '\n') (pos + 1) rest

/-- reSearchWsBrace models re.search(r'^\s*{', block, re.MULTILINE).start().
Note that the match (and hence .start()) begins at the whitespace, not at
the brace. -/
def reSearchWsBrace (block : Bytes) : Option Nat := reSearchWsBraceGo true 0 block

/-- braceScanGo follows the source loop body exactly: adjust the depth
counter for the character, then stop at this index if the depth is zero. -/
def braceScanGo : Bytes → Int → Nat → Option Nat
  | [], _, _ => none
  | c :: rest, level, idx =>
    let level' : Int :=
      if c = '{' then level + 1 else if c = '}' then level - 1 else level
    if level' = 0 then some idx else braceScanGo rest level' (idx + 1)

/-- pySlice models block[a:b] for 0 ≤ a, b. -/
def pySlice (a b : Nat) (l : Bytes) : Bytes := (l.drop a).take (b - a)

/-- findJsonBody: the boundary scan of parse_usb_manager_state.  Returns
(start_index, end_index, json_like_content) when a start match and an
end index are found. -/
def findJsonBody (block : Bytes) : Option (Nat × Nat × Bytes) :=
  match reSearchWsBrace block with
  | none => none
  | some start_index =>
    match braceScanGo (block.drop start_index) 0 0 with
    | none => none
    | some i =>
      let end_index := start_index + i
      some (start_index, end_index, pySlice (start_index + 1) end_index block)

/- ======================================================================
   Section location (re.search with a literal anchor, DOTALL, and a lazy
   group up to an end pattern), shared by several parse functions
   ====================================================================== -/

/-- locateSection models re.search(anchorStart + lazy-group + anchorEnd,
raw, DOTALL).group(1): the text between the first occurrence of the start
anchor and the first following occurrence of the end pattern; none when
either is missing (with DOTALL, an occurrence of the end pattern after a
later start occurrence is also after the first one, so only the first
start occurrence matters). -/
def locateSection (anchorStart anchorEnd raw : Bytes) : Option Bytes :=
  match afterFirst anchorStart raw with
  | none => none
  | some tail =>
    match findSub anchorEnd tail with
    | none => none
    | some i => some (tail.take i)

def nonWs (c : Char) : Bool := ¬ pyIsSpace c

/- ======================================================================
   dumpstate/mount/__init__.py
   ====================================================================== -/

/-- MountPoint mirrors the dataclass: a single mount point entry. -/
structure MountPoint where
  device : Bytes := []
  path : Bytes := []
  mount_type : Bytes := []
  options : List Bytes := []
  deriving Repr, DecidableEq

/-- matchMount models re.match(rb'(\S+)\s+on\s+(\S+)\s+type\s+(\S+)\s+\((.*?)\)', raw).
Each \S+ / \s+ run is maximal and cannot backtrack into the following
literal, so the anchored match is deterministic; the lazy group runs to the
first closing parenthesis (failing at a newline, which . cannot cross). -/
def matchMount (s0 : Bytes) : Option (Bytes × Bytes × Bytes × Bytes) := do
  let dev := s0.takeWhile nonWs
  guard (dev ≠ [])
  let s1 := (s0.drop dev.length)
  guard (s1.takeWhile pyIsSpace ≠ [])
  let s2 := s1.dropWhile pyIsSpace
  guard ((bs "on").isPrefixOf s2)
  let s3 := s2.drop 2
  guard (s3.takeWhile pyIsSpace ≠ [])
  let s4 := s3.dropWhile pyIsSpace
  let path := s4.takeWhile nonWs
  guard (path ≠ [])
  let s5 := s4.drop path.length
  guard (s5.takeWhile pyIsSpace ≠ [])
  let s6 := s5.dropWhile pyIsSpace
  guard ((bs "type").isPrefixOf s6)
  let s7 := s6.drop 4
  guard (s7.takeWhile pyIsSpace ≠ [])
  let s8 := s7.dropWhile pyIsSpace
  let typ := s8.takeWhile nonWs
  guard (typ ≠ [])
  let s9 := s8.drop typ.length
  guard (s9.takeWhile pyIsSpace ≠ [])
  let s10 := s9.dropWhile pyIsSpace
  match s10 with
  | '(' :: s11 =>
    let opts := s11.takeWhile (fun c => c ≠ ')' ∧ c ≠ '\n')
    match s11.drop opts.length with
    | ')' :: _ => some (dev, path, typ, opts)
    | _ => none
  | _ => none

/-- MountPoint.parse: strip the line, and on a regex match set the four
fields (options split on commas and stripped); on no match leave every
field at its default. -/
def MountPoint.parseLine (mp : MountPoint) (raw : Bytes) : MountPoint :=
  match matchMount (pyStrip raw) with
  | some (d, p, t, o) =>
    { mp with device := d, path := p, mount_type := t
              options := (splitChar ',' o).map pyStrip }
  | none => mp

def mountAnchor : Bytes := bs "------ MOUNT POINT DUMP (mount) ------\n"

def dashAnchor : Bytes := bs "\n------"

/-- mountStep: one iteration of the section loop — every line with nonempty
strip appends exactly one (possibly all-default) record. -/
def mountStep (acc : List MountPoint) (line : Bytes) : List MountPoint :=
  if (pyStrip line).isEmpty then acc else acc ++ [MountPoint.parseLine {} line]

/-- parse_mount_points: locate the MOUNT POINT DUMP section, then run
mountStep over its lines. -/
def parseMountPoints (raw : Bytes) : Option (List MountPoint) :=
  (locateSection mountAnchor dashAnchor raw).map
    (fun content => (splitChar '\n' (pyStrip content)).foldl mountStep [])

/- ======================================================================
   dumpstate/kernel/lsmod.py
   ====================================================================== -/

/-- LoadedModule mirrors the dataclass: a single loaded kernel module. -/
structure LoadedModule where
  name : Bytes := []
  size : Int := 0
  used_by : List Bytes := []
  deriving Repr, DecidableEq

/-- LoadedModule.parse: below three columns the record is left unchanged;
otherwise name and size are set (int() may raise) and, with more than three
columns, used_by is the comma-stripped tail. -/
def LoadedModule.parseLine (m : LoadedModule) (raw : Bytes) : PRes LoadedModule := do
  if raw = [] then return m
  let r := pyStrip raw
  let parts := splitWs r
  if parts.length < 3 then return m
  let size ← pyInt parts[1]!
  return { m with
    name := parts[0]!, size := size,
    used_by := if parts.length > 3 then (parts.drop 3).map (pyStripChar ',') else m.used_by }

def lsmodAnchor : Bytes := bs "------ LSMOD (lsmod) ------\n"

/-- parse_lsmod: locate the LSMOD section; each nonblank line not starting
with Module yields one parsed record. -/
def parseLsmod (raw : Bytes) : PRes (Option (List LoadedModule)) := do
  match locateSection lsmodAnchor dashAnchor raw with
  | none => return none
  | some content =>
    let mods ← (splitChar '\n' (pyStrip content)).foldlM
      (fun (acc : List LoadedModule) (line : Bytes) => do
        if (pyStrip line).isEmpty then
          pure acc
        else if (bs "Module").isPrefixOf line then
          pure acc
        else do
          let lm ← LoadedModule.parseLine {} line
          pure (acc ++ [lm]))
      ([] : List LoadedModule)
    return some mods

/- ======================================================================
   dumpstate/package/__init__.py
   ====================================================================== -/

def isUpperC (c : Char) : Bool := 'A' ≤ c && c ≤ 'Z'

def isLowerC (c : Char) : Bool := 'a' ≤ c && c ≤ 'z'

/-- isWordC: the regex \w class (ASCII letters, digits, underscore). -/
def isWordC (c : Char) : Bool := isUpperC c || isLowerC c || isDigitC c || c = '_'

/-- isAlphaSpC: the class [a-zA-Z\s]. -/
def isAlphaSpC (c : Char) : Bool := isUpperC c || isLowerC c || pyIsSpace c

/-- matchUpperHeader models re.match(rb'^[A-Z][a-zA-Z\s]+:', line): an upper
letter, a nonempty letters-and-whitespace run, then a colon.  The colon is
not in the run class, so only the maximal run can be followed by one. -/
def matchUpperHeader : Bytes → Bool
  | [] => false
  | c :: rest =>
    isUpperC c &&
      (let r := rest.takeWhile isAlphaSpC
       !r.isEmpty && (rest.drop r.length).head? = some ':')

/-- dictSet models dict assignment d[k] = v on an insertion-ordered dict. -/
def dictSet {κ α : Type} [DecidableEq κ] (l : List (κ × α)) (k : κ) (v : α) :
    List (κ × α) :=
  if l.any (fun p => p.1 = k) then l.map (fun p => if p.1 = k then (k, v) else p)
  else l ++ [(k, v)]

/-- splitOnceChar models bytes.split(sep, 1) for a one-byte separator. -/
def splitOnceChar (sep : Char) (l : Bytes) : Option (Bytes × Bytes) :=
  let pre := l.takeWhile (· ≠ sep)
  match l.drop pre.length with
  | _ :: rest => some (pre, rest)
  | [] => none

/-- splitIdx1 models line.split(sep)[1] (the piece between the first and
second separator), raising IndexError when the separator is absent. -/
def splitIdx1 (sep : Char) (l : Bytes) : PRes Bytes :=
  match splitChar sep l with
  | _ :: x :: _ => .ok x
  | _ => .error .indexError

/-- splitSubGo: fuel-indexed scan behind splitSub. -/
def splitSubGo (sep : Bytes) : Nat → Bytes → List Bytes
  | _, [] => [[]]
  | 0, l => [l]
  | fuel + 1, c :: rest =>
    if sep.isPrefixOf (c :: rest) then
      [] :: splitSubGo sep fuel ((c :: rest).drop sep.length)
    else match splitSubGo sep fuel rest with
      | [] => [[c]]
      | h :: t => (c :: h) :: t

/-- splitSub models bytes.split(sep) for a nonempty multi-byte separator. -/
def splitSub (sep l : Bytes) : List Bytes := splitSubGo sep l.length l

/-- splitOnceSub models bytes.split(sep, 1) for a multi-byte separator. -/
def splitOnceSub (sep l : Bytes) : Option (Bytes × Bytes) :=
  match findSub sep l with
  | some i => some (l.take i, l.drop (i + sep.length))
  | none => none

/-- searchPkgNameGo: fuel-indexed occurrence loop behind searchPkgName. -/
def searchPkgNameGo : Nat → Bytes → Option Bytes
  | 0, _ => none
  | fuel + 1, l =>
    match afterFirst (bs "Package [") l with
    | none => none
    | some tail =>
      let nm := tail.takeWhile (· ≠ ']')
      if !nm.isEmpty && (tail.drop nm.length).head? = some ']' then some nm
      else searchPkgNameGo fuel tail

/-- searchPkgName models re.search(rb'Package \[([^\]]+)\]', line): the first
occurrence of the literal whose bracket group closes. -/
def searchPkgName (l : Bytes) : Option Bytes := searchPkgNameGo (l.length + 1) l

/-- tryGrantedTail: after the colon of a permission line, match
\s*granted=(true|false) followed by the optional ,\s*flags=[...] group of the
runtime-permissions regex; the optional group matches empty when its
interior fails. -/
def tryGrantedTail (tail : Bytes) : Option (Bool × Option Bytes) := do
  let t2 := tail.dropWhile pyIsSpace
  guard ((bs "granted=").isPrefixOf t2)
  let t3 := t2.drop 8
  let granted ←
    if (bs "true").isPrefixOf t3 then some true
    else if (bs "false").isPrefixOf t3 then some false
    else none
  let t4 := t3.drop (if granted then 4 else 5)
  let flags : Option Bytes :=
    match t4 with
    | ',' :: t5 =>
      let t6 := t5.dropWhile pyIsSpace
      if (bs "flags=[").isPrefixOf t6 then
        let t7 := t6.drop 7
        let content := t7.takeWhile (fun c => c ≠ ']' ∧ c ≠ '\n')
        if (t7.drop content.length).head? = some ']' then some content else none
      else none
    | _ => none
  return (granted, flags)

/-- searchRuntimePermGo: try each colon in turn; group 1 is the maximal
colon-free run ending at the matching colon, so on failure the scan resumes
after that colon. -/
def searchRuntimePermGo : Nat → Bytes → Option (Bytes × Bool × Option Bytes)
  | 0, _ => none
  | fuel + 1, l =>
    let g1 := l.takeWhile (· ≠ ':')
    match l.drop g1.length with
    | ':' :: tail =>
      if g1 ≠ [] then
        match tryGrantedTail tail with
        | some (granted, flags) => some (g1, granted, flags)
        | none => searchRuntimePermGo fuel tail
      else searchRuntimePermGo fuel tail
    | _ => none

/-- searchRuntimePerm models
re.search(rb'([^:]+):\s*granted=(true|false)(?:,\s*flags=\[(.*?)\])?', line). -/
def searchRuntimePerm (l : Bytes) : Option (Bytes × Bool × Option Bytes) :=
  searchRuntimePermGo (l.length + 1) l

/-- tryInstallTail: after the colon, match the literal tail of the
install-permissions regex ' granted=(true|false)'. -/
def tryInstallTail (tail : Bytes) : Option Bool := do
  guard ((bs " granted=").isPrefixOf tail)
  let t3 := tail.drop 9
  if (bs "true").isPrefixOf t3 then some true
  else if (bs "false").isPrefixOf t3 then some false
  else none

/-- searchInstallPermGo: occurrence loop for the install-permissions regex. -/
def searchInstallPermGo : Nat → Bytes → Option (Bytes × Bool)
  | 0, _ => none
  | fuel + 1, l =>
    let g1 := l.takeWhile (· ≠ ':')
    match l.drop g1.length with
    | ':' :: tail =>
      if g1 ≠ [] then
        match tryInstallTail tail with
        | some granted => some (g1, granted)
        | none => searchInstallPermGo fuel tail
      else searchInstallPermGo fuel tail
    | _ => none

/-- searchInstallPerm models re.search(rb'([^:]+): granted=(true|false)', line). -/
def searchInstallPerm (l : Bytes) : Option (Bytes × Bool) :=
  searchInstallPermGo (l.length + 1) l

/-- searchDeclaredPermGo: occurrence loop for the declared-permissions regex. -/
def searchDeclaredPermGo : Nat → Bytes → Option (Bytes × Option Bytes)
  | 0, _ => none
  | fuel + 1, l =>
    let g1 := l.takeWhile (· ≠ ':')
    match l.drop g1.length with
    | ':' :: tail =>
      if g1 ≠ [] then
        let t2 := tail.dropWhile pyIsSpace
        if (bs "prot=").isPrefixOf t2 then
          let pv := (t2.drop 5).takeWhile (· ≠ ':')
          if pv ≠ [] then some (g1, some pv) else some (g1, none)
        else some (g1, none)
      else searchDeclaredPermGo fuel tail
    | _ => none

/-- searchDeclaredPerm models re.search(rb'([^:]+):\s*(prot=([^:]+))?', line).
The optional group always matches (possibly empty), so the first colon with a
nonempty colon-free run before it gives the match; group 3 is none when
prot= (with a nonempty value) does not follow the whitespace. -/
def searchDeclaredPerm (l : Bytes) : Option (Bytes × Option Bytes) :=
  searchDeclaredPermGo (l.length + 1) l

/-- searchLitDigitsGo: occurrence loop for literal-then-(\d+) searches. -/
def searchLitDigitsGo (lit : Bytes) : Nat → Bytes → Option Bytes
  | 0, _ => none
  | fuel + 1, l =>
    match afterFirst lit l with
    | none => none
    | some tail =>
      let ds := tail.takeWhile isDigitC
      if ds ≠ [] then some ds else searchLitDigitsGo lit fuel tail

/-- searchLitDigits models re.search(lit + rb'(\d+)', line).group(1). -/
def searchLitDigits (lit l : Bytes) : Option Bytes :=
  searchLitDigitsGo lit (l.length + 1) l

/-- searchLitNonWsGo: occurrence loop for literal-then-([^\s]+) searches. -/
def searchLitNonWsGo (lit : Bytes) : Nat → Bytes → Option Bytes
  | 0, _ => none
  | fuel + 1, l =>
    match afterFirst lit l with
    | none => none
    | some tail =>
      let ds := tail.takeWhile nonWs
      if ds ≠ [] then some ds else searchLitNonWsGo lit fuel tail

/-- searchLitNonWs models re.search(lit + rb'([^\s]+)', line).group(1). -/
def searchLitNonWs (lit l : Bytes) : Option Bytes :=
  searchLitNonWsGo lit (l.length + 1) l

def isUpperScoreC (c : Char) : Bool := isUpperC c || c = '_'

/-- findAllUpperGo: fuel-indexed scan behind findAllUpper. -/
def findAllUpperGo : Nat → Bytes → List Bytes
  | 0, _ => []
  | _, [] => []
  | fuel + 1, c :: rest =>
    if isUpperScoreC c then
      let run := (c :: rest).takeWhile isUpperScoreC
      run :: findAllUpperGo fuel ((c :: rest).drop run.length)
    else findAllUpperGo fuel rest

/-- findAllUpper models re.findall(rb'([A-Z_]+)', line): all maximal runs of
capitals and underscores. -/
def findAllUpper (l : Bytes) : List Bytes := findAllUpperGo (l.length + 1) l

/-- searchUserIdGo: occurrence loop for re.search(rb'User (\d+):', line). -/
def searchUserIdGo : Nat → Bytes → Option Bytes
  | 0, _ => none
  | fuel + 1, l =>
    match afterFirst (bs "User ") l with
    | none => none
    | some tail =>
      let ds := tail.takeWhile isDigitC
      if ds ≠ [] ∧ (tail.drop ds.length).head? = some ':' then some ds
      else searchUserIdGo fuel tail

/-- searchUserId models re.search(rb'User (\d+):', line).group(1). -/
def searchUserId (l : Bytes) : Option Bytes := searchUserIdGo (l.length + 1) l

/-- dateShape checks the exact shape \d{4}-\d{2}-\d{2} \d{2}:\d{2}:\d{2}
against the first 19 characters. -/
def dateShape (l : Bytes) : Bool :=
  match l.take 19 with
  | [y1, y2, y3, y4, d1, m1, m2, d2, dd1, dd2, sp, h1, h2, co1, mi1, mi2, co2, s1, s2] =>
    isDigitC y1 && isDigitC y2 && isDigitC y3 && isDigitC y4 && d1 = '-' &&
    isDigitC m1 && isDigitC m2 && d2 = '-' && isDigitC dd1 && isDigitC dd2 &&
    sp = ' ' && isDigitC h1 && isDigitC h2 && co1 = ':' && isDigitC mi1 &&
    isDigitC mi2 && co2 = ':' && isDigitC s1 && isDigitC s2
  | _ => false

/-- searchInstallTimeGo: occurrence loop for the firstInstallTime search. -/
def searchInstallTimeGo : Nat → Bytes → Option Bytes
  | 0, _ => none
  | fuel + 1, l =>
    match afterFirst (bs "firstInstallTime=") l with
    | none => none
    | some tail =>
      if dateShape tail then some (tail.take 19) else searchInstallTimeGo fuel tail

/-- searchInstallTime models
re.search(rb'firstInstallTime=(\d{4}-\d{2}-\d{2} \d{2}:\d{2}:\d{2})', line). -/
def searchInstallTime (l : Bytes) : Option Bytes :=
  searchInstallTimeGo (l.length + 1) l

def isLeapYear (y : Nat) : Bool := y % 4 = 0 && (y % 100 ≠ 0 || y % 400 = 0)

def daysInMonth (y m : Nat) : Nat :=
  if m = 2 then (if isLeapYear y then 29 else 28)
  else if m = 4 ∨ m = 6 ∨ m = 9 ∨ m = 11 then 30
  else 31

/-- pyStrptimeDT models datetime.strptime(s, "%Y-%m-%d %H:%M:%S"): the whole
string must have the date shape and denote a valid calendar date-time;
the validated literal stands for the datetime value. -/
def pyStrptimeDT (s : Bytes) : PRes Bytes :=
  if s.length = 19 ∧ dateShape s then
    let y := digitsToNat (s.take 4)
    let mo := digitsToNat ((s.drop 5).take 2)
    let d := digitsToNat ((s.drop 8).take 2)
    let h := digitsToNat ((s.drop 11).take 2)
    let mi := digitsToNat ((s.drop 14).take 2)
    let se := digitsToNat ((s.drop 17).take 2)
    if 1 ≤ mo ∧ mo ≤ 12 ∧ 1 ≤ d ∧ d ≤ daysInMonth y mo ∧ h ≤ 23 ∧ mi ≤ 59 ∧ se ≤ 59 then
      .ok s
    else .error .valueError
  else .error .valueError

/-- Package mirrors the dataclass: a single package from the package dump.
The two datetime fields hold the validated literal (default None). -/
structure Package where
  name : Bytes := []
  app_id : Bytes := []
  version_code : Int := 0
  version_name : Bytes := []
  data_dir : Bytes := []
  flags : List Bytes := []
  private_flags : List Bytes := []
  users : List (Int × Bytes) := []
  runtime_permissions : List (Bytes × (Bool × List Bytes)) := []
  install_permissions : List (Bytes × Bool) := []
  declared_permissions : List (Bytes × List Bytes) := []
  first_install_time : Bytes := []
  originating_package_name : Bytes := []
  initiating_package_name : Bytes := []
  time_stamp : Option Bytes := none
  last_update_time : Option Bytes := none
  installer_package_uid : Int := 0
  deriving Repr, DecidableEq

/-- PackageInfo mirrors the dataclass for the DUMP OF SERVICE package
section.  The dataclass fields from permissions through apex_session_state
are declared but never assigned by parse_package_info; they are kept here
with their empty defaults. -/
structure PackageInfo where
  service_pid : Int := 0
  threads_in_use : Bytes := []
  client_pids : List Int := []
  database_versions : List (Bytes × Bytes) := []
  known_packages : List (Bytes × Bytes) := []
  verifiers : List Bytes := []
  domain_verifier : Bytes := []
  libraries : List (Bytes × Bytes) := []
  features : List Bytes := []
  packages : List Package := []
  permissions : List Bytes := []
  shared_users : List Bytes := []
  activity_resolver : List (Bytes × Bytes) := []
  receiver_resolver : List (Bytes × Bytes) := []
  service_resolver : List (Bytes × Bytes) := []
  provider_resolver : List (Bytes × Bytes) := []
  permission_trees : List Bytes := []
  package_changes : List (Bytes × Bytes) := []
  install_sessions : List Bytes := []
  apex_session_state : List (Bytes × Bytes) := []
  deriving Repr, DecidableEq

/-- PkgSection: the values current_section takes in parse_package_info. -/
inductive PkgSection where
  | database | known_packages | verifiers | domain_verifier
  | libraries | features | packages
  deriving Repr, DecidableEq

/-- PkgSub: the values current_package_subsection takes. -/
inductive PkgSub where
  | runtime | install | declared
  deriving Repr, DecidableEq

/-- PkgSt: the loop state of parse_package_info.  The Python code appends
current_package to package_info.packages at creation and then keeps mutating
it; here finished packages live in donePkgs and the open one in currentPkg,
and packages = donePkgs ++ currentPkg.toList at every observation point. -/
structure PkgSt where
  info : PackageInfo := {}
  csec : Option PkgSection := none
  donePkgs : List Package := []
  currentPkg : Option Package := none
  csub : Option PkgSub := none
  deriving Repr, DecidableEq

/-- pkgPackagesLine: the body of the current_section == 'packages' branch. -/
def pkgPackagesLine (st : PkgSt) (non_stripped line : Bytes) : PRes PkgSt := do
  if (bs "Package [").isPrefixOf line then
    return { st with
      donePkgs := st.donePkgs ++ st.currentPkg.toList
      currentPkg := some { name := (searchPkgName line).getD [] }
      csub := none }
  else
    match st.currentPkg with
    | none => return st
    | some cp => do
      if (bs "runtime permissions:").isPrefixOf line then
        return { st with csub := some .runtime }
      else if (bs "install permissions:").isPrefixOf line then
        return { st with csub := some .install }
      else if (bs "declared permissions:").isPrefixOf line then
        return { st with csub := some .declared }
      else do
        -- a line not indented by at least 6 spaces leaves any subsection
        let csub := if ¬ (bs "      ").isPrefixOf non_stripped then none else st.csub
        match csub with
        | some .runtime =>
          match searchRuntimePerm line with
          | some (nm, granted, flags) =>
            let fl := match flags with
              | some f => if f ≠ [] then (splitChar '|' f).map pyStrip else []
              | none => []
            return { st with
              csub := csub
              currentPkg := some { cp with
                runtime_permissions := dictSet cp.runtime_permissions (pyStrip nm) (granted, fl) } }
          | none => return { st with csub := csub }
        | some .install =>
          match searchInstallPerm line with
          | some (nm, granted) =>
            return { st with
              csub := csub
              currentPkg := some { cp with
                install_permissions := dictSet cp.install_permissions (pyStrip nm) granted } }
          | none => return { st with csub := csub }
        | some .declared =>
          match searchDeclaredPerm line with
          | some (nm, protOpt) =>
            match protOpt with
            | none =>
              -- match.group(3) is None and None.strip() raises
              throw .attributeError
            | some pv =>
              return { st with
                csub := csub
                currentPkg := some { cp with
                  declared_permissions := dictSet cp.declared_permissions (pyStrip nm)
                    ((splitChar '|' pv).map pyStrip) } }
          | none => return { st with csub := csub }
        | none =>
          if (bs "appId=").isPrefixOf line then
            let v ← splitIdx1 '=' line
            return { st with csub := csub, currentPkg := some { cp with app_id := v } }
          else if containsSub line (bs "versionCode=") then
            match searchLitDigits (bs "versionCode=") line with
            | some ds => do
              let v ← pyInt ds
              return { st with csub := csub, currentPkg := some { cp with version_code := v } }
            | none => return { st with csub := csub }
          else if containsSub line (bs "versionName=") then
            match searchLitNonWs (bs "versionName=") line with
            | some v =>
              return { st with csub := csub, currentPkg := some { cp with version_name := v } }
            | none => return { st with csub := csub }
          else if (bs "dataDir=").isPrefixOf line then
            let v ← splitIdx1 '=' line
            return { st with csub := csub, currentPkg := some { cp with data_dir := v } }
          else if (bs "flags=").isPrefixOf line then
            return { st with
              csub := csub
              currentPkg := some { cp with flags := findAllUpper line } }
          else if (bs "privateFlags=").isPrefixOf line then
            return { st with
              csub := csub
              currentPkg := some { cp with private_flags := findAllUpper line } }
          else if (bs "User ").isPrefixOf line then
            match searchUserId line with
            | some ds => do
              let uid ← pyInt ds
              let cp2 := { cp with users := dictSet cp.users uid line }
              let cp3 := match searchInstallTime line with
                | some dt => { cp2 with first_install_time := dt }
                | none => cp2
              return { st with csub := csub, currentPkg := some cp3 }
            | none => return { st with csub := csub }
          else if (bs "originatingPackageName").isPrefixOf line then
            let v ← splitIdx1 '=' line
            return { st with
              csub := csub
              currentPkg := some { cp with originating_package_name := v } }
          else if (bs "initiatingPackageName").isPrefixOf line then
            let v ← splitIdx1 '=' line
            return { st with
              csub := csub
              currentPkg := some { cp with initiating_package_name := v } }
          else if (bs "installerPackageUid").isPrefixOf line then
            let v ← splitIdx1 '=' line
            let n ← pyInt v
            return { st with
              csub := csub
              currentPkg := some { cp with installer_package_uid := n } }
          else if (bs "timeStamp").isPrefixOf line then
            let v ← splitIdx1 '=' line
            let dt ← pyStrptimeDT v
            return { st with
              csub := csub
              currentPkg := some { cp with time_stamp := some dt } }
          else if (bs "lastUpdateTime").isPrefixOf line then
            let v ← splitIdx1 '=' line
            let dt ← pyStrptimeDT v
            return { st with
              csub := csub
              currentPkg := some { cp with last_update_time := some dt } }
          else
            return { st with csub := csub }

/-- pkgStep: the body of the per-line loop of parse_package_info. -/
def pkgStep (st : PkgSt) (non_stripped : Bytes) : PRes PkgSt := do
  let line := pyStrip non_stripped
  if line = [] then return st
  if (bs "Service host process PID:").isPrefixOf line then do
    let v ← pyInt (pyStrip (← splitIdx1 ':' line))
    return { st with info := { st.info with service_pid := v } }
  else if (bs "Threads in use:").isPrefixOf line then do
    let v ← splitIdx1 ':' line
    return { st with info := { st.info with threads_in_use := pyStrip v } }
  else if (bs "Client PIDs:").isPrefixOf line then do
    let v ← splitIdx1 ':' line
    let pids ← (splitSub (bs ", ") (pyStrip v)).mapM pyInt
    return { st with info := { st.info with client_pids := pids } }
  else if (bs "Database versions:").isPrefixOf line then
    return { st with csec := some .database }
  else if (bs "Known Packages:").isPrefixOf line then
    return { st with csec := some .known_packages }
  else if (bs "Verifiers:").isPrefixOf line then
    return { st with csec := some .verifiers }
  else if (bs "Domain Verifier:").isPrefixOf line then
    return { st with csec := some .domain_verifier }
  else if (bs "Libraries:").isPrefixOf line then
    return { st with csec := some .libraries }
  else if (bs "Features:").isPrefixOf line then
    return { st with csec := some .features }
  else if (bs "Packages:").isPrefixOf line then
    return { st with csec := some .packages }
  else if matchUpperHeader line then
    return { st with csec := none }
  else
    match st.csec with
    | none => return st
    | some .database =>
      if line.any (· = ':') then
        match splitOnceChar ':' line with
        | some (k, v) =>
          return { st with info := { st.info with
            database_versions := dictSet st.info.database_versions (pyStrip k) (pyStrip v) } }
        | none => return st
      else return st
    | some .known_packages =>
      if line.any (· = ':') then
        match splitOnceChar ':' line with
        | some (k, v) =>
          return { st with info := { st.info with
            known_packages := dictSet st.info.known_packages (pyStrip k) (pyStrip v) } }
        | none => return st
      else return st
    | some .verifiers =>
      if (bs "Required:").isPrefixOf line then
        return { st with info := { st.info with
          verifiers := st.info.verifiers ++ [pyStrip (pyReplaceAll (bs "Required:") [] line)] } }
      else return st
    | some .domain_verifier =>
      if (bs "Using:").isPrefixOf line then
        return { st with info := { st.info with
          domain_verifier := pyStrip (pyReplaceAll (bs "Using:") [] line) } }
      else return st
    | some .libraries =>
      if containsSub line (bs "->") then
        match splitOnceSub (bs "->") line with
        | some (k, v) =>
          return { st with info := { st.info with
            libraries := dictSet st.info.libraries (pyStrip k) (pyStrip v) } }
        | none => return st
      else return st
    | some .features =>
      return { st with info := { st.info with features := st.info.features ++ [line] } }
    | some .packages => pkgPackagesLine st non_stripped line

/-- pkgCollect: the section-collection loop of parse_package_info (gather
lines after the DUMP OF SERVICE package: header up to the next section
header). -/
def pkgCollect : List Bytes → Bool → List Bytes
  | [], _ => []
  | l :: ls, inSec =>
    if (bs "DUMP OF SERVICE package:").isPrefixOf l then pkgCollect ls true
    else if inSec then
      if (bs "DUMP OF SERVICE").isPrefixOf l ∨ (bs "------").isPrefixOf l then []
      else l :: pkgCollect ls inSec
    else pkgCollect ls false

/-- joinLines models b'\n'.join(lines). -/
def joinLines (ls : List Bytes) : Bytes := (ls.intersperse [('\n')]).flatten

/-- parsePkgFromLines: the tail of parse_package_info after the collection
loop — empty section gives None, otherwise the per-line loop runs over the
joined-then-resplit content and the open package is materialised into
packages (the source appends current_package at creation and keeps mutating
it; donePkgs ++ currentPkg.toList is that list's value). -/
def parsePkgFromLines (content_lines : List Bytes) : PRes (Option PackageInfo) :=
  if content_lines = [] then .ok none
  else
    ((splitChar '\n' (joinLines content_lines)).foldlM pkgStep {}).map
      (fun final => some { final.info with
        packages := final.donePkgs ++ final.currentPkg.toList })

/-- parse_package_info over the report's line list (RawData.lines). -/
def parsePackageInfo (reportLines : List Bytes) : PRes (Option PackageInfo) :=
  parsePkgFromLines (pkgCollect reportLines false)

/- concrete package-section inputs used below -/

def c8Base : Bytes := bs "android.permission.CAMERA: granted=true, flags=[USER_SET]"

def c8L1 : Bytes := bs "DUMP OF SERVICE package:"

def c8L2 : Bytes := bs "Packages:"

def c8L3 : Bytes := bs "  Package [com.app] (1a2b):"

def c8L4 : Bytes := bs "    runtime permissions:"

/-- c8Line: the CAMERA permission line indented by k spaces. -/
def c8Line (k : Nat) : Bytes := List.replicate k ' ' ++ c8Base

/-- c8Lines: a package section whose runtime permissions: subsection holds
the CAMERA line at indentation k. -/
def c8Lines (k : Nat) : List Bytes := [c8L1, c8L2, c8L3, c8L4, c8Line k]


def c2LinesA : List Bytes :=
  [bs "DUMP OF SERVICE package:", bs "Client PIDs: x"]

def c2LinesB : List Bytes :=
  [bs "DUMP OF SERVICE package:", bs "Packages:",
   bs "  Package [com.app] (1a2b):", bs "    installerPackageUid=abc"]

def c2LinesC : List Bytes :=
  [bs "DUMP OF SERVICE package:", bs "Packages:",
   bs "  Package [com.app] (1a2b):", bs "    declared permissions:",
   bs "      foo.permission.X: normal"]

def c2LinesD : List Bytes :=
  [bs "DUMP OF SERVICE package:", bs "Packages:",
   bs "  Package [com.app] (1a2b):", bs "    timeStamp=garbage"]

/- concrete mount section input used below -/

def c10Raw : Bytes :=
  bs "------ MOUNT POINT DUMP (mount) ------\n/dev/root on / type ext4 (rw,seclabel)\nnot a mount line\n------ 0.1 was the duration\n"

def c10Content : Bytes :=
  bs "/dev/root on / type ext4 (rw,seclabel)\nnot a mount line"

/- ======================================================================
   dumpstate/vm_traces/__init__.py
   ====================================================================== -/

/-- StackFrame mirrors the dataclass: a single frame of a stack trace. -/
structure StackFrame where
  frame_type : Bytes := []
  method : Bytes := []
  file_loc : Bytes := []
  line_number : Int := 0
  address : Bytes := []
  library : Bytes := []
  details : Bytes := []
  deriving Repr, DecidableEq

def isHexC (c : Char) : Bool := isDigitC c || ('a' ≤ c && c ≤ 'f') || ('A' ≤ c && c ≤ 'F')

/-- tryNativeAt: an anchored attempt of the native-frame pattern
#\d{2}\s+pc\s+([0-9a-fA-F]+)\s+([^\(]+)\s*\((.*?)\) at one position.  Every
quantified piece is maximal and ends at a character outside its class, so
the attempt is deterministic. -/
def tryNativeAt (l : Bytes) : Option (Bytes × Bytes × Bytes) := do
  let t1 ← match l with
    | '#' :: d1 :: d2 :: t => if isDigitC d1 && isDigitC d2 then some t else none
    | _ => none
  guard (t1.takeWhile pyIsSpace ≠ [])
  let t2 := t1.dropWhile pyIsSpace
  guard ((bs "pc").isPrefixOf t2)
  let t3 := t2.drop 2
  guard (t3.takeWhile pyIsSpace ≠ [])
  let t4 := t3.dropWhile pyIsSpace
  let hex := t4.takeWhile isHexC
  guard (hex ≠ [])
  let t5 := t4.drop hex.length
  guard (t5.takeWhile pyIsSpace ≠ [])
  let t6 := t5.dropWhile pyIsSpace
  let lib := t6.takeWhile (· ≠ '(')
  guard (lib ≠ [])
  match t6.drop lib.length with
  | '(' :: t7 =>
    let det := t7.takeWhile (fun c => c ≠ ')' ∧ c ≠ '\n')
    match t7.drop det.length with
    | ')' :: _ => some (hex, lib, det)
    | _ => none
  | _ => none

/-- searchNativeGo: position-by-position search loop for the native frame
regex. -/
def searchNativeGo : Nat → Bytes → Option (Bytes × Bytes × Bytes)
  | 0, _ => none
  | _, [] => none
  | fuel + 1, c :: rest =>
    match tryNativeAt (c :: rest) with
    | some r => some r
    | none => searchNativeGo fuel rest

/-- searchNative models
re.search(rb'#\d{2}\s+pc\s+([0-9a-fA-F]+)\s+([^\(]+)\s*\((.*?)\)', raw). -/
def searchNative (l : Bytes) : Option (Bytes × Bytes × Bytes) :=
  searchNativeGo (l.length + 1) l

/-- StackFrame._parse_native_frame. -/
def StackFrame.parseNative (sf : StackFrame) (raw : Bytes) : StackFrame :=
  match searchNative raw with
  | some (hex, lib, det) =>
    { sf with address := hex, library := pyStrip lib, details := pyStrip det }
  | none => sf

/-- managedGroupsIn: given the maximal colon-free run R after an opening
parenthesis, resolve the backtracking of ([^:]+):?(\d*)\) — first the
greedy full-R split through the optional colon, then shorter splits of R at
a digit-run-then-')' boundary, longest group 1 first. -/
def managedGroupsIn (r after : Bytes) : Option (Bytes × Bytes) :=
  let viaColon : Option (Bytes × Bytes) :=
    match after with
    | ':' :: t =>
      let ds := t.takeWhile isDigitC
      match t.drop ds.length with
      | ')' :: _ => some (r, ds)
      | _ => none
    | _ => none
  match viaColon with
  | some g => some g
  | none => backtrack r.length
where
  backtrack : Nat → Option (Bytes × Bytes)
    | 0 => none
    | i + 1 =>
      let g1 := r.take (i + 1)
      let tail := r.drop (i + 1)
      let ds := tail.takeWhile isDigitC
      match tail.drop ds.length with
      | ')' :: _ => some (g1, ds)
      | _ => backtrack i

/-- searchManagedGo: occurrence loop over opening parentheses for the
managed-frame regex \(([^:]+):?(\d*)\). -/
def searchManagedGo : Nat → Bytes → Option (Bytes × Bytes)
  | 0, _ => none
  | _, [] => none
  | fuel + 1, c :: rest =>
    if c = '(' then
      let r := rest.takeWhile (· ≠ ':')
      match managedGroupsIn r (rest.drop r.length) with
      | some g => some g
      | none => searchManagedGo fuel rest
    else searchManagedGo fuel rest

/-- searchManaged models re.search(rb'\(([^:]+):?(\d*)\)', method). -/
def searchManaged (l : Bytes) : Option (Bytes × Bytes) :=
  searchManagedGo (l.length + 1) l

/-- StackFrame._parse_managed_frame.  group 2 is all digits, so int() cannot
fail; an empty group 2 leaves line_number at 0. -/
def StackFrame.parseManaged (sf : StackFrame) (raw : Bytes) : StackFrame :=
  let method := pyReplaceAll (bs "at ") [] raw
  match searchManaged method with
  | some (g1, g2) =>
    { sf with
      method := method
      file_loc := g1
      line_number := if g2 ≠ [] then (digitsToNat g2 : Int) else 0 }
  | none => { sf with method := method }

/-- StackFrame.parse: set the frame type and dispatch on it (the line is
stripped first). -/
def StackFrame.parseLine (sf : StackFrame) (line : Bytes) (frame_type : Bytes) : StackFrame :=
  let sf := { sf with frame_type := frame_type }
  if frame_type = bs "native" then sf.parseNative (pyStrip line)
  else sf.parseManaged (pyStrip line)

/-- VmThread mirrors the Thread dataclass of dumpstate/vm_traces (renamed to
avoid clashing with an existing Lean name): one thread of the ANR trace. -/
structure VmThread where
  name : Bytes := []
  priority : Int := 0
  tid : Int := 0
  status : Bytes := []
  is_daemon : Bool := false
  properties : List (Bytes × Bytes) := []
  stack_trace : List StackFrame := []
  deriving Repr, DecidableEq

/-- tryThreadHeaderAt: anchored attempt of
"([^"]+)"\s+(daemon\s+)?prio=(\d+)\s+tid=(\d+)\s+(.*) at a quote. -/
def tryThreadHeaderAt (l : Bytes) : Option (Bytes × Bytes × Bytes × Bytes) := do
  let t0 ← match l with
    | '"' :: t => some t
    | _ => none
  let nm := t0.takeWhile (· ≠ '"')
  guard (nm ≠ [])
  let t1 ← match t0.drop nm.length with
    | '"' :: t => some t
    | _ => none
  guard (t1.takeWhile pyIsSpace ≠ [])
  let t2 := t1.dropWhile pyIsSpace
  let t3 :=
    if (bs "daemon").isPrefixOf t2 ∧ ((t2.drop 6).takeWhile pyIsSpace ≠ []) then
      (t2.drop 6).dropWhile pyIsSpace
    else t2
  guard ((bs "prio=").isPrefixOf t3)
  let pr := (t3.drop 5).takeWhile isDigitC
  guard (pr ≠ [])
  let t4 := (t3.drop 5).drop pr.length
  guard (t4.takeWhile pyIsSpace ≠ [])
  let t5 := t4.dropWhile pyIsSpace
  guard ((bs "tid=").isPrefixOf t5)
  let td := (t5.drop 4).takeWhile isDigitC
  guard (td ≠ [])
  let t6 := (t5.drop 4).drop td.length
  guard (t6.takeWhile pyIsSpace ≠ [])
  let t7 := t6.dropWhile pyIsSpace
  let rest := t7.takeWhile (· ≠ '\n')
  return (nm, pr, td, rest)

/-- searchThreadHeaderGo: occurrence loop over quotes for the header regex. -/
def searchThreadHeaderGo : Nat → Bytes → Option (Bytes × Bytes × Bytes × Bytes)
  | 0, _ => none
  | _, [] => none
  | fuel + 1, c :: rest =>
    match tryThreadHeaderAt (c :: rest) with
    | some r => some r
    | none => searchThreadHeaderGo fuel rest

/-- searchThreadHeader models
re.search(rb'"([^"]+)"\s+(daemon\s+)?prio=(\d+)\s+tid=(\d+)\s+(.*)', raw). -/
def searchThreadHeader (l : Bytes) : Option (Bytes × Bytes × Bytes × Bytes) :=
  searchThreadHeaderGo (l.length + 1) l

/-- VmThread.parse (and _parse_header): strip, set is_daemon from a substring
check, then fill name/priority/tid/status on a header match. -/
def VmThread.parseHeader (th : VmThread) (header_line : Bytes) : VmThread :=
  let raw := pyStrip header_line
  let th := { th with is_daemon := containsSub raw (bs "daemon") }
  match searchThreadHeader raw with
  | some (nm, pr, td, rest) =>
    { th with
      name := nm
      priority := (digitsToNat pr : Int)
      tid := (digitsToNat td : Int)
      status := pyStrip rest }
  | none => th

/-- kvPairsGo: position-by-position scan for re.findall of
(\w+)=("([^"]*)"|([^\s]+)); a quoted alternative is preferred, otherwise a
maximal non-whitespace run; scanning resumes after each match. -/
def kvPairsGo : Nat → Bytes → List (Bytes × Bytes)
  | 0, _ => []
  | _, [] => []
  | fuel + 1, c :: rest =>
    if isWordC c then
      let w := (c :: rest).takeWhile isWordC
      match (c :: rest).drop w.length with
      | '=' :: t =>
        match t with
        | '"' :: q =>
          let v := q.takeWhile (· ≠ '"')
          match q.drop v.length with
          | '"' :: t2 => (w, v) :: kvPairsGo fuel t2
          | _ =>
            -- no closing quote: the unquoted alternative starts at the quote
            let v2 := t.takeWhile nonWs
            if v2 ≠ [] then (w, v2) :: kvPairsGo fuel (t.drop v2.length)
            else kvPairsGo fuel rest
        | _ =>
          let v2 := t.takeWhile nonWs
          if v2 ≠ [] then (w, v2) :: kvPairsGo fuel (t.drop v2.length)
          else kvPairsGo fuel rest
      | _ => kvPairsGo fuel rest
    else kvPairsGo fuel rest

/-- kvPairs models re.findall(rb'(\w+)=("([^"]*)"|([^\s]+))', part), already
collapsed to the value the source keeps (quoted content if the quoted
alternative matched, else the unquoted run). -/
def kvPairs (l : Bytes) : List (Bytes × Bytes) := kvPairsGo (l.length + 1) l

/-- VmThread.add_property_line: split the stripped line on pipes, keep
nonblank stripped parts, special-case self=, then store every key=value
pair. -/
def VmThread.addPropertyLine (th : VmThread) (line : Bytes) : VmThread :=
  let parts := ((splitChar '|' (pyStrip line)).map pyStrip).filter (fun p => !p.isEmpty)
  parts.foldl
    (fun th part =>
      let th :=
        if containsSub part (bs "self=") then
          match splitSub (bs "self=") part with
          | _ :: v :: _ => { th with properties := dictSet th.properties (bs "self") v }
          | _ => th
        else th
      (kvPairs part).foldl
        (fun th p => { th with properties := dictSet th.properties p.1 p.2 }) th)
    th

/-- PVal: the bytes-or-int values stored in AnrTrace.process_info. -/
inductive PVal where
  | i (n : Int)
  | b (v : Bytes)
  deriving Repr, DecidableEq

/-- AnrTrace mirrors the dataclass for the VM TRACES AT LAST ANR section. -/
structure AnrTrace where
  header : List (Bytes × Bytes) := []
  process_info : List (Bytes × PVal) := []
  threads : List VmThread := []
  deriving Repr, DecidableEq

/-- AnrSt: the loop state of parse_anr_traces (the trace fields under
construction plus the open thread). -/
structure AnrSt where
  header : List (Bytes × Bytes) := []
  process_info : List (Bytes × PVal) := []
  doneThreads : List VmThread := []
  currentThread : Option VmThread := none
  deriving Repr, DecidableEq

/-- trySearchPidAt: anchored attempt of pid\s+(\d+)\s+at\s+(.*). -/
def trySearchPidAt (l : Bytes) : Option (Bytes × Bytes) := do
  guard ((bs "pid").isPrefixOf l)
  let t1 := l.drop 3
  guard (t1.takeWhile pyIsSpace ≠ [])
  let t2 := t1.dropWhile pyIsSpace
  let ds := t2.takeWhile isDigitC
  guard (ds ≠ [])
  let t3 := t2.drop ds.length
  guard (t3.takeWhile pyIsSpace ≠ [])
  let t4 := t3.dropWhile pyIsSpace
  guard ((bs "at").isPrefixOf t4)
  let t5 := t4.drop 2
  guard (t5.takeWhile pyIsSpace ≠ [])
  let t6 := t5.dropWhile pyIsSpace
  return (ds, t6.takeWhile (· ≠ '\n'))

/-- searchPidAtGo: occurrence loop for the pid/timestamp regex. -/
def searchPidAtGo : Nat → Bytes → Option (Bytes × Bytes)
  | 0, _ => none
  | _, [] => none
  | fuel + 1, c :: rest =>
    match trySearchPidAt (c :: rest) with
    | some r => some r
    | none => searchPidAtGo fuel rest

/-- searchPidAt models re.search(rb'pid\s+(\d+)\s+at\s+(.*)', line). -/
def searchPidAt (l : Bytes) : Option (Bytes × Bytes) :=
  searchPidAtGo (l.length + 1) l

def pyLowerChar (c : Char) : Char :=
  if isUpperC c then Char.ofNat (c.toNat + 32) else c

def pyLower (l : Bytes) : Bytes := l.map pyLowerChar

/-- anrHeaderStep: the ANR-header if/elif chain at the top of the loop
body.  Both split(b':', 1) calls sit behind a colon-presence guard, so the
unpacking cannot fail. -/
def anrHeaderStep (st : AnrSt) (line : Bytes) : AnrSt :=
  if (bs "Subject:").isPrefixOf line then
    match splitOnceChar ':' line with
    | some (_, v) => { st with header := dictSet st.header (bs "subject") (pyStrip v) }
    | none => st
  else if line.any (· = ':') ∧ ¬ containsSub line (bs "pid") ∧
      ¬ (bs "|").isPrefixOf (pyStrip line) ∧ ¬ (bs "at ").isPrefixOf (pyStrip line) ∧
      ¬ (bs "native:").isPrefixOf (pyStrip line) then
    -- re.match(rb'^[A-Za-z]+.*?:', line): the line starts with a letter and
    -- (given the guard) contains a colon
    if (line.head?.map (fun c => isUpperC c || isLowerC c)).getD false then
      match splitOnceChar ':' line with
      | some (k, v) =>
        { st with header :=
            dictSet st.header (pyReplaceAll (bs " ") (bs "_") (pyLower (pyStrip k))) (pyStrip v) }
      | none => st
    else st
  else st

/-- anrProcessStep: the process-info if/elif chain of the loop body. -/
def anrProcessStep (st : AnrSt) (line : Bytes) : AnrSt :=
  if (bs "----- pid").isPrefixOf line then
    match searchPidAt line with
    | some (ds, rest) =>
      let pinfo := dictSet (dictSet st.process_info (bs "pid") (.i (digitsToNat ds : Int)))
        (bs "timestamp") (.b (pyStrip rest))
      { st with process_info := pinfo }
    | none => st
  else if (bs "Cmd line:").isPrefixOf line then
    match splitOnceChar ':' line with
    | some (_, v) =>
      { st with process_info := dictSet st.process_info (bs "cmd_line") (.b (pyStrip v)) }
    | none => st
  else if (bs "Build fingerprint:").isPrefixOf line then
    match splitOnceChar ':' line with
    | some (_, v) =>
      { st with process_info := dictSet st.process_info (bs "build_fingerprint") (.b (pyStrip v)) }
    | none => st
  else if (bs "ABI:").isPrefixOf line then
    match splitOnceChar ':' line with
    | some (_, v) =>
      { st with process_info := dictSet st.process_info (bs "abi") (.b (pyStrip v)) }
    | none => st
  else st

/-- natContAt: lines[j] exists and its strip starts with the native
continuation marker. -/
def natContAt (lines : List Bytes) (j : Nat) : Bool :=
  match lines.get? j with
  | some l => (bs "native: #").isPrefixOf (pyStrip l)
  | none => false

/-- nativeFrameOf: the StackFrame built from one native line (the source
deletes every native: occurrence, strips and parses as a native frame). -/
def nativeFrameOf (l : Bytes) : StackFrame :=
  StackFrame.parseLine {} (pyStrip (pyReplaceAll (bs "native:") [] l)) (bs "native")

/-- lookNative: the bounded lookahead loop absorbing contiguous
native: # continuation lines into the current thread. -/
def lookNative (lines : List Bytes) : Nat → VmThread → Nat → VmThread × Nat
  | 0, th, j => (th, j)
  | fuel + 1, th, j =>
    if natContAt lines j then
      match lines.get? j with
      | some lj =>
        lookNative lines fuel
          { th with stack_trace := th.stack_trace ++ [nativeFrameOf lj] } (j + 1)
      | none => (th, j)
    else (th, j)

/-- anrThreadStep: the thread if/elif chain; returns the new state together
with the next loop index (the native branch advances the cursor past the
absorbed continuation lines). -/
def anrThreadStep (st : AnrSt) (lines : List Bytes) (i : Nat) (line : Bytes) :
    AnrSt × Nat :=
  if (bs "\"").isPrefixOf line then
    ({ st with
       doneThreads := st.doneThreads ++ st.currentThread.toList
       currentThread := some (VmThread.parseHeader {} line) }, i + 1)
  else
    match st.currentThread with
    | none => (st, i + 1)
    | some th =>
      if (bs "|").isPrefixOf (pyStrip line) then
        ({ st with currentThread := some (th.addPropertyLine line) }, i + 1)
      else if (bs "at ").isPrefixOf (pyStrip line) then
        ({ st with currentThread := some { th with
            stack_trace := th.stack_trace ++ [StackFrame.parseLine {} line (bs "managed")] } },
         i + 1)
      else if (bs "native:").isPrefixOf (pyStrip line) then
        let th1 := { th with stack_trace := th.stack_trace ++ [nativeFrameOf line] }
        let (th2, j) := lookNative lines lines.length th1 (i + 1)
        -- i = j - 1 followed by i += 1 resumes the loop at j
        ({ st with currentThread := some th2 }, j)
      else if containsSub line (bs "held mutexes=") then
        ({ st with currentThread := some (th.addPropertyLine (bs "| " ++ pyStrip line)) },
         i + 1)
      else (st, i + 1)

/-- anrStepAt: one full iteration of the while loop on lines[i] = line:
the header chain, then the process-info chain, then the thread chain (which
determines the next index). -/
def anrStepAt (st : AnrSt) (lines : List Bytes) (i : Nat) (line : Bytes) :
    AnrSt × Nat :=
  anrThreadStep (anrProcessStep (anrHeaderStep st line) line) lines i line

/-- anrLoop: the while loop; every iteration advances the index by at least
one, so fuel lines.length + 1 runs it to completion. -/
def anrLoop (lines : List Bytes) : Nat → AnrSt → Nat → AnrSt
  | 0, st, _ => st
  | fuel + 1, st, i =>
    match lines.get? i with
    | none => st
    | some line =>
      let (st2, i2) := anrStepAt st lines i line
      anrLoop lines fuel st2 i2

/-- anrRun: the loop over the section content's lines from index 0. -/
def anrRun (content : Bytes) : AnrSt :=
  let lines := splitChar '\n' content
  anrLoop lines (lines.length + 1) {} 0

/-- anrFinalize: the trailing implicit close — an open thread is appended to
the trace. -/
def anrFinalize (st : AnrSt) : AnrTrace :=
  { header := st.header, process_info := st.process_info,
    threads := st.doneThreads ++ st.currentThread.toList }

/-- findAnrEndGo: scan for the end marker \n----- end \d+ -----. -/
def findAnrEndGo : Nat → Nat → Bytes → Option Nat
  | 0, _, _ => none
  | _, _, [] => none
  | fuel + 1, pos, c :: rest =>
    let here : Bool :=
      (bs "\n----- end ").isPrefixOf (c :: rest) &&
        (let t := (c :: rest).drop 11
         let ds := t.takeWhile isDigitC
         !ds.isEmpty && (bs " -----").isPrefixOf (t.drop ds.length))
    if here then some pos else findAnrEndGo fuel (pos + 1) rest

/-- findAnrEnd: position of the first occurrence of the end marker. -/
def findAnrEnd (l : Bytes) : Option Nat := findAnrEndGo (l.length + 1) 0 l

/-- locateAnr models re.search(rb'------ VM TRACES AT LAST ANR .*? ------\n
(.*?)\n----- end \d+ -----', raw, DOTALL).group(1): the lazy pieces take the
first following occurrence of each delimiter. -/
def locateAnr (raw : Bytes) : Option Bytes := do
  let t1 ← afterFirst (bs "------ VM TRACES AT LAST ANR ") raw
  let t2 ← afterFirst (bs " ------\n") t1
  let e ← findAnrEnd t2
  return t2.take e

/-- parse_anr_traces. -/
def parseAnrTraces (raw : Bytes) : Option AnrTrace :=
  (locateAnr raw).map (fun content => anrFinalize (anrRun content))

/- ======================================================================
   dumpstate/services/account.py
   ====================================================================== -/

/-- UserAccount mirrors the dataclass: a user's account information. -/
structure UserAccount where
  user_info_raw : Bytes := []
  user_id : Int := 0
  user_name : Bytes := []
  user_flag : Bytes := []
  accounts : List Bytes := []
  accounts_history : List Bytes := []
  active_sessions : Int := 0
  registered_services : List Bytes := []
  account_visibility : List (Bytes × List Bytes) := []
  deriving Repr, DecidableEq

/-- AccountInfo mirrors the dataclass for the DUMP OF SERVICE account
section. -/
structure AccountInfo where
  service_pid : Int := 0
  threads_in_use : Bytes := []
  client_pids : List Int := []
  users : List UserAccount := []
  deriving Repr, DecidableEq

/-- AccSection: the values parsing_section takes. -/
inductive AccSection where
  | accounts | history | sessions | services | visibility
  deriving Repr, DecidableEq

/-- AccSt: the loop state of parse_account_service. -/
structure AccSt where
  info : AccountInfo := {}
  current_user : Option UserAccount := none
  parsing_section : Option AccSection := none
  current_vis : Option Bytes := none
  deriving Repr, DecidableEq

/-- tryUserInfoAt: anchored attempt of UserInfo\{(\d+):([^:]+):([^}]+)\}. -/
def tryUserInfoAt (l : Bytes) : Option (Bytes × Bytes × Bytes) := do
  guard ((bs "UserInfo\x7b").isPrefixOf l)
  let t1 := l.drop 9
  let ds := t1.takeWhile isDigitC
  guard (ds ≠ [])
  let t2 ← match t1.drop ds.length with
    | ':' :: t => some t
    | _ => none
  let nm := t2.takeWhile (· ≠ ':')
  guard (nm ≠ [])
  let t3 ← match t2.drop nm.length with
    | ':' :: t => some t
    | _ => none
  let fl := t3.takeWhile (· ≠ '}')
  guard (fl ≠ [])
  match t3.drop fl.length with
  | '}' :: _ => some (ds, nm, fl)
  | _ => none

/-- searchUserInfoGo: occurrence loop for the UserInfo regex. -/
def searchUserInfoGo : Nat → Bytes → Option (Bytes × Bytes × Bytes)
  | 0, _ => none
  | _, [] => none
  | fuel + 1, c :: rest =>
    match tryUserInfoAt (c :: rest) with
    | some r => some r
    | none => searchUserInfoGo fuel rest

/-- searchUserInfo models re.search(rb'UserInfo\{(\d+):([^:]+):([^}]+)\}', line). -/
def searchUserInfo (l : Bytes) : Option (Bytes × Bytes × Bytes) :=
  searchUserInfoGo (l.length + 1) l

/-- visAppend: current_user.account_visibility[acct].append(v) — the key is
always present (it was inserted when current_vis was set). -/
def visAppend (m : List (Bytes × List Bytes)) (acct v : Bytes) :
    List (Bytes × List Bytes) :=
  m.map (fun p => if p.1 = acct then (p.1, p.2 ++ [v]) else p)

/-- accStep: the body of the per-line loop of parse_account_service (the
line is stripped first; blank lines are skipped). -/
def accStep (st : AccSt) (raw_line : Bytes) : PRes AccSt := do
  let line := pyStrip raw_line
  if line = [] then return st
  if (bs "Service host process PID:").isPrefixOf line then do
    let v ← pyInt (pyStrip (← splitIdx1 ':' line))
    return { st with info := { st.info with service_pid := v } }
  else if (bs "Threads in use:").isPrefixOf line then do
    let v ← splitIdx1 ':' line
    return { st with info := { st.info with threads_in_use := pyStrip v } }
  else if (bs "Client PIDs:").isPrefixOf line then do
    let v ← splitIdx1 ':' line
    let pids ← (splitSub (bs ", ") (pyStrip v)).mapM pyInt
    return { st with info := { st.info with client_pids := pids } }
  else if (bs "User UserInfo").isPrefixOf line then do
    let infoUsers :=
      match st.current_user with
      | some u => st.info.users ++ [u]
      | none => st.info.users
    let rawTail ←
      match splitOnceChar ':' line with
      | some (_, v) => pure v
      | none => throw .indexError
    let u0 : UserAccount := { user_info_raw := pyStrip rawTail }
    let u1 :=
      match searchUserInfo line with
      | some (ds, nm, fl) =>
        { u0 with user_id := (digitsToNat ds : Int), user_name := nm, user_flag := fl }
      | none => u0
    return { st with
      info := { st.info with users := infoUsers }
      current_user := some u1
      parsing_section := none
      current_vis := none }
  else
    match st.current_user with
    | none => return st
    | some u =>
      if containsSub line (bs "Accounts:") then
        return { st with parsing_section := some .accounts }
      else if containsSub line (bs "Accounts History") then
        return { st with parsing_section := some .history }
      else if containsSub line (bs "Active Sessions:") then do
        let v ← pyInt (pyStrip (← splitIdx1 ':' line))
        return { st with
          parsing_section := some .sessions
          current_user := some { u with active_sessions := v } }
      else if containsSub line (bs "RegisteredServicesCache:") then
        return { st with parsing_section := some .services }
      else if containsSub line (bs "Account visibility:") then
        return { st with parsing_section := some .visibility }
      else if (bs "---------").isPrefixOf line then
        return { st with parsing_section := none }
      else
        match st.parsing_section with
        | none => return st
        | some .accounts =>
          if (bs "Account \x7b").isPrefixOf line then
            return { st with current_user := some { u with accounts := u.accounts ++ [line] } }
          else return st
        | some .history =>
          if ¬ (bs "AccountId,").isPrefixOf line then
            let u2 := { u with accounts_history := u.accounts_history ++ [line] }
            return { st with current_user := some u2 }
          else return st
        | some .sessions => return st
        | some .services =>
          if (bs "ServiceInfo:").isPrefixOf line then
            let u2 := { u with registered_services := u.registered_services ++ [line] }
            return { st with current_user := some u2 }
          else return st
        | some .visibility =>
          match st.current_vis with
          | some acct =>
            let u2 := { u with account_visibility := visAppend u.account_visibility acct (pyStrip line) }
            return { st with current_user := some u2 }
          | none =>
            -- the loop variable was stripped already, so a nonblank line
            -- never starts with a space and this branch always fires
            if ¬ (bs " ").isPrefixOf line then
              let u2 := { u with account_visibility := dictSet u.account_visibility (pyStrip line) [] }
              return { st with
                current_vis := some (pyStrip line)
                current_user := some u2 }
            else return st

/-- accFold: the loop over the section content's stripped lines. -/
def accFold (content : Bytes) : PRes AccSt :=
  (splitChar '\n' (pyStrip content)).foldlM accStep {}

/-- accFinalize: the trailing implicit close — an open user is appended. -/
def accFinalize (st : AccSt) : AccountInfo :=
  { st.info with users := st.info.users ++ st.current_user.toList }

def accAnchorStart : Bytes := bs "DUMP OF SERVICE account:\n"

def accAnchorEnd : Bytes := bs "\n---------"

/-- parse_account_service. -/
def parseAccountService (raw : Bytes) : PRes (Option AccountInfo) :=
  match locateSection accAnchorStart accAnchorEnd raw with
  | none => .ok none
  | some content => (accFold content).map (fun st => some (accFinalize st))

/- ======================================================================
   json.loads (strict mode), modelled syntactically: numbers keep their
   literal text
   ====================================================================== -/

/-- jsonWsC: the whitespace characters JSON allows between tokens. -/
def jsonWsC (c : Char) : Bool := c = ' ' || c = '\t' || c = '\n' || c = '\r'

def skipWs (l : Bytes) : Bytes := l.dropWhile jsonWsC

def hexDigitVal (c : Char) : Nat :=
  if isDigitC c then digitVal c
  else if 'a' ≤ c ∧ c ≤ 'f' then c.toNat - 'a'.toNat + 10
  else c.toNat - 'A'.toNat + 10

/-- jStringGo: the body of a JSON string after its opening quote; strict
mode rejects raw control characters; escapes are decoded. -/
def jStringGo : Nat → Bytes → Option (Bytes × Bytes)
  | 0, _ => none
  | fuel + 1, l =>
    match l with
    | [] => none
    | c :: rest =>
    if c = '"' then some ([], rest)
    else if c = '\\' then
      match rest with
      | [] => none
      | e :: r2 =>
        let dec : Option (Char × Bytes) :=
          if e = '"' then some ('"', r2)
          else if e = '\\' then some ('\\', r2)
          else if e = '/' then some ('/', r2)
          else if e = 'b' then some ('\x08', r2)
          else if e = 'f' then some ('\x0c', r2)
          else if e = 'n' then some ('\n', r2)
          else if e = 'r' then some ('\r', r2)
          else if e = 't' then some ('\t', r2)
          else if e = 'u' then
            match r2 with
            | h1 :: h2 :: h3 :: h4 :: r3 =>
              if isHexC h1 && isHexC h2 && isHexC h3 && isHexC h4 then
                some (Char.ofNat
                  (((hexDigitVal h1 * 16 + hexDigitVal h2) * 16 + hexDigitVal h3) * 16 +
                    hexDigitVal h4), r3)
              else none
            | _ => none
          else none
        match dec with
        | some (ch, r3) => (jStringGo fuel r3).map (fun p => (ch :: p.1, p.2))
        | none => none
    else if c.toNat < 0x20 then none
    else (jStringGo fuel rest).map (fun p => (c :: p.1, p.2))

/-- jNumExp: the optional exponent part of a JSON number (left unconsumed
when malformed, exactly as the scanner regex would). -/
def jNumExp (acc r : Bytes) : Bytes × Bytes :=
  match r with
  | e :: r2 =>
    if e = 'e' ∨ e = 'E' then
      let (sgn, r3) : Bytes × Bytes :=
        if r2.head? = some '+' then ([('+')], r2.drop 1)
        else if r2.head? = some '-' then ([('-')], r2.drop 1)
        else ([], r2)
      let ds := r3.takeWhile isDigitC
      if ds = [] then (acc, r)
      else (acc ++ e :: sgn ++ ds, r3.drop ds.length)
    else (acc, r)
  | [] => (acc, [])

/-- jNumFrac: the optional fraction part of a JSON number. -/
def jNumFrac (acc r : Bytes) : Bytes × Bytes :=
  if r.head? = some '.' then
    if ((r.drop 1).takeWhile isDigitC) = [] then jNumExp acc r
    else jNumExp (acc ++ '.' :: (r.drop 1).takeWhile isDigitC)
      ((r.drop 1).drop ((r.drop 1).takeWhile isDigitC).length)
  else jNumExp acc r

/-- jNumBody: the digits of a JSON number after the optional sign — a
leading 0 takes no further integer digits. -/
def jNumBody (sgn r1 : Bytes) : Option (Bytes × Bytes) :=
  match r1 with
  | c :: _ =>
    if c = '0' then some (jNumFrac (sgn ++ [('0')]) (r1.drop 1))
    else if isDigitC c then
      some (jNumFrac (sgn ++ r1.takeWhile isDigitC)
        (r1.drop (r1.takeWhile isDigitC).length))
    else none
  | [] => none

/-- jNumber: the JSON number grammar -?(0|[1-9][0-9]*)(.[0-9]+)?(eE...)?,
returning the literal text consumed. -/
def jNumber (l : Bytes) : Option (Bytes × Bytes) :=
  if l.head? = some '-' then jNumBody [('-')] (l.drop 1) else jNumBody [] l

mutual

/-- jValue: one JSON value (fuel-indexed recursive descent). -/
def jValue : Nat → Bytes → Option (Json × Bytes)
  | 0, _ => none
  | fuel + 1, l0 =>
    match skipWs l0 with
    | '{' :: r =>
      match skipWs r with
      | '}' :: r2 => some (.obj [], r2)
      | r1 => jObjLoop fuel r1 []
    | '[' :: r =>
      match skipWs r with
      | ']' :: r2 => some (.arr [], r2)
      | r1 => jArrLoop fuel r1 []
    | '"' :: r => (jStringGo (r.length + 1) r).map (fun p => (.str p.1, p.2))
    | 't' :: r => if (bs "rue").isPrefixOf r then some (.bool true, r.drop 3) else none
    | 'f' :: r => if (bs "alse").isPrefixOf r then some (.bool false, r.drop 4) else none
    | 'n' :: r => if (bs "ull").isPrefixOf r then some (.null, r.drop 3) else none
    | l => (jNumber l).map (fun p => (.num p.1, p.2))

/-- jObjLoop: the members of a JSON object, at least one pending. -/
def jObjLoop : Nat → Bytes → List (Bytes × Json) → Option (Json × Bytes)
  | 0, _, _ => none
  | fuel + 1, l, acc =>
    match skipWs l with
    | '"' :: r =>
      match jStringGo (r.length + 1) r with
      | some (k, r2) =>
        match skipWs r2 with
        | ':' :: r3 =>
          match jValue fuel r3 with
          | some (v, r4) =>
            match skipWs r4 with
            | ',' :: r5 => jObjLoop fuel r5 (acc ++ [(k, v)])
            | '}' :: r5 => some (.obj (acc ++ [(k, v)]), r5)
            | _ => none
          | none => none
        | _ => none
      | none => none
    | _ => none

/-- jArrLoop: the elements of a JSON array, at least one pending. -/
def jArrLoop : Nat → Bytes → List Json → Option (Json × Bytes)
  | 0, _, _ => none
  | fuel + 1, l, acc =>
    match jValue fuel l with
    | some (v, r) =>
      match skipWs r with
      | ',' :: r2 => jArrLoop fuel r2 (acc ++ [v])
      | ']' :: r2 => some (.arr (acc ++ [v]), r2)
      | _ => none
    | none => none

end

/-- pyJsonLoads models json.loads: one value, then only whitespace;
any failure is the JSONDecodeError the callers turn into ValueError. -/
def pyJsonLoads (l : Bytes) : PRes Json :=
  match jValue (2 * l.length + 8) l with
  | some (v, rest) => if skipWs rest = [] then .ok v else .error .valueError
  | none => .error .valueError

/- ======================================================================
   dumpstate/usb/__init__.py: clean_and_load_json
   ====================================================================== -/

/-- pass1Go: re.sub(r'}\s*{', '}, {', text) — a closing brace, optional
whitespace and an opening brace become a comma-joined pair. -/
def pass1Go : Nat → Bytes → Bytes
  | _, [] => []
  | 0, l => l
  | fuel + 1, c :: rest =>
    if c = '}' then
      match rest.dropWhile pyIsSpace with
      | '{' :: r3 => bs "\x7d, \x7b" ++ pass1Go fuel r3
      | _ => c :: pass1Go fuel rest
    else c :: pass1Go fuel rest

def pass1 (l : Bytes) : Bytes := pass1Go l.length l

/-- numCands: candidate match lengths of -?\d+\.?\d* at the head of the
text, in the greedy engine's backtracking order (longest first). -/
def numCands (l : Bytes) : List Nat :=
  let (s, r) : Nat × Bytes :=
    match l with
    | '-' :: r => (1, r)
    | _ => (0, l)
  let d1 := r.takeWhile isDigitC
  if d1 = [] then []
  else
    match r.drop d1.length with
    | '.' :: r3 =>
      let d2 := r3.takeWhile isDigitC
      ((List.range (d2.length + 1)).reverse.map (fun k => s + d1.length + 1 + k)) ++
        ((List.range d1.length).reverse.map (fun k => s + k + 1))
    | _ => (List.range d1.length).reverse.map (fun k => s + k + 1)

/-- tok2Cands: candidate lengths for (true|false|null|-?\d+\.?\d*), in
alternation order. -/
def tok2Cands (l : Bytes) : List Nat :=
  (if (bs "true").isPrefixOf l then [4] else []) ++
    (if (bs "false").isPrefixOf l then [5] else []) ++
    (if (bs "null").isPrefixOf l then [4] else []) ++
    numCands l

/-- lastNlPos: index of the last newline in a text. -/
def lastNlPos : Bytes → Option Nat
  | [] => none
  | c :: rest =>
    match lastNlPos rest with
    | some k => some (k + 1)
    | none => if c = '\n' then some 0 else none

/-- pass2TryTok: given a candidate token-1 length, check \s*\n\s*token2 and
build the replacement (the whitespace around the newline is consumed and
dropped, as in the r'\1,\n\2' substitution). -/
def pass2TryTok (l : Bytes) (c1 : Nat) : Option (Bytes × Bytes) :=
  let t1 := l.take c1
  let after := l.drop c1
  let run := after.takeWhile pyIsSpace
  match lastNlPos run with
  | none => none
  | some _ =>
    let after2 := after.drop run.length
    match tok2Cands after2 with
    | c2 :: _ =>
      some (t1 ++ ',' :: '\n' :: after2.take c2, after2.drop c2)
    | [] => none

def pass2TryGo (l : Bytes) : List Nat → Option (Bytes × Bytes)
  | [] => none
  | c1 :: cs =>
    match pass2TryTok l c1 with
    | some r => some r
    | none => pass2TryGo l cs

/-- pass2Try: one match attempt of
(true|false|null|num)\s*\n\s*(true|false|null|num) at this position. -/
def pass2Try (l : Bytes) : Option (Bytes × Bytes) := pass2TryGo l (tok2Cands l)

/-- pass2Go: scanner for pass 2 (commas between bare values on consecutive
lines). -/
def pass2Go : Nat → Bytes → Bytes
  | _, [] => []
  | 0, l => l
  | fuel + 1, c :: rest =>
    match pass2Try (c :: rest) with
    | some (rep, r2) => rep ++ pass2Go fuel r2
    | none => c :: pass2Go fuel rest

def pass2 (l : Bytes) : Bytes := pass2Go l.length l

/-- p3Class: the character class [\w\s-]. -/
def p3Class (c : Char) : Bool := isWordC c || pyIsSpace c || c = '-'

/-- wsDollar models a trailing \s*$ (MULTILINE) with the greedy engine's
choice: consume to the end of the text, or up to (and excluding) the last
newline of the whitespace run; fails when the run ends at a non-newline. -/
def wsDollar (l : Bytes) : Option Bytes :=
  let run := l.takeWhile pyIsSpace
  if l.drop run.length = [] then some []
  else
    match lastNlPos run with
    | some k => some (l.drop k)
    | none => none

/-- lazyValGo: the lazy group ([^{[]+?) followed by \s*$ — grow one
character at a time, stopping at the first position where \s*$ matches. -/
def lazyValGo : Nat → Bytes → Option (Bytes × Bytes)
  | 0, _ => none
  | _, [] => none
  | fuel + 1, c :: rest =>
    if c = '{' ∨ c = '[' then none
    else
      match wsDollar rest with
      | some r2 => some ([c], r2)
      | none => (lazyValGo fuel rest).map (fun p => (c :: p.1, p.2))

/-- fullNumMatch: re.fullmatch(r'-?\d+\.?\d*', value). -/
def fullNumMatch (v : Bytes) : Bool :=
  let t : Bytes :=
    match v with
    | '-' :: r => r
    | _ => v
  let d1 := t.takeWhile isDigitC
  let r := t.drop d1.length
  !d1.isEmpty && (r = [] ∨ (r.head? = some '.' ∧ (r.drop 1).all isDigitC))

/-- quoteKV: the quote_values_if_string replacement — keywords and numeric
literals stay bare, anything else is quoted with its double quotes
backslash-escaped. -/
def quoteKV (key val : Bytes) : Bytes :=
  if val = bs "true" ∨ val = bs "false" ∨ val = bs "null" ∨ fullNumMatch val then
    '"' :: (key ++ bs "\": " ++ val)
  else
    '"' :: (key ++ bs "\": \"" ++ pyReplaceAll (bs "\"") (bs "\\\"") val ++ [('"')])

/-- p3TryW: try the post-= whitespace widths greedily (longest first). -/
def p3TryW (R after : Bytes) : Nat → Option (Bytes × Bytes)
  | 0 =>
    match lazyValGo (after.length + 1) after with
    | some (g2, rest) => some (quoteKV (pyStrip R) (pyStrip g2), rest)
    | none => none
  | w + 1 =>
    match lazyValGo ((after.drop (w + 1)).length + 1) (after.drop (w + 1)) with
    | some (g2, rest) => some (quoteKV (pyStrip R) (pyStrip g2), rest)
    | none => p3TryW R after w

/-- matchP3: one anchored attempt of
^\s*([\w\s-]+)\s*=\s*([^{[]+?)\s*$ with the quote_values replacement; since
\s is inside the group class, the leading \s* and the group fuse into one
maximal class run which must be followed by =, and group 1 is stripped by
the replacement helper. -/
def matchP3 (l : Bytes) : Option (Bytes × Bytes) :=
  let R := l.takeWhile p3Class
  if R = [] then none
  else
    match l.drop R.length with
    | '=' :: after => p3TryW R after (after.takeWhile pyIsSpace).length
    | _ => none

/-- pass3Go: the MULTILINE scanner for pass 3 — attempts anchor at every
line start. -/
def pass3Go : Nat → Bool → Bytes → Bytes
  | _, _, [] => []
  | 0, _, l => l
  | fuel + 1, atStart, c :: rest =>
    if atStart then
      match matchP3 (c :: rest) with
      | some (rep, r2) => rep ++ pass3Go fuel false r2
      | none => c :: pass3Go fuel (c = '\n') rest
    else c :: pass3Go fuel (c = '\n') rest

def pass3 (l : Bytes) : Bytes := pass3Go l.length true l

/-- p4Group1: group 1 of passes 4 and 5, whose replacement does not strip:
the greedy leading \s* takes the whitespace prefix of the class run, but
must leave at least one character for the group. -/
def p4Group1 (R : Bytes) : Bytes :=
  let lead := R.takeWhile pyIsSpace
  if lead.length = R.length then R.drop (R.length - 1) else R.drop lead.length

/-- p4TryW: whitespace widths after =, longest first, each followed by a
keyword/number token and \s*$. -/
def p4TryW (R after : Bytes) : Nat → Option (Bytes × Bytes)
  | 0 => p4Tok R after 0
  | w + 1 =>
    match p4Tok R after (w + 1) with
    | some r => some r
    | none => p4TryW R after w
where
  p4Tok (R after : Bytes) (w : Nat) : Option (Bytes × Bytes) :=
    let t := after.drop w
    match tok2Cands t with
    | c2 :: _ =>
      match wsDollar (t.drop c2) with
      | some rest => some ('"' :: (p4Group1 R ++ bs "\": " ++ t.take c2), rest)
      | none => none
    | [] => none

/-- matchP4: one anchored attempt of
^\s*([\w\s-]+)\s*=\s*(true|false|null|num)\s*$ with replacement "\1": \2. -/
def matchP4 (l : Bytes) : Option (Bytes × Bytes) :=
  let R := l.takeWhile p3Class
  if R = [] then none
  else
    match l.drop R.length with
    | '=' :: after => p4TryW R after (after.takeWhile pyIsSpace).length
    | _ => none

/-- pass4Go: the MULTILINE scanner for pass 4. -/
def pass4Go : Nat → Bool → Bytes → Bytes
  | _, _, [] => []
  | 0, _, l => l
  | fuel + 1, atStart, c :: rest =>
    if atStart then
      match matchP4 (c :: rest) with
      | some (rep, r2) => rep ++ pass4Go fuel false r2
      | none => c :: pass4Go fuel (c = '\n') rest
    else c :: pass4Go fuel (c = '\n') rest

def pass4 (l : Bytes) : Bytes := pass4Go l.length true l

/-- matchP5: one anchored attempt of ^\s*([\w\s-]+)\s*=\s*({|\[) with
replacement "\1": \2 (the opener is kept, the rest of the line is left in
place). -/
def matchP5 (l : Bytes) : Option (Bytes × Bytes) :=
  let R := l.takeWhile p3Class
  if R = [] then none
  else
    match l.drop R.length with
    | '=' :: after =>
      let run := after.takeWhile pyIsSpace
      match after.drop run.length with
      | '{' :: r2 => some ('"' :: (p4Group1 R ++ bs "\": \x7b"), r2)
      | '[' :: r2 => some ('"' :: (p4Group1 R ++ bs "\": ["), r2)
      | _ => none
    | _ => none

/-- pass5Go: the MULTILINE scanner for pass 5. -/
def pass5Go : Nat → Bool → Bytes → Bytes
  | _, _, [] => []
  | 0, _, l => l
  | fuel + 1, atStart, c :: rest =>
    if atStart then
      match matchP5 (c :: rest) with
      | some (rep, r2) => rep ++ pass5Go fuel false r2
      | none => c :: pass5Go fuel (c = '\n') rest
    else c :: pass5Go fuel (c = '\n') rest

def pass5 (l : Bytes) : Bytes := pass5Go l.length true l

/-- tok6Cands: candidate lengths for (["}\]]|true|false|null|num), the
single-character class first. -/
def tok6Cands (l : Bytes) : List Nat :=
  (match l with
   | c :: _ => if c = '"' ∨ c = '}' ∨ c = ']' then [1] else []
   | [] => []) ++ tok2Cands l

/-- pass6TryTok: given a candidate token length, require \s*\n\s*" and
build the replacement \1,\n" (the whitespace is consumed and dropped). -/
def pass6TryTok (l : Bytes) (c1 : Nat) : Option (Bytes × Bytes) :=
  let t1 := l.take c1
  let after := l.drop c1
  let run := after.takeWhile pyIsSpace
  match lastNlPos run with
  | none => none
  | some _ =>
    match after.drop run.length with
    | '"' :: r2 => some (t1 ++ bs ",\n\"", r2)
    | _ => none

def pass6TryGo (l : Bytes) : List Nat → Option (Bytes × Bytes)
  | [] => none
  | c1 :: cs =>
    match pass6TryTok l c1 with
    | some r => some r
    | none => pass6TryGo l cs

/-- pass6Try: one match attempt of (["}\]]|true|false|null|num)\s*\n\s*"
at this position. -/
def pass6Try (l : Bytes) : Option (Bytes × Bytes) := pass6TryGo l (tok6Cands l)

/-- pass6Go: scanner for pass 6 (commas between a value end and a quoted
key on the next line). -/
def pass6Go : Nat → Bytes → Bytes
  | _, [] => []
  | 0, l => l
  | fuel + 1, c :: rest =>
    match pass6Try (c :: rest) with
    | some (rep, r2) => rep ++ pass6Go fuel r2
    | none => c :: pass6Go fuel rest

def pass6 (l : Bytes) : Bytes := pass6Go l.length l

/-- pass7Go: re.sub(r',\s*([}\]])', r'\1', text) — trailing commas before a
closing brace or bracket are dropped. -/
def pass7Go : Nat → Bytes → Bytes
  | _, [] => []
  | 0, l => l
  | fuel + 1, c :: rest =>
    if c = ',' then
      match rest.dropWhile pyIsSpace with
      | '}' :: r2 => '}' :: pass7Go fuel r2
      | ']' :: r2 => ']' :: pass7Go fuel r2
      | _ => c :: pass7Go fuel rest
    else c :: pass7Go fuel rest

def pass7 (l : Bytes) : Bytes := pass7Go l.length l

/-- clean_and_load_json: the seven rewrite passes, the outer-brace wrap,
and the JSON load (a decode failure is re-raised as ValueError). -/
def cleanAndLoadJson (text : Bytes) : PRes Json :=
  pyJsonLoads ('{' :: pass7 (pass6 (pass5 (pass4 (pass3 (pass2 (pass1 text)))))) ++ ['}'])

/- ======================================================================
   dumpstate/usb/__init__.py: parse_usb_manager_state and the managers
   ====================================================================== -/

/-- UsbEvent mirrors the dataclass; the datetime is modelled by the current
year (an explicit parameter of the embedding, datetime.now().year in the
source) together with the validated matched text. -/
structure UsbEvent where
  year : Nat
  ts_raw : Bytes
  details : List (Bytes × Json)
  deriving Repr

/-- UsbDeviceManager mirrors the dataclass. -/
structure UsbDeviceManager where
  handler_properties : Json := .obj []
  events : List UsbEvent := []
  deriving Repr

/-- UsbHostManager mirrors the dataclass; num_connects is declared int 0
but extract_data assigns parsed.get('num_connects') directly. -/
structure UsbHostManager where
  num_connects : Option Json := some (.num (bs "0"))
  connections : List UsbConnection := []
  deriving Repr

/-- UsbManagerData mirrors the dataclass. -/
structure UsbManagerData where
  restrictor_state : List (Bytes × Bytes) := []
  device_manager : Option UsbDeviceManager := none
  host_manager : Option UsbHostManager := none
  deriving Repr

/-- findEvtEndGo: scan for the earliest \n\s+\] closing the USB Event
block: a newline, a nonempty whitespace run, then a bracket. -/
def findEvtEndGo : Nat → Nat → Bytes → Option (Nat × Nat)
  | 0, _, _ => none
  | _, _, [] => none
  | fuel + 1, pos, c :: rest =>
    if c = '\n' then
      let run := rest.takeWhile pyIsSpace
      match rest.drop run.length with
      | ']' :: _ =>
        if run ≠ [] then some (pos, pos + 1 + run.length + 1)
        else findEvtEndGo fuel (pos + 1) rest
      | _ => findEvtEndGo fuel (pos + 1) rest
    else findEvtEndGo fuel (pos + 1) rest

/-- searchEventLogGo: occurrence loop for
re.search(r'(USB Event=\[\n(.*?)\n\s+\])', block, DOTALL): group 1 is the
whole match, group 2 the lazy inner text. -/
def searchEventLogGo : Nat → Bytes → Option (Bytes × Bytes)
  | 0, _ => none
  | fuel + 1, l =>
    match afterFirst (bs "USB Event=[\n") l with
    | none => none
    | some tail =>
      match findEvtEndGo (tail.length + 1) 0 tail with
      | some (p, e) => some (bs "USB Event=[\n" ++ tail.take e, tail.take p)
      | none => searchEventLogGo fuel tail

def searchEventLog (block : Bytes) : Option (Bytes × Bytes) :=
  searchEventLogGo (block.length + 1) block

/-- jsonDumps models json.dumps on one string (default ensure_ascii):
quotes and backslashes are escaped, control characters become \uXXXX (the
common ones get their short escapes), non-ASCII is \uXXXX-escaped. -/
def jsonDumps (s : Bytes) : Bytes :=
  '"' :: (s.map esc).flatten ++ [('"')]
where
  hexDigit (n : Nat) : Char :=
    if n < 10 then Char.ofNat ('0'.toNat + n) else Char.ofNat ('a'.toNat + n - 10)
  hex4 (n : Nat) : Bytes :=
    [hexDigit (n / 4096 % 16), hexDigit (n / 256 % 16), hexDigit (n / 16 % 16), hexDigit (n % 16)]
  esc (c : Char) : Bytes :=
    if c = '"' then bs "\\\""
    else if c = '\\' then bs "\\\\"
    else if c = '\n' then bs "\\n"
    else if c = '\r' then bs "\\r"
    else if c = '\t' then bs "\\t"
    else if c.toNat = 8 then bs "\\b"
    else if c.toNat = 12 then bs "\\f"
    else if c.toNat < 0x20 ∨ c.toNat > 0x7f then bs "\\u" ++ hex4 c.toNat
    else [c]

/-- evtReplacement: the valid JSON substituted for the malformed USB Event
block — each stripped log line dumped as a JSON string, comma-joined. -/
def evtReplacement (inner : Bytes) : Bytes :=
  bs "\"USB Event\": [" ++
    (((splitChar '\n' (pyStrip inner)).map (fun l => jsonDumps (pyStrip l))).intersperse
      (bs ", ")).flatten ++ bs "]"

/-- findCapNlGo: scan for the lookahead (?=\n[A-Z]). -/
def findCapNlGo : Nat → Nat → Bytes → Option Nat
  | 0, _, _ => none
  | _, _, [] => none
  | fuel + 1, pos, c :: rest =>
    if c = '\n' ∧ (rest.head?.map isUpperC).getD false then some pos
    else findCapNlGo fuel (pos + 1) rest

/-- restrictorContent models re.search(r'USB Host Restrictor State:\n(.*?)
(?=\n[A-Z])', block, DOTALL).group(1). -/
def restrictorContent (block : Bytes) : Option Bytes := do
  let tail ← afterFirst (bs "USB Host Restrictor State:\n") block
  let p ← findCapNlGo (tail.length + 1) 0 tail
  return tail.take p

/-- restrictorParse: the key: value lines of the restrictor block. -/
def restrictorParse (content : Bytes) : List (Bytes × Bytes) :=
  (splitChar '\n' (pyStrip content)).foldl
    (fun acc line =>
      if line.any (· = ':') then
        match splitOnceChar ':' line with
        | some (k, v) => dictSet acc (pyStrip k) (pyStrip v)
        | none => acc
      else acc)
    []

/-- matchEvtTs models re.match(r'(\d{2}-\d{2}\s\d{2}:\d{2}:\d{2}:\d{3})\s
(.*?)$', usb_event): the fixed-width timestamp shape, one whitespace, then
the rest of the event (the events carry no embedded newline; a non-final
newline makes the match fail since . cannot cross it). -/
def matchEvtTs (s : Bytes) : Option (Bytes × Bytes) := do
  let g1 := s.take 18
  guard (g1.length = 18)
  let ok :=
    match g1 with
    | [m1, m2, d0, d1, d2, w, h1, h2, c1, mi1, mi2, c2, s1, s2, c3, f1, f2, f3] =>
      isDigitC m1 && isDigitC m2 && (d0 == '-') && isDigitC d1 && isDigitC d2 &&
      pyIsSpace w && isDigitC h1 && isDigitC h2 && (c1 == ':') && isDigitC mi1 &&
      isDigitC mi2 && (c2 == ':') && isDigitC s1 && isDigitC s2 && (c3 == ':') &&
      isDigitC f1 && isDigitC f2 && isDigitC f3
    | _ => false
  guard (ok = true)
  let rest ← match s.drop 18 with
    | c :: r => if pyIsSpace c then some r else none
    | [] => none
  if (rest.all (· ≠ '\n')) then
    some (g1, rest)
  else if rest.getLast? = some '\n' ∧ (rest.dropLast.all (· ≠ '\n')) then
    some (g1, rest.dropLast)
  else none

/-- pyStrptimeEvt models datetime.strptime(f"{year}-{g1}",
'%Y-%m-%d %H:%M:%S:%f') for a g1 that already has the matched shape: the
field ranges must denote a valid date-time. -/
def pyStrptimeEvt (year : Nat) (g1 : Bytes) : PRes Unit :=
  let mo := digitsToNat (g1.take 2)
  let dd := digitsToNat ((g1.drop 3).take 2)
  let hh := digitsToNat ((g1.drop 6).take 2)
  let mi := digitsToNat ((g1.drop 9).take 2)
  let ss := digitsToNat ((g1.drop 12).take 2)
  if 1 ≤ mo ∧ mo ≤ 12 ∧ 1 ≤ dd ∧ dd ≤ daysInMonth year mo ∧ hh ≤ 23 ∧ mi ≤ 59 ∧ ss ≤ 59 then
    .ok ()
  else .error .valueError

/-- uevent/intent content searches of _parse_event_details. -/
def searchUeventGo : Nat → Bytes → Option Bytes
  | 0, _ => none
  | fuel + 1, l =>
    match afterFirst (bs "UEVENT:") l with
    | none => none
    | some tail =>
      let run := tail.takeWhile pyIsSpace
      match tail.drop run.length with
      | '{' :: t2 =>
        let content := t2.takeWhile (fun c => c ≠ '}' ∧ c ≠ '\n')
        match t2.drop content.length with
        | '}' :: _ => some content
        | _ => searchUeventGo fuel tail
      | _ => searchUeventGo fuel tail

def searchUevent (l : Bytes) : Option Bytes := searchUeventGo (l.length + 1) l

def searchIntentGo : Nat → Bytes → Option Bytes
  | 0, _ => none
  | fuel + 1, l =>
    match afterFirst (bs "intent:") l with
    | none => none
    | some tail =>
      let run := tail.takeWhile pyIsSpace
      let t1 := tail.drop run.length
      if (bs "Intent").isPrefixOf t1 then
        let t2 := t1.drop 6
        let run2 := t2.takeWhile pyIsSpace
        match t2.drop run2.length with
        | '{' :: t3 =>
          let content := t3.takeWhile (fun c => c ≠ '}' ∧ c ≠ '\n')
          match t3.drop content.length with
          | '}' :: _ => some content
          | _ => searchIntentGo fuel tail
        | _ => searchIntentGo fuel tail
      else searchIntentGo fuel tail

def searchIntent (l : Bytes) : Option Bytes := searchIntentGo (l.length + 1) l

/-- kvPairs2Go: re.finditer(r'(\w+)=([^\s}]+)', content) — like kvPairs but
the value class also excludes closing braces, and values are never
quoted. -/
def kvPairs2Go : Nat → Bytes → List (Bytes × Bytes)
  | 0, _ => []
  | _, [] => []
  | fuel + 1, c :: rest =>
    if isWordC c then
      let w := (c :: rest).takeWhile isWordC
      match (c :: rest).drop w.length with
      | '=' :: t =>
        let v := t.takeWhile (fun d => nonWs d ∧ d ≠ '}')
        if v ≠ [] then (w, v) :: kvPairs2Go fuel (t.drop v.length)
        else kvPairs2Go fuel rest
      | _ => kvPairs2Go fuel rest
    else kvPairs2Go fuel rest

def kvPairs2 (l : Bytes) : List (Bytes × Bytes) := kvPairs2Go (l.length + 1) l

/-- detailsOf models UsbDeviceManager._parse_event_details. -/
def detailsOf (details : Bytes) : List (Bytes × Json) :=
  match searchUevent details with
  | some content =>
    (splitChar ',' content).foldl
      (fun props pair =>
        if pair.any (· = '=') then
          match splitOnceChar '=' pair with
          | some (k, v) => dictSet props (pyStrip k) (.str (pyStrip v))
          | none => props
        else props)
      [(bs "event_type", .str (bs "uevent"))]
  | none =>
    match searchIntent details with
    | some content0 =>
      let content := pyStrip content0
      let props :=
        (kvPairs2 content).foldl
          (fun props p => dictSet props p.1 (.str p.2))
          [(bs "event_type", .str (bs "intent"))]
      if containsSub content (bs "(has extras)") then
        dictSet props (bs "extras") (.bool true)
      else props
    | none => []

/-- addEventsGo: the loop of add_events; a raised strptime ValueError keeps
the events already appended (in-place mutation in the source). -/
def addEventsGo (year : Nat) : List Json → List UsbEvent → List UsbEvent × Option PyErr
  | [], acc => (acc, none)
  | e :: rest, acc =>
    match e with
    | .str s =>
      match matchEvtTs s with
      | some (g1, g2) =>
        match pyStrptimeEvt year g1 with
        | .ok _ => addEventsGo year rest (acc ++ [⟨year, g1, detailsOf g2⟩])
        | .error er => (acc, some er)
      | none => addEventsGo year rest acc
    | _ => (acc, some .typeError)

/-- addEvents models UsbDeviceManager.add_events over the parsed USB Event
value: a JSON array iterates its elements, a dict its keys, a string its
single characters (none of which can match the timestamp shape); anything
else is not iterable. -/
def addEvents (year : Nat) (v : Json) : List UsbEvent × Option PyErr :=
  match v with
  | .arr elems => addEventsGo year elems []
  | .obj members => addEventsGo year (members.map (fun p => Json.str p.1)) []
  | .str _ => ([], none)
  | _ => ([], some .typeError)

/-- jsonIsStr: the JSON value is exactly the given string (the only way a
Python str can be == to a list element). -/
def jsonIsStr (v : Json) (s : Bytes) : Bool :=
  match v with
  | .str t => t = s
  | _ => false

/-- UsbDeviceManager.extract_data; the pair's second component is the
pending exception if one was raised mid-extraction (the fields already
assigned stay, as for the mutated Python object).  On a non-dict value,
Python `in` is substring search (str), element equality (list) or a
TypeError, and a hit then makes the subscript raise TypeError. -/
def UsbDeviceManager.extractData (year : Nat) (parsed : Json) :
    UsbDeviceManager × Option PyErr :=
  match parsed with
  | .obj m =>
    let d1 : UsbDeviceManager :=
      match pyDictGet m (bs "handler") with
      | some h => { handler_properties := h }
      | none => {}
    match pyDictGet m (bs "USB Event") with
    | some ev =>
      let (evs, er) := addEvents year ev
      ({ d1 with events := evs }, er)
    | none => (d1, none)
  | .str s =>
    if containsSub s (bs "handler") ∨ containsSub s (bs "USB Event") then
      ({}, some .typeError)
    else ({}, none)
  | .arr l =>
    if l.any (jsonIsStr · (bs "handler")) ∨ l.any (jsonIsStr · (bs "USB Event")) then
      ({}, some .typeError)
    else ({}, none)
  | _ => ({}, some .typeError)

/-- connLoop: the connection loop of UsbHostManager.extract_data; a
non-dict element makes props.get raise AttributeError. -/
def connLoop : List Json → List UsbConnection → List UsbConnection × Option PyErr
  | [], acc => (acc, none)
  | e :: rest, acc =>
    match e with
    | .obj mm =>
      match UsbConnection.parseProps {} mm with
      | .ok uc => connLoop rest (acc ++ [uc])
      | .error er => (acc, some er)
    | _ => (acc, some .attributeError)

/-- UsbHostManager.extract_data (same partial-mutation convention). -/
def UsbHostManager.extractData (parsed : Json) : UsbHostManager × Option PyErr :=
  match parsed with
  | .obj m =>
    let h0 : UsbHostManager := { num_connects := pyDictGet m (bs "num_connects") }
    match pyDictGet m (bs "connections") with
    | some (.arr es) =>
      let (cs, er) := connLoop es []
      ({ h0 with connections := cs }, er)
    | some (.obj mm) => (h0, if mm.isEmpty then none else some .attributeError)
    | some (.str s) => (h0, if s.isEmpty then none else some .attributeError)
    | some _ => (h0, some .typeError)
    | none => (h0, none)
  | _ => ({}, some .attributeError)

def usbAnchor : Bytes := bs "USB MANAGER STATE (dumpsys usb):\n"

/-- usbManagersOf: the try-block after clean_and_load_json succeeded — the
two extracts run in order; only a ValueError is caught (keeping the
partially filled managers), any other exception propagates. -/
def usbManagersOf (year : Nat) (data0 : UsbManagerData) (parsed : Json) :
    PRes UsbManagerData :=
  match parsed with
  | .obj m =>
    match pyDictGet m (bs "device_manager") with
    | some dv =>
      let (dm, er) := UsbDeviceManager.extractData year dv
      let data1 := { data0 with device_manager := some dm }
      match er with
      | some .valueError => .ok data1
      | some e => .error e
      | none =>
        match pyDictGet m (bs "host_manager") with
        | some hv =>
          let (hm, er2) := UsbHostManager.extractData hv
          let data2 := { data1 with host_manager := some hm }
          match er2 with
          | some .valueError => .ok data2
          | some e => .error e
          | none => .ok data2
        | none => .ok data1
    | none =>
      match pyDictGet m (bs "host_manager") with
      | some hv =>
        let (hm, er2) := UsbHostManager.extractData hv
        let data2 := { data0 with host_manager := some hm }
        match er2 with
        | some .valueError => .ok data2
        | some e => .error e
        | none => .ok data2
      | none => .ok data0
  | _ => .ok data0

/-- parse_usb_manager_state.  The current year (datetime.now().year) is an
explicit parameter of the embedding. -/
def parseUsbManagerState (year : Nat) (raw : Bytes) : PRes (Option UsbManagerData) :=
  match afterFirst usbAnchor raw with
  | none => .ok none
  | some tail =>
    let content :=
      match findSub (bs "\n\n\n") tail with
      | some i => tail.take i
      | none => tail
    let block0 := pyStrip content
    if block0 = [] then .ok none
    else
      let block1 :=
        match searchEventLog block0 with
        | some (full, inner) => pyReplaceAll full (evtReplacement inner) block0
        | none => block0
      let restr :=
        match restrictorContent block1 with
        | some rc => restrictorParse rc
        | none => []
      let data0 : UsbManagerData := { restrictor_state := restr }
      match findJsonBody block1 with
      | some (_, _, body) =>
        match cleanAndLoadJson body with
        | .ok parsed => (usbManagersOf year data0 parsed).map some
        | .error _ => .ok (some data0)
      | none => .ok (some data0)

/- ======================================================================
   The well-formed `key = value` blocks of the GrammarRepair round trip
   ====================================================================== -/

/-- wfKeyC: a character allowed in a round-trip key. -/
def wfKeyC (c : Char) : Bool := isLowerC c || c = '_'

/-- wfKey: a key made of lowercase letters and underscores, nonempty, not
starting with a true/false/null keyword (pass 2 would treat such a key as a
bare value continuing the previous line and merge the two lines). -/
def wfKey (k : Bytes) : Bool :=
  !k.isEmpty && k.all wfKeyC &&
    !(bs "true").isPrefixOf k && !(bs "false").isPrefixOf k && !(bs "null").isPrefixOf k

/-- wfValC: printable ASCII, excluding the backslash (json.loads would
reinterpret it as an escape), the brackets and braces (pass 3 refuses the
openers; pass 7 would delete a comma standing before a closer) and control
characters. -/
def wfValC (c : Char) : Bool :=
  0x20 ≤ c.toNat && c.toNat ≤ 0x7e && c ≠ '\\' && c ≠ '{' && c ≠ '[' &&
    c ≠ '}' && c ≠ ']'

/-- jsonNumCore: the unsigned part of a JSON-canonical number literal —
digits without a spurious leading zero, optionally a dot and more digits. -/
def jsonNumCore (w : Bytes) : Bool :=
  !(w.takeWhile isDigitC).isEmpty &&
    ((w.takeWhile isDigitC).head? != some '0' || (w.takeWhile isDigitC).length == 1) &&
    (match w.drop (w.takeWhile isDigitC).length with
     | [] => true
     | '.' :: fr => !fr.isEmpty && fr.all isDigitC
     | _ => false)

/-- jsonNumOk: the literal is also a valid JSON number without exponent (no
leading zeros, no bare trailing dot) — a numeric-looking value that
json.loads rejects, such as 007 or 3., breaks the round trip. -/
def jsonNumOk (v : Bytes) : Bool :=
  jsonNumCore (if v.head? = some '-' then v.drop 1 else v)

/-- wfVal: a nonempty scalar value of printable characters, with no leading
or trailing whitespace (the regexes strip it), and JSON-canonical whenever
it looks numeric. -/
def wfVal (v : Bytes) : Bool :=
  !v.isEmpty && v.all wfValC && v.head? != some ' ' && v.getLast? != some ' ' &&
    (!fullNumMatch v || jsonNumOk v)

/-- joinSep: lines joined by a separator (no trailing separator). -/
def joinSep (sep : Bytes) : List Bytes → Bytes
  | [] => []
  | [l] => l
  | l :: l2 :: ls => l ++ sep ++ joinSep sep (l2 :: ls)

/-- mkText: the raw block — one `key = value` line per pair, joined by
single newlines. -/
def mkText (kvs : List (Bytes × Bytes)) : Bytes :=
  joinSep [('\n')] (kvs.map (fun p => p.1 ++ bs " = " ++ p.2))

/-- numCandsAux: the candidate list of numCands after the sign has been
split off — s0 is the sign's length; a restatement of numCands' body used
to reason about the backtracking candidates uniformly. -/
def numCandsAux (s0 : Nat) (r : Bytes) : List Nat :=
  let d1 := r.takeWhile isDigitC
  if d1 = [] then []
  else
    match r.drop d1.length with
    | '.' :: r3 =>
      let d2 := r3.takeWhile isDigitC
      ((List.range (d2.length + 1)).reverse.map (fun k => s0 + d1.length + 1 + k)) ++
        ((List.range d1.length).reverse.map (fun k => s0 + k + 1))
    | _ => (List.range d1.length).reverse.map (fun k => s0 + k + 1)

/-- fullNumAux: the body of fullNumMatch after the optional sign has been
split off — a restatement used to reason about both sign cases at once. -/
def fullNumAux (t : Bytes) : Bool :=
  let d1 := t.takeWhile isDigitC
  let r := t.drop d1.length
  !d1.isEmpty && (r = [] ∨ (r.head? = some '.' ∧ (r.drop 1).all isDigitC))

/-- quoteBody: the quoted line produced by pass 3 without its leading
double quote — the unit the pass-6 scan resumes at after each match. -/
def quoteBody (key val : Bytes) : Bytes :=
  if val = bs "true" ∨ val = bs "false" ∨ val = bs "null" ∨ fullNumMatch val then
    key ++ bs "\": " ++ val
  else
    key ++ bs "\": \"" ++ pyReplaceAll (bs "\"") (bs "\\\"") val ++ [('"')]

/-- jPart: the value text pass 3 places after the colon — the bare token
for keywords and numeric-looking values, the escaped quoted string
otherwise. -/
def jPart (v : Bytes) : Bytes :=
  if v = bs "true" ∨ v = bs "false" ∨ v = bs "null" ∨ fullNumMatch v then v
  else '"' :: (pyReplaceAll (bs "\"") (bs "\\\"") v ++ [('"')])

/-- objTail: the text that remains after a member's quoted line inside the
wrapped object — either the closing brace, or the comma/newline/quote that
pass 6 placed before the next member's body. -/
def objTail : List (Bytes × Bytes) → Bytes
  | [] => [('}')]
  | r :: rest => ',' :: '\n' :: '"' :: (quoteBody r.1 r.2 ++ objTail rest)

/-- specTypedValue follows the SPEC's words for the structured value a
right-hand side is expected to round-trip to: a numeric literal becomes a
number, true/false a boolean (null the null value), and everything else
exactly the original string. -/
def specTypedValue (v : Bytes) : Json :=
  if v = bs "true" then .bool true
  else if v = bs "false" then .bool false
  else if v = bs "null" then .null
  else if fullNumMatch v then .num v
  else .str v

/- concrete ANR and account inputs used below -/

def c9N0 : Bytes := bs "  native: #00 pc 0000abc  /lib/libc.so (abort+1)"

def c9N1 : Bytes := bs "  native: #01 pc 0000def  /lib/libc.so (raise+2)"

def c9Lines : List Bytes :=
  [bs "\"main\" prio=5 tid=1 Native", c9N0, c9N1, bs "  at java.Foo.bar(Foo.java:10)"]

def c6AccRaw : Bytes :=
  bs "DUMP OF SERVICE account:\nUser UserInfo{0:Owner:c13}\n---------"

def c6AccContent : Bytes := bs "User UserInfo{0:Owner:c13}"

def c6AnrRaw : Bytes :=
  bs "------ VM TRACES AT LAST ANR x ------\n\"main\" prio=5 tid=1 Runnable\n  at a.b(c.java:1)\n----- end 123 -----"

def c6AnrContent : Bytes := bs "\"main\" prio=5 tid=1 Runnable\n  at a.b(c.java:1)"

-- ## Theorems

/-- foldl over mountStep appends, in order, one record per line with
nonempty strip. -/
theorem mountStep_foldl (ls : List Bytes) (acc : List MountPoint) :
    ls.foldl mountStep acc =
      acc ++ (ls.filter (fun l => !(pyStrip l).isEmpty)).map
        (fun l => MountPoint.parseLine {} l) := by
  induction ls generalizing acc with
  | nil => simp
  | cons l t ih =>
    simp only [List.foldl_cons, List.filter_cons]
    by_cases h : (pyStrip l).isEmpty
    · simp [mountStep, h, ih]
    · simp [mountStep, h, ih]

/-- C1: the claim says that when the second ThreadInfo for a tid is merged via
Process.add_thread, a field that is empty in the second occurrence keeps the
first occurrence's value.  In the code the `is not None` guard never fails, so
the second occurrence overwrites every field: merging a ps-sourced thread
(label u:r:zygote:s0, time 01:23) with a top-sourced thread for the same tid
leaves the merged record with the top record's empty label and empty time,
losing the ps data. -/
theorem c1_merge_overwrites_empty_fields :
    (c1Merged.map (fun p => (assocGet p.threads 1234).map (fun t => (t.label, t.time)))
      = .ok (some ([], []))) ∧
    ((ThreadInfo.parseLine {} c1PsLine "ps").map (fun t => (t.label, t.time))
      = .ok (bs "u:r:zygote:s0", bs "01:23")) ∧
    bs "u:r:zygote:s0" ≠ [] := by
  refine ⟨by decide, by decide, by decide⟩

/-- C3: on the block "x\n {a}" the first multiline match of \s*{ starts at
index 2 (the whitespace before the brace); the scan loop checks the depth
counter after every character, so on the leading space (depth still zero) it
stops immediately: the computed end index is 2 — not 5, the position of the
brace that returns the depth counter to zero, as running the same depth scan
from the opening brace at index 3 shows — and the extracted body is empty
instead of the text a strictly between the braces. -/
theorem c3_brace_scan_stops_on_leading_whitespace :
    findJsonBody (bs "x\n {a}") = some (2, 2, []) ∧
    braceScanGo ((bs "x\n {a}").drop 3) 0 0 = some 2 := by
  refine ⟨by decide, by decide⟩

/-- C7 counterexample: the claim says UsbConnection.parse on a props dict
missing the mode/device_address/manufacturer/product keys leaves those
fields at their declared zero/empty defaults (mode 0, empty bytes).  On the
empty dict the code stores mode = -1 (the int(props.get('mode', -1))
fallback) and None in the three byte fields, not the declared defaults. -/
theorem c7_missing_keys_defaults_violated :
    ((UsbConnection.parseProps {} []).map
        (fun c => (c.mode, c.device_address, c.manufacturer, c.product)))
      = .ok (-1, none, none, none) ∧
    (-1 : Int) ≠ 0 ∧ (none : Option Json) ≠ some (.str []) := by
  refine ⟨rfl, by decide, fun h => Option.noConfusion h⟩

/-- C7 amended: for every properties dict missing the mode, device_address,
manufacturer, product and timestamp keys, UsbConnection.parse stores the
sentinel -1 in mode and None in device_address, manufacturer, product and
timestamp (rather than the declared zero/empty dataclass defaults). -/
theorem c7_missing_keys_store_sentinels (props : List (Bytes × Json))
    (h1 : pyDictGet props (bs "mode") = none)
    (h2 : pyDictGet props (bs "device_address") = none)
    (h3 : pyDictGet props (bs "manufacturer") = none)
    (h4 : pyDictGet props (bs "product") = none)
    (h5 : pyDictGet props (bs "timestamp") = none) :
    UsbConnection.parseProps {} props =
      .ok { device_address := none, mode := -1, timestamp := none,
            manufacturer := none, product := none } := by
  unfold UsbConnection.parseProps
  rw [h1, h2, h3, h4, h5]
  rfl

/-- C7 amended, witness: a concrete props dict containing only an unrelated
key satisfies the hypotheses, and the conclusion evaluates as stated. -/
theorem c7_missing_keys_store_sentinels_witness :
    UsbConnection.parseProps {} [(bs "other", Json.num (bs "3"))] =
      .ok { device_address := none, mode := -1, timestamp := none,
            manufacturer := none, product := none } :=
  c7_missing_keys_store_sentinels [(bs "other", Json.num (bs "3"))]
    rfl rfl rfl rfl rfl

/-- C10: whenever the MOUNT POINT DUMP section is located, every line of the
section whose strip is nonempty appends exactly one MountPoint record —
also when the line does not match the mount pattern, in which case the
appended record keeps all default fields (empty device, path, mount_type,
empty options) — so the returned list is one record per nonblank line (its
length the number of nonblank lines), not one per well-formed mount line. -/
theorem c10_mount_one_record_per_nonblank_line (raw c : Bytes)
    (h : locateSection mountAnchor dashAnchor raw = some c) :
    parseMountPoints raw =
      some (((splitChar '\n' (pyStrip c)).filter (fun l => !(pyStrip l).isEmpty)).map
        (fun l => MountPoint.parseLine {} l)) ∧
    (parseMountPoints raw).map List.length =
      some ((splitChar '\n' (pyStrip c)).filter (fun l => !(pyStrip l).isEmpty)).length ∧
    ∀ l, matchMount (pyStrip l) = none → MountPoint.parseLine {} l = {} := by
  have h1 : parseMountPoints raw =
      some (((splitChar '\n' (pyStrip c)).filter (fun l => !(pyStrip l).isEmpty)).map
        (fun l => MountPoint.parseLine {} l)) := by
    unfold parseMountPoints
    rw [h]
    simp [mountStep_foldl]
  refine ⟨h1, ?_, ?_⟩
  · rw [h1]; simp
  · intro l hl
    simp [MountPoint.parseLine, hl]

/-- C10 witness: a concrete section with one well-formed mount line and one
garbage line yields exactly two records, the second all-default. -/
theorem c10_mount_witness :
    parseMountPoints c10Raw =
      some [{ device := bs "/dev/root", path := bs "/", mount_type := bs "ext4",
              options := [bs "rw", bs "seclabel"] }, {}] := by
  have h := (c10_mount_one_record_per_nonblank_line c10Raw c10Content rfl).1
  rw [h]
  decide

/-- C2: the claim says parse_package_info never raises and a malformed line
inside the package section is skipped, naming these very shapes.  In fact
each of them aborts the parse with an exception: a Client PIDs: line with a
non-numeric pid and an installerPackageUid=abc line raise ValueError from
int(), timeStamp=garbage raises ValueError from datetime.strptime, and a
declared-permissions line without a prot= part raises AttributeError from
None.strip(). -/
theorem c2_malformed_lines_raise :
    parsePackageInfo c2LinesA = .error .valueError ∧
    parsePackageInfo c2LinesB = .error .valueError ∧
    parsePackageInfo c2LinesC = .error .attributeError ∧
    parsePackageInfo c2LinesD = .error .valueError := by
  refine ⟨by decide, by decide, by decide, by decide⟩

/-- pyLStrip ignores a leading run of spaces. -/
theorem pyLStrip_replicate_space (n : Nat) (b : Bytes) :
    pyLStrip (List.replicate n ' ' ++ b) = pyLStrip b := by
  induction n with
  | zero => rfl
  | succ n ih =>
    have hsp : pyIsSpace ' ' = true := by decide
    simp only [List.replicate_succ, List.cons_append, pyLStrip, List.dropWhile_cons, hsp,
      if_true] at ih ⊢
    exact ih

/-- pyStrip ignores a leading run of spaces. -/
theorem pyStrip_replicate_space (n : Nat) (b : Bytes) :
    pyStrip (List.replicate n ' ' ++ b) = pyStrip b := by
  unfold pyStrip
  rw [pyLStrip_replicate_space]

/-- a six-space prefix check succeeds on any line indented by at least six
spaces. -/
theorem sixSpaces_isPrefixOf (m : Nat) (b : Bytes) :
    (bs "      ").isPrefixOf (List.replicate (6 + m) ' ' ++ b) = true := by
  have h6 : bs "      " = List.replicate 6 ' ' := rfl
  rw [h6, List.replicate_add, List.append_assoc, List.isPrefixOf_iff_prefix]
  exact List.prefix_append _ _

/-- a cons pattern whose head differs is never a prefix. -/
theorem isPrefixOf_cons_false (c d : Char) (p l : Bytes) (h : (c == d) = false) :
    (c :: p).isPrefixOf (d :: l) = false := by
  simp [List.isPrefixOf, h]

/-- splitChar never returns an empty list. -/
theorem splitChar_ne_nil (sep : Char) (l : Bytes) : splitChar sep l ≠ [] := by
  induction l with
  | nil => simp [splitChar]
  | cons c t ih =>
    by_cases h : c = sep
    · simp [splitChar, h]
    · simp only [splitChar, if_neg h]
      cases hr : splitChar sep t with
      | nil => simp
      | cons x xs => simp

/-- splitChar on a separator-free text yields that text as a singleton. -/
theorem splitChar_no_sep (sep : Char) (l : Bytes) (h : ∀ c ∈ l, ¬ c = sep) :
    splitChar sep l = [l] := by
  induction l with
  | nil => rfl
  | cons c t ih =>
    have hc : ¬ c = sep := h c (by simp)
    have ht : ∀ d ∈ t, ¬ d = sep := fun d hd => h d (List.mem_cons_of_mem _ hd)
    simp only [splitChar, if_neg hc, ih ht]

/-- splitChar splits off a separator-free piece before a separator. -/
theorem splitChar_append_cons (sep : Char) (l rest : Bytes) (h : ∀ c ∈ l, ¬ c = sep) :
    splitChar sep (l ++ sep :: rest) = l :: splitChar sep rest := by
  induction l with
  | nil => simp [splitChar]
  | cons c t ih =>
    have hc : ¬ c = sep := h c (by simp)
    have ht : ∀ d ∈ t, ¬ d = sep := fun d hd => h d (List.mem_cons_of_mem _ hd)
    simp only [List.cons_append, splitChar, if_neg hc, List.append_eq, ih ht]

/-- characters of an indented permission line are never newlines. -/
theorem c8Line_no_nl (k : Nat) : ∀ c ∈ c8Line k, ¬ c = '\n' := by
  intro c hc
  rw [c8Line] at hc
  rcases List.mem_append.mp hc with h | h
  · rw [List.eq_of_mem_replicate h]; decide
  · have hb : ∀ d ∈ c8Base, ¬ d = '\n' := by decide
    exact hb c h

/-- pkgStep only looks at the raw line through its strip and through the
six-space indentation check. -/
theorem pkgStep_congr (st : PkgSt) (x y : Bytes) (h1 : pyStrip x = pyStrip y)
    (h2 : ((bs "      ").isPrefixOf x) = ((bs "      ").isPrefixOf y)) :
    pkgStep st x = pkgStep st y := by
  unfold pkgStep pkgPackagesLine
  rw [h1]
  simp only [h2]

/-- C8 counterexample: the claim puts no requirement on how deeply the
permission line is indented, but with five spaces of indentation the code
resets the subsection (the line fails the six-space check) and the parsed
package's runtime_permissions map stays empty. -/
theorem c8_shallow_indent_drops_permission :
    (parsePackageInfo (c8Lines 5)).map
        (Option.map fun i => i.packages.map Package.runtime_permissions)
      = .ok (some [[]]) := rfl

/-- C8 amended: for every package section with a Package header, a runtime
permissions: subsection header and the CAMERA line indented by at least six
spaces, parse_package_info produces the runtime permission entry keyed by
android.permission.CAMERA with granted true and flags [USER_SET]. -/
theorem c8_camera_permission_parsed (k : Nat) (h : 6 ≤ k) :
    (parsePackageInfo (c8Lines k)).map
        (Option.map fun i => i.packages.map Package.runtime_permissions)
      = .ok (some [[(bs "android.permission.CAMERA", (true, [bs "USER_SET"]))]]) := by
  obtain ⟨m, rfl⟩ : ∃ m, k = 6 + m := ⟨k - 6, by omega⟩
  have e1 : (bs "DUMP OF SERVICE package:").isPrefixOf c8L1 = true := by decide
  have e2 : (bs "DUMP OF SERVICE package:").isPrefixOf c8L2 = false := by decide
  have e3 : (bs "DUMP OF SERVICE").isPrefixOf c8L2 = false := by decide
  have e4 : (bs "------").isPrefixOf c8L2 = false := by decide
  have e5 : (bs "DUMP OF SERVICE package:").isPrefixOf c8L3 = false := by decide
  have e6 : (bs "DUMP OF SERVICE").isPrefixOf c8L3 = false := by decide
  have e7 : (bs "------").isPrefixOf c8L3 = false := by decide
  have e8 : (bs "DUMP OF SERVICE package:").isPrefixOf c8L4 = false := by decide
  have e9 : (bs "DUMP OF SERVICE").isPrefixOf c8L4 = false := by decide
  have e10 : (bs "------").isPrefixOf c8L4 = false := by decide
  have hx0 : c8Line (6 + m) = ' ' :: (List.replicate (5 + m) ' ' ++ c8Base) := by
    rw [c8Line, show (6 + m) = (5 + m) + 1 by omega, List.replicate_succ, List.cons_append]
  have n1 : (bs "DUMP OF SERVICE package:").isPrefixOf (c8Line (6 + m)) = false := by
    rw [hx0, show bs "DUMP OF SERVICE package:" = 'D' :: bs "UMP OF SERVICE package:" from rfl]
    exact isPrefixOf_cons_false _ _ _ _ (by decide)
  have n2 : (bs "DUMP OF SERVICE").isPrefixOf (c8Line (6 + m)) = false := by
    rw [hx0, show bs "DUMP OF SERVICE" = 'D' :: bs "UMP OF SERVICE" from rfl]
    exact isPrefixOf_cons_false _ _ _ _ (by decide)
  have n3 : (bs "------").isPrefixOf (c8Line (6 + m)) = false := by
    rw [hx0, show bs "------" = '-' :: bs "-----" from rfl]
    exact isPrefixOf_cons_false _ _ _ _ (by decide)
  have hcollect : pkgCollect (c8Lines (6 + m)) false = [c8L2, c8L3, c8L4, c8Line (6 + m)] := by
    simp [c8Lines, pkgCollect, e1, e2, e3, e4, e5, e6, e7, e8, e9, e10, n1, n2, n3]
  have hj : joinLines [c8L2, c8L3, c8L4, c8Line (6 + m)] =
      c8L2 ++ '\n' :: (c8L3 ++ '\n' :: (c8L4 ++ '\n' :: c8Line (6 + m))) := by
    simp [joinLines, List.intersperse]
  have hl2 : ∀ c ∈ c8L2, ¬ c = '\n' := by decide
  have hl3 : ∀ c ∈ c8L3, ¬ c = '\n' := by decide
  have hl4 : ∀ c ∈ c8L4, ¬ c = '\n' := by decide
  have hsplit : splitChar '\n' (joinLines [c8L2, c8L3, c8L4, c8Line (6 + m)]) =
      [c8L2, c8L3, c8L4, c8Line (6 + m)] := by
    rw [hj, splitChar_append_cons _ _ _ hl2, splitChar_append_cons _ _ _ hl3,
      splitChar_append_cons _ _ _ hl4, splitChar_no_sep _ _ (c8Line_no_nl (6 + m))]
  have hstrip : pyStrip (c8Line (6 + m)) = pyStrip (c8Line 6) := by
    rw [c8Line, c8Line, pyStrip_replicate_space, pyStrip_replicate_space]
  have hind : ((bs "      ").isPrefixOf (c8Line (6 + m))) =
      ((bs "      ").isPrefixOf (c8Line 6)) := by
    rw [c8Line, sixSpaces_isPrefixOf]
    decide
  have hstep : ∀ st, pkgStep st (c8Line (6 + m)) = pkgStep st (c8Line 6) :=
    fun st => pkgStep_congr st _ _ hstrip hind
  unfold parsePackageInfo
  rw [hcollect]
  unfold parsePkgFromLines
  rw [if_neg (by simp), hsplit]
  simp only [List.foldlM_cons, List.foldlM_nil, hstep]
  rfl

/-- C8 amended, witness: at exactly six spaces of indentation the permission
entry is produced as stated. -/
theorem c8_camera_permission_parsed_witness :
    (parsePackageInfo (c8Lines 6)).map
        (Option.map fun i => i.packages.map Package.runtime_permissions)
      = .ok (some [[(bs "android.permission.CAMERA", (true, [bs "USER_SET"]))]]) :=
  c8_camera_permission_parsed 6 (by decide)

/-- pyRStrip only removes a suffix. -/
theorem pyRStrip_prefix (l : Bytes) : pyRStrip l <+: l := by
  have h : (l.reverse.dropWhile pyIsSpace) <:+ l.reverse := List.dropWhile_suffix _
  have h2 := List.reverse_prefix.mpr h
  rwa [List.reverse_reverse] at h2

/-- a head for the stripped line forces the same head for the
left-stripped line. -/
theorem lstrip_head (l : Bytes) (c : Char) (t : Bytes) (h : pyStrip l = c :: t) :
    ∃ t2, pyLStrip l = c :: t2 := by
  have hp : pyStrip l <+: pyLStrip l := pyRStrip_prefix _
  rw [h] at hp
  obtain ⟨s, hs⟩ := hp
  exact ⟨t ++ s, by rw [← hs]; rfl⟩

/-- a pattern starting with a non-space character that differs from the
left-stripped head is not a prefix of the raw line. -/
theorem not_prefix_of_lstrip_head (l : Bytes) (c d : Char) (tp t2 : Bytes)
    (hl : pyLStrip l = c :: t2) (hd1 : pyIsSpace d = false) (hd2 : (d == c) = false) :
    (d :: tp).isPrefixOf l = false := by
  cases l with
  | nil => simp [pyLStrip] at hl
  | cons e r =>
    by_cases he : pyIsSpace e = true
    · have hde : (d == e) = false := by
        cases hbe : d == e
        · rfl
        · exfalso
          have : d = e := beq_iff_eq.mp hbe
          rw [this, he] at hd1
          exact Bool.noConfusion hd1
      exact isPrefixOf_cons_false _ _ _ _ hde
    · have hstay : pyLStrip (e :: r) = e :: r := by
        simp [pyLStrip, List.dropWhile_cons, he]
      rw [hstay] at hl
      have : e = c := (List.cons.injEq .. ▸ hl).1
      exact isPrefixOf_cons_false _ _ _ _ (this ▸ hd2)

/-- lookNative absorbs exactly the contiguous run of native: # continuation
lines: it appends one parsed native frame per line, in document order, and
stops at the first index whose line is missing or not a continuation. -/
theorem lookNative_spec (lines : List Bytes) (k : Nat) :
    ∀ (th : VmThread) (j fuel : Nat), k < fuel →
    (∀ m, m < k → natContAt lines (j + m) = true) →
    natContAt lines (j + k) = false →
    lookNative lines fuel th j =
      ({ th with stack_trace := th.stack_trace ++ ((lines.drop j).take k).map nativeFrameOf },
       j + k) := by
  induction k with
  | zero =>
    intro th j fuel hf hk hs
    cases fuel with
    | zero => omega
    | succ f =>
      have hs0 : natContAt lines j = false := by simpa using hs
      simp [lookNative, hs0]
  | succ k ih =>
    intro th j fuel hf hk hs
    cases fuel with
    | zero => omega
    | succ f =>
      have h0 : natContAt lines j = true := by simpa using hk 0 (by omega)
      obtain ⟨lj, hlj⟩ : ∃ lj, lines.get? j = some lj := by
        unfold natContAt at h0
        cases hg : lines.get? j with
        | none => rw [hg] at h0; exact Bool.noConfusion h0
        | some l => exact ⟨l, rfl⟩
      have hjlen : j < lines.length := (List.get?_eq_some.mp hlj).1
      have hk2 : ∀ m, m < k → natContAt lines (j + 1 + m) = true := by
        intro m hm
        have := hk (m + 1) (by omega)
        rwa [show j + (m + 1) = j + 1 + m by omega] at this
      have hs2 : natContAt lines (j + 1 + k) = false := by
        rw [show j + 1 + k = j + (k + 1) by omega]
        exact hs
      have hdrop : lines.drop j = lj :: lines.drop (j + 1) := by
        have := List.drop_eq_getElem_cons hjlen
        rwa [show lines[j] = lj from by
          have h2 := hlj
          rw [List.get?_eq_getElem?] at h2
          exact (List.getElem?_eq_some.mp h2).2] at this
      have hlj2 : lines[j]? = some lj := by
        rw [← List.get?_eq_getElem?]
        exact hlj
      rw [show lookNative lines (f + 1) th j =
            lookNative lines f { th with stack_trace := th.stack_trace ++ [nativeFrameOf lj] }
              (j + 1) from by simp [lookNative, h0, hlj, hlj2]]
      rw [ih _ (j + 1) f (by omega) hk2 hs2]
      rw [hdrop]
      have hidx : j + 1 + k = j + (k + 1) := by omega
      simp [hidx, List.take_succ_cons]

/-- a true continuation check implies the index is in range. -/
theorem natContAt_lt (lines : List Bytes) (j : Nat) (h : natContAt lines j = true) :
    j < lines.length := by
  unfold natContAt at h
  cases hg : lines.get? j with
  | none => rw [hg] at h; exact Bool.noConfusion h
  | some l => exact (List.get?_eq_some.mp hg).1

/-- C9: when lines[i] opens a native stack entry inside a thread and is
followed by k contiguous native: # continuation lines, one loop iteration
parses all k+1 lines as native StackFrames appended in document order to the
current thread's stack trace and returns with the cursor at i+k+1, so none
of the continuation lines goes through the top-level dispatch again. -/
theorem c9_native_lookahead (st : AnrSt) (lines : List Bytes) (i k : Nat) (l0 : Bytes)
    (th : VmThread)
    (hline : lines.get? i = some l0)
    (hnat : (bs "native:").isPrefixOf (pyStrip l0) = true)
    (hcur : st.currentThread = some th)
    (hk : ∀ m, m < k → natContAt lines (i + 1 + m) = true)
    (hstop : natContAt lines (i + 1 + k) = false) :
    anrStepAt st lines i l0 =
      ({ st with currentThread := some { th with stack_trace := th.stack_trace ++ nativeFrameOf l0 :: ((lines.drop (i + 1)).take k).map nativeFrameOf } }, i + 1 + k) := by
  have hpref : bs "native:" <+: pyStrip l0 := List.isPrefixOf_iff_prefix.mp hnat
  obtain ⟨t, ht⟩ := hpref
  have hstrip : pyStrip l0 = 'n' :: (bs "ative:" ++ t) := by rw [← ht]; rfl
  obtain ⟨t2, hl2⟩ := lstrip_head l0 'n' _ hstrip
  have fSub : (bs "Subject:").isPrefixOf l0 = false := by
    rw [show bs "Subject:" = 'S' :: bs "ubject:" from rfl]
    exact not_prefix_of_lstrip_head l0 'n' 'S' _ t2 hl2 (by decide) (by decide)
  have fPid : (bs "----- pid").isPrefixOf l0 = false := by
    rw [show bs "----- pid" = '-' :: bs "---- pid" from rfl]
    exact not_prefix_of_lstrip_head l0 'n' '-' _ t2 hl2 (by decide) (by decide)
  have fCmd : (bs "Cmd line:").isPrefixOf l0 = false := by
    rw [show bs "Cmd line:" = 'C' :: bs "md line:" from rfl]
    exact not_prefix_of_lstrip_head l0 'n' 'C' _ t2 hl2 (by decide) (by decide)
  have fBld : (bs "Build fingerprint:").isPrefixOf l0 = false := by
    rw [show bs "Build fingerprint:" = 'B' :: bs "uild fingerprint:" from rfl]
    exact not_prefix_of_lstrip_head l0 'n' 'B' _ t2 hl2 (by decide) (by decide)
  have fAbi : (bs "ABI:").isPrefixOf l0 = false := by
    rw [show bs "ABI:" = 'A' :: bs "BI:" from rfl]
    exact not_prefix_of_lstrip_head l0 'n' 'A' _ t2 hl2 (by decide) (by decide)
  have fQuote : (bs "\"").isPrefixOf l0 = false := by
    rw [show bs "\"" = '"' :: ([] : Bytes) from rfl]
    exact not_prefix_of_lstrip_head l0 'n' '"' _ t2 hl2 (by decide) (by decide)
  have fBar : (bs "|").isPrefixOf (pyStrip l0) = false := by
    rw [hstrip, show bs "|" = '|' :: ([] : Bytes) from rfl]
    exact isPrefixOf_cons_false _ _ _ _ (by decide)
  have fAt : (bs "at ").isPrefixOf (pyStrip l0) = false := by
    rw [hstrip, show bs "at " = 'a' :: bs "t " from rfl]
    exact isPrefixOf_cons_false _ _ _ _ (by decide)
  have hH : anrHeaderStep st l0 = st := by
    simp [anrHeaderStep, fSub, hnat]
  have hP : anrProcessStep st l0 = st := by
    simp [anrProcessStep, fPid, fCmd, fBld, fAbi]
  have hfuel : k < lines.length := by
    cases k with
    | zero =>
      have := (List.get?_eq_some.mp hline).1
      omega
    | succ k2 =>
      have := natContAt_lt lines _ (hk k2 (by omega))
      omega
  unfold anrStepAt
  rw [hH, hP]
  unfold anrThreadStep
  rw [hcur]
  simp only [fQuote, fBar, fAt, hnat, Bool.false_eq_true, if_false, if_true, ite_false,
    ite_true]
  rw [lookNative_spec lines k _ (i + 1) lines.length hfuel hk hstop]
  simp

/-- C9 witness: a native entry line followed by one native: # continuation
inside an open thread yields both frames on the thread, in order, with the
cursor moved to index 3 (past the continuation line). -/
theorem c9_native_lookahead_witness :
    anrStepAt { currentThread := some {} } c9Lines 1 c9N0 =
      ({ currentThread := some { stack_trace := [nativeFrameOf c9N0, nativeFrameOf c9N1] } }, 3) := by
  have h := c9_native_lookahead { currentThread := some {} } c9Lines 1 1 c9N0 {}
    rfl (by decide) rfl (by decide) (by decide)
  rw [h]
  rfl

/-- C6: a nested record still open when the section's lines end is closed
implicitly and lands in the output.  For the account dump: whenever the line
fold ends with an open current user u, parse_account_service returns the
users list extended by u.  For the ANR trace: whenever the loop ends with an
open current thread, parse_anr_traces returns the threads list extended by
that thread.  An open context at section end is never an error. -/
theorem c6_open_record_closed_implicitly :
    (∀ raw content st u, locateSection accAnchorStart accAnchorEnd raw = some content →
        accFold content = .ok st → st.current_user = some u →
        (parseAccountService raw).map (Option.map AccountInfo.users) =
          .ok (some (st.info.users ++ [u]))) ∧
    (∀ raw content th, locateAnr raw = some content →
        (anrRun content).currentThread = some th →
        (parseAnrTraces raw).map AnrTrace.threads =
          some ((anrRun content).doneThreads ++ [th])) := by
  constructor
  · intro raw content st u hloc hfold hcur
    unfold parseAccountService
    rw [hloc]
    simp [hfold, accFinalize, hcur, Except.map]
  · intro raw content th hloc hcur
    unfold parseAnrTraces
    rw [hloc]
    simp [anrFinalize, hcur]

/-- C6 witness: an account section whose single user is never explicitly
closed still yields that user, and an ANR section whose last thread is still
open still yields that thread, complete with its parsed fields. -/
theorem c6_open_record_closed_witness :
    (parseAccountService c6AccRaw).map (Option.map AccountInfo.users) =
      .ok (some [{ user_info_raw := bs "Owner:c13\x7d", user_id := 0, user_name := bs "Owner", user_flag := bs "c13" }]) ∧
    (parseAnrTraces c6AnrRaw).map AnrTrace.threads =
      some [{ name := bs "main", priority := 5, tid := 1, status := bs "Runnable", stack_trace := [{ frame_type := bs "managed", method := bs "a.b(c.java:1)", file_loc := bs "c.java", line_number := 1 }] }] := by
  constructor
  · exact (c6_open_record_closed_implicitly).1 c6AccRaw c6AccContent _ _ rfl rfl rfl
  · exact (c6_open_record_closed_implicitly).2 c6AnrRaw c6AnrContent _ rfl rfl

/-- If the pattern never occurs as a substring, afterFirst finds nothing.
This is how an absent anchor makes every literal-anchored re.search fail. -/
theorem afterFirst_none_of_not_contains (pat : Bytes) :
    ∀ l : Bytes, containsSub l pat = false → afterFirst pat l = none := by
  intro l
  induction l with
  | nil =>
    intro h
    simp only [containsSub, findSub, afterFirst] at h ⊢
    by_cases hp : pat = []
    · simp [hp] at h
    · simp [hp]
  | cons c rest ih =>
    intro h
    simp only [containsSub, findSub, afterFirst] at h ⊢
    by_cases hp : pat.isPrefixOf (c :: rest)
    · simp [hp] at h
    · simp only [hp, Bool.false_eq_true, if_false, Option.isSome_map] at h
      simp only [hp, Bool.false_eq_true, if_false]
      cases hf : findSub pat rest with
      | none =>
        refine ih ?_
        unfold containsSub
        rw [hf]
        rfl
      | some v =>
        rw [hf] at h
        simp at h

/-- C5: for every input buffer that contains no occurrence of the section's
start anchor, parse_lsmod, parse_mount_points and parse_usb_manager_state
each return None rather than raising. -/
theorem c5_absent_anchor_returns_none (raw : Bytes) (year : Nat)
    (h1 : containsSub raw lsmodAnchor = false)
    (h2 : containsSub raw mountAnchor = false)
    (h3 : containsSub raw usbAnchor = false) :
    parseLsmod raw = .ok none ∧ parseMountPoints raw = none ∧
      parseUsbManagerState year raw = .ok none := by
  refine ⟨?_, ?_, ?_⟩
  · unfold parseLsmod locateSection
    rw [afterFirst_none_of_not_contains _ _ h1]
    rfl
  · unfold parseMountPoints locateSection
    rw [afterFirst_none_of_not_contains _ _ h2]
    rfl
  · unfold parseUsbManagerState
    rw [afterFirst_none_of_not_contains _ _ h3]

/-- C5 witness: a buffer with none of the three anchors gets None from all
three parse functions. -/
theorem c5_absent_anchor_returns_none_witness :
    (containsSub (bs "hello world") lsmodAnchor = false ∧
       containsSub (bs "hello world") mountAnchor = false ∧
       containsSub (bs "hello world") usbAnchor = false) ∧
      parseLsmod (bs "hello world") = .ok none ∧
      parseMountPoints (bs "hello world") = none ∧
      parseUsbManagerState 2024 (bs "hello world") = .ok none :=
  ⟨⟨by decide, by decide, by decide⟩,
    c5_absent_anchor_returns_none (bs "hello world") 2024 (by decide) (by decide) (by decide)⟩

/- ===== machinery for the C4 round-trip theorem: character facts ===== -/

theorem wfValC_ne_nl {c : Char} (h : wfValC c = true) : c ≠ '\n' := by
  rintro rfl; exact absurd h (by decide)

theorem wfKeyC_ne_nl {c : Char} (h : wfKeyC c = true) : c ≠ '\n' := by
  rintro rfl; exact absurd h (by decide)

theorem wfKeyC_ne_dash {c : Char} (h : wfKeyC c = true) : c ≠ '-' := by
  rintro rfl; exact absurd h (by decide)

theorem wfValC_nonspace {c : Char} (h : wfValC c = true) (h2 : c ≠ ' ') :
    pyIsSpace c = false := by
  simp only [pyIsSpace, Bool.or_eq_false_iff, decide_eq_false_iff_not]
  refine ⟨⟨⟨⟨⟨h2, ?_⟩, ?_⟩, ?_⟩, ?_⟩, ?_⟩ <;> rintro rfl <;> exact absurd h (by decide)

theorem wfKeyC_nonspace {c : Char} (h : wfKeyC c = true) : pyIsSpace c = false := by
  simp only [pyIsSpace, Bool.or_eq_false_iff, decide_eq_false_iff_not]
  refine ⟨⟨⟨⟨⟨?_, ?_⟩, ?_⟩, ?_⟩, ?_⟩, ?_⟩ <;> rintro rfl <;> exact absurd h (by decide)

theorem wfKeyC_not_digit {c : Char} (h : wfKeyC c = true) : isDigitC c = false := by
  have h' : isLowerC c = true ∨ c = '_' := by simpa [wfKeyC] using h
  rcases h' with hl | he
  · have hl2 : 'a' ≤ c ∧ c ≤ 'z' := by simpa [isLowerC] using hl
    have h2 : ¬ (c ≤ '9') := fun hc => absurd (le_trans hl2.1 hc) (by decide)
    unfold isDigitC
    rw [decide_eq_false h2, Bool.and_false]
  · subst he
    decide

/- ===== list scanning facts ===== -/

theorem lastNlPos_eq_none {l : Bytes} (h : '\n' ∉ l) : lastNlPos l = none := by
  induction l with
  | nil => rfl
  | cons c rest ih =>
    unfold lastNlPos
    rw [ih (fun hm => h (List.mem_cons_of_mem c hm))]
    have : c ≠ '\n' := fun e => h (e ▸ List.mem_cons_self c rest)
    simp [this]

theorem takeWhile_append_stop {p : Char → Bool} :
    ∀ (t u : Bytes), (∃ c ∈ t, p c = false) →
      (t ++ u).takeWhile p = t.takeWhile p := by
  intro t
  induction t with
  | nil => intro u h; rcases h with ⟨c, hc, _⟩; exact absurd hc (List.not_mem_nil c)
  | cons a t' ih =>
    intro u h
    by_cases hp : p a = true
    · simp only [List.cons_append, List.takeWhile_cons, hp]
      rcases h with ⟨c, hc, hcf⟩
      rcases List.mem_cons.mp hc with rfl | hc'
      · exact absurd hp (by simp [hcf])
      · rw [ih u ⟨c, hc', hcf⟩]
    · have hp' : p a = false := Bool.eq_false_iff.mpr hp
      simp only [List.cons_append, List.takeWhile_cons, hp']
      simp

theorem getLast?_drop_of_lt : ∀ (l : Bytes) (n : Nat), n < l.length →
    (l.drop n).getLast? = l.getLast? := by
  intro l
  induction l with
  | nil => intro n h; exact absurd h (by simp)
  | cons a t ih =>
    intro n h
    match n with
    | 0 => rfl
    | n + 1 =>
      have hn : n < t.length := by simpa using h
      have ht : t ≠ [] := by
        intro e; rw [e] at hn; exact absurd hn (by simp)
      rw [List.drop_succ_cons, ih n hn]
      match t, ht with
      | b :: t', _ => rw [List.getLast?_cons_cons]

theorem mem_of_getLast? : ∀ {l : Bytes} {c : Char}, l.getLast? = some c → c ∈ l := by
  intro l
  induction l with
  | nil => intro c h; exact absurd h (by simp)
  | cons a t ih =>
    intro c h
    match t, h with
    | [], h => simp at h; simp [h]
    | b :: t', h =>
      rw [List.getLast?_cons_cons] at h
      exact List.mem_cons_of_mem a (ih h)

theorem isPrefixOf_append_cons_false (b : Char) :
    ∀ (w k : Bytes) (X : Bytes), b ∉ w → w.isPrefixOf k = false →
      w.isPrefixOf (k ++ b :: X) = false := by
  intro w
  induction w with
  | nil => intro k X _ hk; simp [List.isPrefixOf] at hk
  | cons a w' ih =>
    intro k X hb hk
    match k with
    | [] =>
      simp only [List.nil_append, List.isPrefixOf]
      have : a ≠ b := fun e => hb (e ▸ List.mem_cons_self a w')
      simp [this]
    | c :: k' =>
      simp only [List.cons_append, List.isPrefixOf] at hk ⊢
      rcases Bool.and_eq_false_iff.mp hk with h1 | h2
      · rw [h1, Bool.false_and]
      · have h3 := ih k' X (fun hm => hb (List.mem_cons_of_mem a hm)) h2
        change (a == c && w'.isPrefixOf (k' ++ b :: X)) = false
        rw [h3, Bool.and_false]

theorem numCands_eq_nil {c : Char} {t : Bytes}
    (hd : isDigitC c = false) (hm : c ≠ '-') : numCands (c :: t) = [] := by
  have htw : (c :: t).takeWhile isDigitC = [] := by
    simp [List.takeWhile_cons, hd]
  unfold numCands
  split
  next s r heq =>
    split at heq
    · next r' heq2 =>
        injection heq2 with h1 h2
        exact absurd h1 hm
    · next =>
        injection heq with h1 h2
        subst h1
        subst h2
        simp only [htw]
        simp

/- ===== wfKey / wfVal destructuring ===== -/

theorem wfKey_parts {k : Bytes} (h : wfKey k = true) :
    k.isEmpty = false ∧ (∀ c ∈ k, wfKeyC c = true) ∧
      (bs "true").isPrefixOf k = false ∧ (bs "false").isPrefixOf k = false ∧
      (bs "null").isPrefixOf k = false := by
  simp only [wfKey, Bool.and_eq_true, Bool.not_eq_true', List.all_eq_true] at h
  exact ⟨h.1.1.1.1, h.1.1.1.2, h.1.1.2, h.1.2, h.2⟩

theorem wfVal_parts {v : Bytes} (h : wfVal v = true) :
    v.isEmpty = false ∧ (∀ c ∈ v, wfValC c = true) ∧
      v.head? ≠ some ' ' ∧ v.getLast? ≠ some ' ' ∧
      (fullNumMatch v = true → jsonNumOk v = true) := by
  simp only [wfVal, Bool.and_eq_true, Bool.not_eq_true', List.all_eq_true,
    bne_iff_ne, ne_eq, Bool.or_eq_true] at h
  refine ⟨h.1.1.1.1, h.1.1.1.2, h.1.1.2, h.1.2, ?_⟩
  intro hf
  rcases h.2 with h2 | h2
  · rw [hf] at h2; exact absurd h2 (by decide)
  · exact h2

/- ===== generic facts about the key = value line ===== -/

theorem line_no_nl {k v : Bytes} (hk : wfKey k = true) (hv : wfVal v = true) :
    ∀ c ∈ (k ++ bs " = " ++ v), c ≠ '\n' := by
  intro c hc
  rcases List.mem_append.mp hc with hc1 | hc2
  · rcases List.mem_append.mp hc1 with hk1 | hm
    · exact wfKeyC_ne_nl ((wfKey_parts hk).2.1 c hk1)
    · intro e; subst e; exact absurd hm (by decide)
  · exact wfValC_ne_nl ((wfVal_parts hv).2.1 c hc2)

theorem val_getLast_nonspace {v : Bytes} (hv : wfVal v = true) :
    ∃ cv, v.getLast? = some cv ∧ pyIsSpace cv = false := by
  have hp := wfVal_parts hv
  have hne : v ≠ [] := by
    intro e; rw [e] at hp; exact absurd hp.1 (by decide)
  rcases List.getLast?_isSome.mpr hne with h
  cases hg : v.getLast? with
  | none => rw [hg] at h; exact absurd h (by decide)
  | some cv =>
    refine ⟨cv, rfl, ?_⟩
    refine wfValC_nonspace (hp.2.1 cv (mem_of_getLast? hg)) ?_
    intro e; subst e; exact hp.2.2.2.1 hg

theorem line_getLast {k v : Bytes} (hv : wfVal v = true) :
    (k ++ bs " = " ++ v).getLast? = v.getLast? := by
  have hp := wfVal_parts hv
  have hne : v ≠ [] := by
    intro e; rw [e] at hp; exact absurd hp.1 (by decide)
  rw [List.getLast?_append_of_ne_nil _ hne]

/- ===== pass 1 is the identity on brace-free text ===== -/

theorem pass1Go_id : ∀ (fuel : Nat) (l : Bytes), (∀ c ∈ l, c ≠ '{') →
    pass1Go fuel l = l := by
  intro fuel
  induction fuel with
  | zero => intro l h; cases l <;> rfl
  | succ fuel ih =>
    intro l h
    match l with
    | [] => rfl
    | c :: rest =>
      unfold pass1Go
      have hrest : ∀ d ∈ rest, d ≠ '{' := fun d hd => h d (List.mem_cons_of_mem c hd)
      by_cases hc : c = '}'
      · subst hc
        rw [if_pos rfl]
        split
        · next r3 heq =>
            have hmem : '{' ∈ rest.dropWhile pyIsSpace := by
              rw [heq]; exact List.mem_cons_self _ _
            exact absurd rfl (hrest '{' ((List.dropWhile_sublist _).subset hmem))
        · next => rw [ih rest hrest]
      · rw [if_neg hc, ih rest hrest]

/- ===== pass 2 identity machinery ===== -/

theorem pass2TryTok_fail {s : Bytes} (c1 : Nat)
    (h : lastNlPos ((s.drop c1).takeWhile pyIsSpace) = none ∨
      tok2Cands ((s.drop c1).drop ((s.drop c1).takeWhile pyIsSpace).length) = []) :
    pass2TryTok s c1 = none := by
  unfold pass2TryTok
  rcases h with h | h
  · simp only [h]
  · cases hln : lastNlPos ((s.drop c1).takeWhile pyIsSpace) with
    | none => simp only [hln]
    | some k => simp only [hln, h]

theorem pass2TryGo_fail {s : Bytes}
    (h : ∀ c1, pass2TryTok s c1 = none) : ∀ cs, pass2TryGo s cs = none := by
  intro cs
  induction cs with
  | nil => rfl
  | cons c1 cs ih =>
    unfold pass2TryGo
    rw [h c1]
    exact ih

theorem pass2Go_id : ∀ (fuel : Nat) (l : Bytes), (∀ n, pass2Try (l.drop n) = none) →
    pass2Go fuel l = l := by
  intro fuel
  induction fuel with
  | zero => intro l h; cases l <;> rfl
  | succ fuel ih =>
    intro l h
    match l with
    | [] => rfl
    | c :: rest =>
      unfold pass2Go
      rw [show pass2Try (c :: rest) = none from h 0]
      rw [ih rest (fun n => h (n + 1))]

/- ===== the shape of mkText ===== -/

theorem mkText_nil : mkText [] = [] := rfl

theorem mkText_single (p : Bytes × Bytes) : mkText [p] = p.1 ++ bs " = " ++ p.2 := rfl

theorem mkText_cons₂ (p q : Bytes × Bytes) (rest : List (Bytes × Bytes)) :
    mkText (p :: q :: rest) =
      (p.1 ++ bs " = " ++ p.2) ++ '\n' :: mkText (q :: rest) := by
  show joinSep [('\n')] _ = _
  rw [List.map_cons, List.map_cons, joinSep]
  rw [List.append_assoc (p.1 ++ bs " = " ++ p.2)]
  rfl

theorem mkText_head (q : Bytes × Bytes) (rest : List (Bytes × Bytes)) :
    ∃ R, mkText (q :: rest) = q.1 ++ ' ' :: '=' :: ' ' :: (q.2 ++ R) := by
  cases rest with
  | nil =>
    refine ⟨[], ?_⟩
    rw [mkText_single, List.append_assoc, List.append_nil]
    rfl
  | cons q2 r =>
    refine ⟨'\n' :: mkText (q2 :: r), ?_⟩
    rw [mkText_cons₂, List.append_assoc, List.append_assoc]
    rfl

theorem key_head {k : Bytes} (h : wfKey k = true) : ∃ c t, k = c :: t := by
  cases hk : k with
  | nil =>
    rw [hk] at h
    exact absurd h (by decide)
  | cons c t => exact ⟨c, t, rfl⟩

theorem mkText_tok2_head {q : Bytes × Bytes} {rest : List (Bytes × Bytes)}
    (hq : wfKey q.1 = true) : tok2Cands (mkText (q :: rest)) = [] := by
  obtain ⟨R, hR⟩ := mkText_head q rest
  have hp := wfKey_parts hq
  obtain ⟨c₂, k', hk2⟩ := key_head hq
  have h1 : (bs "true").isPrefixOf (mkText (q :: rest)) = false := by
    rw [hR]; exact isPrefixOf_append_cons_false ' ' _ _ _ (by decide) hp.2.2.1
  have h2 : (bs "false").isPrefixOf (mkText (q :: rest)) = false := by
    rw [hR]; exact isPrefixOf_append_cons_false ' ' _ _ _ (by decide) hp.2.2.2.1
  have h3 : (bs "null").isPrefixOf (mkText (q :: rest)) = false := by
    rw [hR]; exact isPrefixOf_append_cons_false ' ' _ _ _ (by decide) hp.2.2.2.2
  have h4 : numCands (mkText (q :: rest)) = [] := by
    rw [hR, hk2, List.cons_append]
    exact numCands_eq_nil
      (wfKeyC_not_digit (hp.2.1 c₂ (by rw [hk2]; exact List.mem_cons_self _ _)))
      (wfKeyC_ne_dash (hp.2.1 c₂ (by rw [hk2]; exact List.mem_cons_self _ _)))
  unfold tok2Cands
  simp [h1, h2, h3, h4]

/- ===== pass 2 cannot match anywhere in a well-formed block ===== -/

theorem mkText_cond (kvs : List (Bytes × Bytes))
    (hk : ∀ r ∈ kvs, wfKey r.1 = true) (hv : ∀ r ∈ kvs, wfVal r.2 = true) :
    ∀ n, lastNlPos (((mkText kvs).drop n).takeWhile pyIsSpace) = none ∨
      tok2Cands (((mkText kvs).drop n).drop
        (((mkText kvs).drop n).takeWhile pyIsSpace).length) = [] := by
  induction kvs with
  | nil =>
    intro n
    left
    rw [mkText_nil]
    simp [lastNlPos]
  | cons p rest ih =>
    intro n
    cases rest with
    | nil =>
      left
      apply lastNlPos_eq_none
      intro hmem
      have h1 : '\n' ∈ (mkText [p]).drop n := (List.takeWhile_prefix _).subset hmem
      have h2 : '\n' ∈ p.1 ++ bs " = " ++ p.2 := by
        rw [← mkText_single]
        exact (List.drop_subset _ _) h1
      exact line_no_nl (hk p (by simp)) (hv p (by simp)) '\n' h2 rfl
    | cons q rest' =>
      have hline := mkText_cons₂ p q rest'
      rcases Nat.lt_trichotomy n (p.1 ++ bs " = " ++ p.2).length with hlt | heqn | hgt
      · left
        have hdrop : (mkText (p :: q :: rest')).drop n =
            (p.1 ++ bs " = " ++ p.2).drop n ++ '\n' :: mkText (q :: rest') := by
          rw [hline, List.drop_append_of_le_length (le_of_lt hlt)]
        rw [hdrop]
        obtain ⟨cv, hcv, hcvs⟩ := val_getLast_nonspace (hv p (by simp))
        have hlast : ((p.1 ++ bs " = " ++ p.2).drop n).getLast? = some cv := by
          rw [getLast?_drop_of_lt _ n hlt, line_getLast (hv p (by simp)), hcv]
        rw [takeWhile_append_stop _ _ ⟨cv, mem_of_getLast? hlast, hcvs⟩]
        apply lastNlPos_eq_none
        intro hmem
        exact line_no_nl (hk p (by simp)) (hv p (by simp)) '\n'
          ((List.drop_subset _ _) ((List.takeWhile_prefix _).subset hmem)) rfl
      · right
        have hdrop : (mkText (p :: q :: rest')).drop n = '\n' :: mkText (q :: rest') := by
          rw [hline, heqn, List.drop_left]
        rw [hdrop]
        obtain ⟨R, hR⟩ := mkText_head q rest'
        have hq := wfKey_parts (hk q (by simp))
        obtain ⟨c₂, k', hk2⟩ := key_head (hk q (by simp))
        have hMhead : mkText (q :: rest') =
            c₂ :: (k' ++ ' ' :: '=' :: ' ' :: (q.2 ++ R)) := by
          rw [hR, hk2, List.cons_append]
        have hc₂ : pyIsSpace c₂ = false :=
          wfKeyC_nonspace (hq.2.1 c₂ (by rw [hk2]; exact List.mem_cons_self _ _))
        have htw : ('\n' :: mkText (q :: rest')).takeWhile pyIsSpace = ['\n'] := by
          rw [List.takeWhile_cons]
          rw [hMhead, List.takeWhile_cons, hc₂]
          rfl
        rw [htw]
        show tok2Cands (('\n' :: mkText (q :: rest')).drop 1) = []
        rw [List.drop_succ_cons, List.drop_zero]
        exact mkText_tok2_head (hk q (by simp))
      · obtain ⟨m, rfl⟩ : ∃ m, n = (p.1 ++ bs " = " ++ p.2).length + (m + 1) :=
          ⟨n - (p.1 ++ bs " = " ++ p.2).length - 1, by omega⟩
        have hdrop : (mkText (p :: q :: rest')).drop
            ((p.1 ++ bs " = " ++ p.2).length + (m + 1)) =
            (mkText (q :: rest')).drop m := by
          rw [hline, List.drop_append, List.drop_succ_cons]
        rw [hdrop]
        exact ih (fun r hr => hk r (List.mem_cons_of_mem _ hr))
          (fun r hr => hv r (List.mem_cons_of_mem _ hr)) m

theorem mkText_pass2_id (kvs : List (Bytes × Bytes))
    (hk : ∀ r ∈ kvs, wfKey r.1 = true) (hv : ∀ r ∈ kvs, wfVal r.2 = true) :
    pass2 (mkText kvs) = mkText kvs := by
  apply pass2Go_id
  intro n
  unfold pass2Try
  apply pass2TryGo_fail
  intro c1
  apply pass2TryTok_fail
  rw [List.drop_drop]
  exact mkText_cond kvs hk hv _

theorem mkText_pass1_id (kvs : List (Bytes × Bytes))
    (hk : ∀ r ∈ kvs, wfKey r.1 = true) (hv : ∀ r ∈ kvs, wfVal r.2 = true) :
    pass1 (mkText kvs) = mkText kvs := by
  apply pass1Go_id
  intro c hc
  intro e
  subst e
  induction kvs with
  | nil => rw [mkText_nil] at hc; exact absurd hc (List.not_mem_nil _)
  | cons p rest ih =>
    cases rest with
    | nil =>
      rw [mkText_single] at hc
      rcases List.mem_append.mp hc with h1 | h2
      · rcases List.mem_append.mp h1 with ha | hb
        · exact absurd ((wfKey_parts (hk p (by simp))).2.1 _ ha) (by decide)
        · exact absurd hb (by decide)
      · exact absurd ((wfVal_parts (hv p (by simp))).2.1 _ h2) (by decide)
    | cons q rest' =>
      rw [mkText_cons₂] at hc
      rcases List.mem_append.mp hc with h1 | h2
      · rcases List.mem_append.mp h1 with h1' | h2'
        · rcases List.mem_append.mp h1' with ha | hb
          · exact absurd ((wfKey_parts (hk p (by simp))).2.1 _ ha) (by decide)
          · exact absurd hb (by decide)
        · exact absurd ((wfVal_parts (hv p (by simp))).2.1 _ h2') (by decide)
      · rcases List.mem_cons.mp h2 with hnl | h3
        · exact absurd hnl (by decide)
        · exact ih (fun r hr => hk r (List.mem_cons_of_mem _ hr))
            (fun r hr => hv r (List.mem_cons_of_mem _ hr)) h3

/- ===== pass 3 rewrites each line to its quoted form ===== -/

theorem takeWhile_append_all {p : Char → Bool} :
    ∀ (t u : Bytes), (∀ c ∈ t, p c = true) →
      (t ++ u).takeWhile p = t ++ u.takeWhile p := by
  intro t
  induction t with
  | nil => intro u _; rfl
  | cons a t' ih =>
    intro u h
    rw [List.cons_append, List.takeWhile_cons, h a (List.mem_cons_self _ _)]
    rw [List.cons_append, ih u (fun c hc => h c (List.mem_cons_of_mem a hc))]
    simp

theorem wfKeyC_p3Class {c : Char} (h : wfKeyC c = true) : p3Class c = true := by
  have h' : isLowerC c = true ∨ c = '_' := by simpa [wfKeyC] using h
  unfold p3Class isWordC
  rcases h' with hl | he
  · rw [hl]
    simp
  · subst he
    decide

theorem wfValC_ne_open {c : Char} (h : wfValC c = true) : ¬ (c = '{' ∨ c = '[') := by
  rintro (rfl | rfl) <;> exact absurd h (by decide)

theorem wsDollar_tail {T : Bytes}
    (hT : T = [] ∨ ∃ c M', T = '\n' :: c :: M' ∧ pyIsSpace c = false) :
    wsDollar T = some T := by
  rcases hT with rfl | ⟨c, M', rfl, hc⟩
  · rfl
  · unfold wsDollar
    have hrun : ('\n' :: c :: M').takeWhile pyIsSpace = ['\n'] := by
      rw [List.takeWhile_cons, List.takeWhile_cons, hc]
      rfl
    rw [hrun]
    simp [lastNlPos]

theorem wsDollar_mid {v' T : Bytes} (hne : v' ≠ [])
    (hall : ∀ c ∈ v', wfValC c = true) (hlast : v'.getLast? ≠ some ' ') :
    wsDollar (v' ++ T) = none := by
  obtain ⟨cv, hcv⟩ : ∃ cv, v'.getLast? = some cv := by
    cases hg : v'.getLast? with
    | none => exact absurd (List.getLast?_isSome.mpr hne) (by rw [hg]; decide)
    | some cv => exact ⟨cv, rfl⟩
  have hcvs : pyIsSpace cv = false :=
    wfValC_nonspace (hall cv (mem_of_getLast? hcv)) (fun e => hlast (e ▸ hcv))
  have hrun : (v' ++ T).takeWhile pyIsSpace = v'.takeWhile pyIsSpace :=
    takeWhile_append_stop _ _ ⟨cv, mem_of_getLast? hcv, hcvs⟩
  have hlt : (v'.takeWhile pyIsSpace).length < v'.length := by
    rcases Nat.lt_or_ge (v'.takeWhile pyIsSpace).length v'.length with h | h
    · exact h
    · exfalso
      have heqtw : v'.takeWhile pyIsSpace = v' :=
        List.IsPrefix.eq_of_length_le (List.takeWhile_prefix _) h
      have : pyIsSpace cv = true :=
        List.mem_takeWhile_imp (by rw [heqtw]; exact mem_of_getLast? hcv)
      rw [this] at hcvs
      exact absurd hcvs (by decide)
  unfold wsDollar
  rw [hrun]
  have hdne : (v' ++ T).drop (v'.takeWhile pyIsSpace).length ≠ [] := by
    apply List.ne_nil_of_length_pos
    rw [List.length_drop, List.length_append]
    omega
  rw [if_neg hdne]
  rw [lastNlPos_eq_none]
  intro hmem
  exact wfValC_ne_nl (hall '\n' ((List.takeWhile_prefix _).subset hmem)) rfl

theorem lazyValGo_val :
    ∀ (v : Bytes) (T : Bytes) (fuel : Nat), v ≠ [] →
      (∀ c ∈ v, wfValC c = true) → v.getLast? ≠ some ' ' →
      (T = [] ∨ ∃ c M', T = '\n' :: c :: M' ∧ pyIsSpace c = false) →
      v.length ≤ fuel → lazyValGo fuel (v ++ T) = some (v, T) := by
  intro v
  induction v with
  | nil => intro T fuel hne; exact absurd rfl hne
  | cons c v' ih =>
    intro T fuel _ hall hlast hT hfuel
    match fuel, hfuel with
    | fuel + 1, hfuel2 =>
      rw [List.cons_append]
      unfold lazyValGo
      rw [if_neg (wfValC_ne_open (hall c (List.mem_cons_self _ _)))]
      cases v' with
      | nil =>
        rw [List.nil_append, wsDollar_tail hT]
      | cons d v'' =>
        have hne' : d :: v'' ≠ [] := List.cons_ne_nil _ _
        have hall' : ∀ e ∈ d :: v'', wfValC e = true :=
          fun e he => hall e (List.mem_cons_of_mem c he)
        have hlast' : (d :: v'').getLast? ≠ some ' ' := by
          rwa [List.getLast?_cons_cons] at hlast
        rw [wsDollar_mid hne' hall' hlast']
        rw [ih T fuel hne' hall' hlast' hT
          (by simpa using Nat.le_of_succ_le_succ hfuel2)]
        rfl

theorem pyStrip_id {v : Bytes}
    (hh : ∀ c, v.head? = some c → pyIsSpace c = false)
    (hl : ∀ c, v.getLast? = some c → pyIsSpace c = false) : pyStrip v = v := by
  cases v with
  | nil => rfl
  | cons c v' =>
    unfold pyStrip pyLStrip pyRStrip
    rw [List.dropWhile_cons, hh c rfl]
    simp only [Bool.false_eq_true, if_false]
    cases hrv : (c :: v').reverse with
    | nil => exact absurd hrv (by simp)
    | cons d t =>
      have hd : (c :: v').getLast? = some d := by
        rw [← List.head?_reverse, hrv]
        rfl
      rw [List.dropWhile_cons, hl d hd]
      simp only [Bool.false_eq_true, if_false]
      rw [← hrv, List.reverse_reverse]

theorem pyStrip_key {k : Bytes} (hne : k ≠ [])
    (hall : ∀ c ∈ k, wfKeyC c = true) : pyStrip (k ++ [(' ')]) = k := by
  match k, hne with
  | c :: k', _ =>
    have h1 : pyLStrip ((c :: k') ++ [(' ')]) = (c :: k') ++ [(' ')] := by
      unfold pyLStrip
      rw [List.cons_append, List.dropWhile_cons,
        wfKeyC_nonspace (hall c (List.mem_cons_self _ _))]
      simp
    unfold pyStrip
    rw [h1]
    unfold pyRStrip
    rw [List.reverse_append]
    rw [show ([(' ')] : Bytes).reverse = [(' ')] from rfl]
    rw [List.singleton_append, List.dropWhile_cons]
    rw [show pyIsSpace ' ' = true from rfl]
    rw [if_pos rfl]
    cases hrv : (c :: k').reverse with
    | nil => exact absurd hrv (by simp)
    | cons d t =>
      have hd : (c :: k').getLast? = some d := by
        rw [← List.head?_reverse, hrv]
        rfl
      rw [List.dropWhile_cons,
        wfKeyC_nonspace (hall d (mem_of_getLast? hd))]
      simp only [Bool.false_eq_true, if_false]
      rw [← hrv, List.reverse_reverse]

theorem p3TryW_one {R after g2 rest : Bytes}
    (h : lazyValGo ((after.drop 1).length + 1) (after.drop 1) = some (g2, rest)) :
    p3TryW R after 1 = some (quoteKV (pyStrip R) (pyStrip g2), rest) := by
  unfold p3TryW
  rw [h]

theorem matchP3_line {k v T : Bytes} (hk : wfKey k = true) (hv : wfVal v = true)
    (hT : T = [] ∨ ∃ c M', T = '\n' :: c :: M' ∧ pyIsSpace c = false) :
    matchP3 (k ++ ' ' :: '=' :: ' ' :: (v ++ T)) = some (quoteKV k v, T) := by
  have hkp := wfKey_parts hk
  have hvp := wfVal_parts hv
  have hkne : k ≠ [] := by intro e; rw [e] at hkp; exact absurd hkp.1 (by decide)
  have hvne : v ≠ [] := by intro e; rw [e] at hvp; exact absurd hvp.1 (by decide)
  obtain ⟨c0, v0, hv0⟩ : ∃ c0 v0, v = c0 :: v0 := by
    cases hvv : v with
    | nil => exact absurd hvv hvne
    | cons a t => exact ⟨a, t, rfl⟩
  have hc0 : pyIsSpace c0 = false := by
    refine wfValC_nonspace (hvp.2.1 c0 (by rw [hv0]; exact List.mem_cons_self _ _)) ?_
    intro e
    exact hvp.2.2.1 (by rw [hv0, e]; rfl)
  have hR : (k ++ ' ' :: '=' :: ' ' :: (v ++ T)).takeWhile p3Class = k ++ [(' ')] := by
    rw [takeWhile_append_all _ _ (fun c hc => wfKeyC_p3Class (hkp.2.1 c hc))]
    rw [List.takeWhile_cons]
    rw [show p3Class ' ' = true from rfl]
    rw [if_pos rfl]
    rw [List.takeWhile_cons]
    rw [show p3Class '=' = false from rfl]
    simp
  unfold matchP3
  rw [hR]
  rw [if_neg (by simp)]
  have hdrop : (k ++ ' ' :: '=' :: ' ' :: (v ++ T)).drop (k ++ [(' ')]).length =
      '=' :: ' ' :: (v ++ T) := by
    simp only [List.length_append, List.length_singleton]
    rw [List.drop_append]
    rfl
  rw [hdrop]
  show p3TryW (k ++ [(' ')]) (' ' :: (v ++ T))
      ((' ' :: (v ++ T)).takeWhile pyIsSpace).length = some (quoteKV k v, T)
  have htw : (' ' :: (v ++ T)).takeWhile pyIsSpace = [(' ')] := by
    rw [List.takeWhile_cons]
    rw [show pyIsSpace ' ' = true from rfl]
    rw [if_pos rfl]
    rw [hv0, List.cons_append, List.takeWhile_cons, hc0]
    rfl
  rw [htw]
  show p3TryW (k ++ [(' ')]) (' ' :: (v ++ T)) 1 = some (quoteKV k v, T)
  have hlv : lazyValGo (((' ' :: (v ++ T)).drop 1).length + 1) ((' ' :: (v ++ T)).drop 1) =
      some (v, T) := by
    show lazyValGo ((v ++ T).length + 1) (v ++ T) = some (v, T)
    refine lazyValGo_val v T _ hvne hvp.2.1 hvp.2.2.2.1 hT ?_
    rw [List.length_append]
    omega
  rw [p3TryW_one hlv]
  rw [pyStrip_key hkne hkp.2.1]
  rw [pyStrip_id (fun c hc => by
      rw [hv0] at hc
      have he : c0 = c := by simpa using hc
      rw [← he]
      exact hc0)
    (fun c hc => by
      refine wfValC_nonspace (hvp.2.1 c (mem_of_getLast? hc)) ?_
      intro e
      subst e
      exact hvp.2.2.2.1 hc)]

theorem pass3Go_nil (fuel : Nat) (b : Bool) : pass3Go fuel b [] = [] := by
  cases fuel <;> rfl

theorem pass3Go_step {k v T : Bytes} {fuel : Nat} (hk : wfKey k = true)
    (hv : wfVal v = true)
    (hT : T = [] ∨ ∃ c M', T = '\n' :: c :: M' ∧ pyIsSpace c = false) :
    pass3Go (fuel + 1) true ((k ++ bs " = " ++ v) ++ T) =
      quoteKV k v ++ pass3Go fuel false T := by
  obtain ⟨c₁, k', hk1⟩ := key_head hk
  have hshape : (k ++ bs " = " ++ v) ++ T = c₁ :: (k' ++ ' ' :: '=' :: ' ' :: (v ++ T)) := by
    rw [hk1, List.append_assoc, List.append_assoc, List.cons_append]
    rfl
  rw [hshape]
  rw [pass3Go]
  rw [if_pos rfl]
  rw [← List.cons_append, ← hk1]
  rw [matchP3_line hk hv hT]

theorem pass3Go_nl {M : Bytes} (fuel : Nat) :
    pass3Go (fuel + 1) false ('\n' :: M) = '\n' :: pass3Go fuel true M := by
  rw [pass3Go]
  simp

theorem joinSep_cons_ne (x : Bytes) (l : List Bytes) (h : l ≠ []) :
    joinSep [('\n')] (x :: l) = x ++ '\n' :: joinSep [('\n')] l := by
  match l, h with
  | y :: l', _ =>
    rw [joinSep, List.append_assoc]
    rfl

theorem pass3_mkText_go : ∀ (kvs : List (Bytes × Bytes)) (fuel : Nat),
    (∀ r ∈ kvs, wfKey r.1 = true) → (∀ r ∈ kvs, wfVal r.2 = true) →
    2 * kvs.length ≤ fuel + 1 →
    pass3Go fuel true (mkText kvs) =
      joinSep [('\n')] (kvs.map (fun p => quoteKV p.1 p.2)) := by
  intro kvs
  induction kvs with
  | nil =>
    intro fuel _ _ _
    rw [mkText_nil, pass3Go_nil]
    rfl
  | cons p rest ih =>
    intro fuel hk hv hfuel
    cases rest with
    | nil =>
      match fuel, hfuel with
      | fuel + 1, _ =>
        rw [mkText_single]
        rw [show (p.1 ++ bs " = " ++ p.2 : Bytes) = (p.1 ++ bs " = " ++ p.2) ++ []
          from (List.append_nil _).symm]
        rw [pass3Go_step (hk p (by simp)) (hv p (by simp)) (Or.inl rfl)]
        rw [pass3Go_nil, List.append_nil]
        rfl
    | cons q rest' =>
      obtain ⟨f2, rfl⟩ : ∃ f2, fuel = f2 + 2 := by
        refine ⟨fuel - 2, ?_⟩
        have : 2 * (rest'.length + 2) ≤ fuel + 1 := by simpa using hfuel
        omega
      rw [mkText_cons₂]
      obtain ⟨R, hRM⟩ := mkText_head q rest'
      obtain ⟨c₂, k₂', hk2⟩ := key_head (hk q (by simp))
      have hT : ('\n' :: mkText (q :: rest') : Bytes) = [] ∨
          ∃ c M', ('\n' :: mkText (q :: rest') : Bytes) = '\n' :: c :: M' ∧
            pyIsSpace c = false := by
        right
        refine ⟨c₂, k₂' ++ ' ' :: '=' :: ' ' :: (q.2 ++ R), ?_,
          wfKeyC_nonspace ((wfKey_parts (hk q (by simp))).2.1 c₂
            (by rw [hk2]; exact List.mem_cons_self _ _))⟩
        rw [hRM, hk2, List.cons_append]
      rw [show f2 + 2 = (f2 + 1) + 1 from rfl]
      rw [pass3Go_step (hk p (by simp)) (hv p (by simp)) hT]
      rw [pass3Go_nl]
      rw [ih f2 (fun r hr => hk r (List.mem_cons_of_mem _ hr))
        (fun r hr => hv r (List.mem_cons_of_mem _ hr))
        (by
          have : 2 * (rest'.length + 2) ≤ f2 + 2 + 1 := by simpa using hfuel
          simp only [List.length_cons]
          omega)]
      conv_rhs => rw [List.map_cons, joinSep_cons_ne _ _ (by simp)]

theorem mkText_length_ge : ∀ (kvs : List (Bytes × Bytes)),
    2 * kvs.length ≤ (mkText kvs).length + 1 := by
  intro kvs
  induction kvs with
  | nil => simp [mkText_nil]
  | cons p rest ih =>
    cases rest with
    | nil =>
      rw [mkText_single]
      simp only [List.length_append, List.length_cons, List.length_nil]
      have h3 : (bs " = ").length = 3 := rfl
      omega
    | cons q rest' =>
      rw [mkText_cons₂]
      simp only [List.length_append, List.length_cons, List.length_nil] at ih ⊢
      have h3 : (bs " = ").length = 3 := rfl
      omega

theorem pass3_mkText (kvs : List (Bytes × Bytes))
    (hk : ∀ r ∈ kvs, wfKey r.1 = true) (hv : ∀ r ∈ kvs, wfVal r.2 = true) :
    pass3 (mkText kvs) = joinSep [('\n')] (kvs.map (fun p => quoteKV p.1 p.2)) :=
  pass3_mkText_go kvs _ hk hv (mkText_length_ge kvs)

/- ===== passes 4 and 5 are the identity on quoted lines ===== -/

theorem head?_mem : ∀ {l : Bytes} {c : Char}, l.head? = some c → c ∈ l := by
  intro l c h
  cases l with
  | nil => simp at h
  | cons a t =>
    have : a = c := by simpa using h
    rw [← this]
    exact List.mem_cons_self _ _

theorem matchP4_quote {l : Bytes} (h : l.head? = some '"') : matchP4 l = none := by
  match l, h with
  | c :: rest, h =>
    have hc : c = '"' := by simpa using h
    subst hc
    unfold matchP4
    rw [List.takeWhile_cons]
    rw [show p3Class '"' = false from rfl]
    simp

theorem matchP5_quote {l : Bytes} (h : l.head? = some '"') : matchP5 l = none := by
  match l, h with
  | c :: rest, h =>
    have hc : c = '"' := by simpa using h
    subst hc
    unfold matchP5
    rw [List.takeWhile_cons]
    rw [show p3Class '"' = false from rfl]
    simp

theorem matchP4_nil : matchP4 [] = none := rfl

theorem matchP5_nil : matchP5 [] = none := rfl

theorem pass4Go_id : ∀ (fuel : Nat) (atStart : Bool) (l : Bytes),
    (atStart = true → matchP4 l = none) →
    (∀ n, (l.drop n).head? = some '\n' → matchP4 (l.drop (n + 1)) = none) →
    pass4Go fuel atStart l = l := by
  intro fuel
  induction fuel with
  | zero => intro atStart l _ _; cases l <;> rfl
  | succ fuel ih =>
    intro atStart l hs hn
    match l with
    | [] => cases atStart <;> rfl
    | c :: rest =>
      have hrec : pass4Go fuel (decide (c = '\n')) rest = rest := by
        apply ih
        · intro hdec
          have hc : c = '\n' := of_decide_eq_true hdec
          subst hc
          exact hn 0 rfl
        · intro n hh
          exact hn (n + 1) hh
      rw [pass4Go]
      cases atStart with
      | false => simp only [Bool.false_eq_true, if_false, hrec]
      | true =>
        rw [if_pos rfl, hs rfl, hrec]

theorem pass5Go_id : ∀ (fuel : Nat) (atStart : Bool) (l : Bytes),
    (atStart = true → matchP5 l = none) →
    (∀ n, (l.drop n).head? = some '\n' → matchP5 (l.drop (n + 1)) = none) →
    pass5Go fuel atStart l = l := by
  intro fuel
  induction fuel with
  | zero => intro atStart l _ _; cases l <;> rfl
  | succ fuel ih =>
    intro atStart l hs hn
    match l with
    | [] => cases atStart <;> rfl
    | c :: rest =>
      have hrec : pass5Go fuel (decide (c = '\n')) rest = rest := by
        apply ih
        · intro hdec
          have hc : c = '\n' := of_decide_eq_true hdec
          subst hc
          exact hn 0 rfl
        · intro n hh
          exact hn (n + 1) hh
      rw [pass5Go]
      cases atStart with
      | false => simp only [Bool.false_eq_true, if_false, hrec]
      | true =>
        rw [if_pos rfl, hs rfl, hrec]

theorem escGo_chars {c : Char} :
    ∀ (fuel : Nat) (v : Bytes), c ∈ pyReplaceGo (bs "\"") (bs "\\\"") fuel v →
      c ∈ v ∨ c = '\\' ∨ c = '"' := by
  intro fuel
  induction fuel with
  | zero =>
    intro v h
    cases v with
    | nil => simp [pyReplaceGo] at h
    | cons d rest => exact Or.inl h
  | succ fuel ih =>
    intro v h
    cases v with
    | nil => simp [pyReplaceGo] at h
    | cons d rest =>
      rw [pyReplaceGo] at h
      by_cases hd : (bs "\"") ≠ [] ∧ (bs "\"").isPrefixOf (d :: rest)
      · rw [if_pos hd] at h
        rcases List.mem_append.mp h with h1 | h2
        · right
          rcases List.mem_cons.mp h1 with rfl | h1'
          · exact Or.inl rfl
          · right; simpa using h1'
        · rcases ih ((d :: rest).drop 1) h2 with h3 | h3
          · exact Or.inl (List.mem_cons_of_mem d h3)
          · exact Or.inr h3
      · rw [if_neg hd] at h
        rcases List.mem_cons.mp h with rfl | h2
        · exact Or.inl (List.mem_cons_self _ _)
        · rcases ih rest h2 with h3 | h3
          · exact Or.inl (List.mem_cons_of_mem d h3)
          · exact Or.inr h3

theorem quoteKV_head (k v : Bytes) : ∃ t, quoteKV k v = '"' :: t := by
  unfold quoteKV
  split
  · exact ⟨_, rfl⟩
  · exact ⟨_, rfl⟩

theorem quoteKV_ne_nil (k v : Bytes) : quoteKV k v ≠ [] := by
  obtain ⟨t, ht⟩ := quoteKV_head k v
  rw [ht]
  exact List.cons_ne_nil _ _

theorem quoteKV_no_nl {k v : Bytes} (hk : wfKey k = true) (hv : wfVal v = true) :
    ∀ c ∈ quoteKV k v, c ≠ '\n' := by
  intro c hc
  have hkp := wfKey_parts hk
  have hvp := wfVal_parts hv
  unfold quoteKV at hc
  split at hc
  · rcases List.mem_cons.mp hc with rfl | hc1
    · decide
    · rcases List.mem_append.mp hc1 with h1 | h2
      · rcases List.mem_append.mp h1 with ha | hb
        · exact wfKeyC_ne_nl (hkp.2.1 c ha)
        · intro e; subst e; exact absurd hb (by decide)
      · exact wfValC_ne_nl (hvp.2.1 c h2)
  · rcases List.mem_cons.mp hc with rfl | hc1
    · decide
    · rcases List.mem_append.mp hc1 with h1 | h2
      · rcases List.mem_append.mp h1 with h1' | hesc
        · rcases List.mem_append.mp h1' with ha | hb
          · exact wfKeyC_ne_nl (hkp.2.1 c ha)
          · intro e; subst e; exact absurd hb (by decide)
        · rcases escGo_chars _ _ hesc with h3 | h3 | h3
          · exact wfValC_ne_nl (hvp.2.1 c h3)
          · subst h3; decide
          · subst h3; decide
      · intro e; subst e; exact absurd h2 (by decide)

theorem joinSep_head : ∀ (ℓ : Bytes) (t : List Bytes),
    (joinSep [('\n')] (ℓ :: t)).head? = ℓ.head? ∨
      (joinSep [('\n')] (ℓ :: t)).head? = some '\n' ∧ ℓ = [] := by
  intro ℓ t
  cases t with
  | nil => exact Or.inl rfl
  | cons ℓ2 t' =>
    rw [joinSep_cons_ne _ _ (List.cons_ne_nil _ _)]
    cases ℓ with
    | nil => exact Or.inr ⟨rfl, rfl⟩
    | cons a u => exact Or.inl rfl

theorem joinSep_nl_quote : ∀ (ls : List Bytes),
    (∀ ℓ ∈ ls, ℓ ≠ [] ∧ ℓ.head? = some '"' ∧ ∀ c ∈ ℓ, c ≠ '\n') →
    ∀ n, ((joinSep [('\n')] ls).drop n).head? = some '\n' →
      ((joinSep [('\n')] ls).drop (n + 1)).head? = some '"' := by
  intro ls
  induction ls with
  | nil =>
    intro _ n hh
    simp [joinSep] at hh
  | cons ℓ t ih =>
    intro hl n hh
    cases t with
    | nil =>
      exfalso
      have h1 : '\n' ∈ (joinSep [('\n')] [ℓ]).drop n := head?_mem hh
      have h2 : '\n' ∈ ℓ := (List.drop_subset _ _) h1
      exact (hl ℓ (by simp)).2.2 '\n' h2 rfl
    | cons ℓ2 t' =>
      rw [joinSep_cons_ne _ _ (List.cons_ne_nil _ _)] at hh ⊢
      rcases Nat.lt_trichotomy n ℓ.length with hlt | heqn | hgt
      · exfalso
        rw [List.drop_append_of_le_length (le_of_lt hlt)] at hh
        have hne : ℓ.drop n ≠ [] := by
          apply List.ne_nil_of_length_pos
          rw [List.length_drop]
          omega
        rw [List.head?_append_of_ne_nil _ hne] at hh
        have h2 : '\n' ∈ ℓ := (List.drop_subset _ _) (head?_mem hh)
        exact (hl ℓ (by simp)).2.2 '\n' h2 rfl
      · have hdrop : (ℓ ++ '\n' :: joinSep [('\n')] (ℓ2 :: t')).drop (n + 1) =
            joinSep [('\n')] (ℓ2 :: t') := by
          rw [heqn, show ℓ.length + 1 = ℓ.length + 1 from rfl, List.drop_append,
            List.drop_succ_cons, List.drop_zero]
        rw [hdrop]
        rcases joinSep_head ℓ2 t' with h | ⟨_, he⟩
        · rw [h]
          exact (hl ℓ2 (by simp)).2.1
        · exact absurd he (hl ℓ2 (by simp)).1
      · obtain ⟨m, rfl⟩ : ∃ m, n = ℓ.length + (m + 1) :=
          ⟨n - ℓ.length - 1, by omega⟩
        have hd1 : (ℓ ++ '\n' :: joinSep [('\n')] (ℓ2 :: t')).drop (ℓ.length + (m + 1)) =
            (joinSep [('\n')] (ℓ2 :: t')).drop m := by
          rw [List.drop_append, List.drop_succ_cons]
        have hd2 : (ℓ ++ '\n' :: joinSep [('\n')] (ℓ2 :: t')).drop (ℓ.length + (m + 1) + 1) =
            (joinSep [('\n')] (ℓ2 :: t')).drop (m + 1) := by
          rw [show ℓ.length + (m + 1) + 1 = ℓ.length + (m + 2) from by omega]
          rw [List.drop_append, List.drop_succ_cons]
        rw [hd1] at hh
        rw [hd2]
        exact ih (fun r hr => hl r (List.mem_cons_of_mem _ hr)) m hh

theorem pass4_quoted (ls : List Bytes)
    (hl : ∀ ℓ ∈ ls, ℓ ≠ [] ∧ ℓ.head? = some '"' ∧ ∀ c ∈ ℓ, c ≠ '\n') :
    pass4 (joinSep [('\n')] ls) = joinSep [('\n')] ls := by
  apply pass4Go_id
  · intro _
    cases ls with
    | nil => exact matchP4_nil
    | cons ℓ t =>
      rcases joinSep_head ℓ t with h | ⟨_, he⟩
      · apply matchP4_quote
        rw [h]
        exact (hl ℓ (by simp)).2.1
      · exact absurd he (hl ℓ (by simp)).1
  · intro n hh
    exact matchP4_quote (joinSep_nl_quote ls hl n hh)

theorem pass5_quoted (ls : List Bytes)
    (hl : ∀ ℓ ∈ ls, ℓ ≠ [] ∧ ℓ.head? = some '"' ∧ ∀ c ∈ ℓ, c ≠ '\n') :
    pass5 (joinSep [('\n')] ls) = joinSep [('\n')] ls := by
  apply pass5Go_id
  · intro _
    cases ls with
    | nil => exact matchP5_nil
    | cons ℓ t =>
      rcases joinSep_head ℓ t with h | ⟨_, he⟩
      · apply matchP5_quote
        rw [h]
        exact (hl ℓ (by simp)).2.1
      · exact absurd he (hl ℓ (by simp)).1
  · intro n hh
    exact matchP5_quote (joinSep_nl_quote ls hl n hh)


/- ===== pass 6: candidate tokens are short, solid and quote-free ===== -/

theorem numCands_shape : ∀ (s : Bytes), numCands s =
    (match s with
     | '-' :: r => numCandsAux 1 r
     | _ => numCandsAux 0 s) := by
  intro s
  unfold numCands
  split
  next sg r heq =>
    split at heq
    · next r0 heq0 =>
        injection heq with h1 h2
        subst h1
        subst h2
        rfl
    · next hnotdash =>
        injection heq with h1 h2
        subst h1
        subst h2
        rfl

theorem takeWhile_drop (p : Char → Bool) :
    ∀ (l : Bytes), l.drop (l.takeWhile p).length = l.dropWhile p := by
  intro l
  induction l with
  | nil => rfl
  | cons c t ih =>
    rw [List.takeWhile_cons, List.dropWhile_cons]
    by_cases hp : p c = true
    · rw [hp]
      simp only [if_true]
      rw [List.length_cons, List.drop_succ_cons]
      exact ih
    · have hp' : p c = false := Bool.eq_false_iff.mpr hp
      rw [hp']
      simp

theorem isDigitC_ne {ch : Char} (h : isDigitC ch = true) :
    ch ≠ '\n' ∧ ch ≠ ' ' ∧ ch ≠ '"' := by
  refine ⟨?_, ?_, ?_⟩ <;> rintro rfl <;> exact absurd h (by decide)

theorem numCandsAux_chars {s0 : Nat} {r : Bytes} {c1 : Nat} (h : c1 ∈ numCandsAux s0 r) :
    ∃ k', 0 < k' ∧ c1 = s0 + k' ∧
      ∀ ch ∈ r.take k', (isDigitC ch = true ∨ ch = '.') := by
  unfold numCandsAux at h
  by_cases hd1 : r.takeWhile isDigitC = []
  · simp only [hd1, if_true, reduceIte] at h
    exact absurd h (List.not_mem_nil _)
  · simp only [hd1, if_false, reduceIte] at h
    have hdigs : ∀ ch ∈ r.takeWhile isDigitC, isDigitC ch = true :=
      fun ch hch => List.mem_takeWhile_imp hch
    have hpre := List.takeWhile_prefix (l := r) (p := isDigitC)
    obtain ⟨tail, htail⟩ := hpre
    split at h
    · next r3 heq3 =>
        have e1 : r = r.takeWhile isDigitC ++ '.' :: r3 := by
          have e3 : r.dropWhile isDigitC = tail := by
            have h4 : r.takeWhile isDigitC ++ r.dropWhile isDigitC =
                r.takeWhile isDigitC ++ tail := by
              rw [List.takeWhile_append_dropWhile, htail]
            exact List.append_cancel_left h4
          have e2 : tail = '.' :: r3 := by
            rw [← e3, ← takeWhile_drop isDigitC r, heq3]
          conv_lhs => rw [← htail]
          rw [e2]
        rcases List.mem_append.mp h with h1 | h1
        · rcases List.mem_map.mp h1 with ⟨k, hk, rfl⟩
          refine ⟨(r.takeWhile isDigitC).length + 1 + k, by omega, by omega, ?_⟩
          intro ch hch
          have hch2 : ch ∈ (r.takeWhile isDigitC ++ '.' :: r3).take
              ((r.takeWhile isDigitC).length + (k + 1)) := by
            rw [← e1]
            rw [show (r.takeWhile isDigitC).length + (k + 1) =
              (r.takeWhile isDigitC).length + 1 + k from by omega]
            exact hch
          rw [List.take_append, List.take_succ_cons] at hch2
          rcases List.mem_append.mp hch2 with h2 | h2
          · exact Or.inl (hdigs ch h2)
          · rcases List.mem_cons.mp h2 with rfl | h3
            · exact Or.inr rfl
            · left
              have hk2 : k ≤ (r3.takeWhile isDigitC).length := by
                have := List.mem_range.mp (List.mem_reverse.mp hk)
                omega
              have he : r3.take k = (r3.takeWhile isDigitC).take k := by
                obtain ⟨t2, ht2⟩ := List.takeWhile_prefix (l := r3) (p := isDigitC)
                conv_lhs => rw [← ht2]
                rw [List.take_append_of_le_length hk2]
              rw [he] at h3
              exact List.mem_takeWhile_imp ((List.take_prefix _ _).subset h3)
        · rcases List.mem_map.mp h1 with ⟨k, hk, rfl⟩
          have hk2 : k < (r.takeWhile isDigitC).length := by
            have := List.mem_range.mp (List.mem_reverse.mp hk)
            omega
          refine ⟨k + 1, by omega, by omega, ?_⟩
          intro ch hch
          have he : r.take (k + 1) = (r.takeWhile isDigitC).take (k + 1) := by
            conv_lhs => rw [← htail]
            rw [List.take_append_of_le_length (by omega)]
          rw [he] at hch
          exact Or.inl (hdigs ch ((List.take_prefix _ _).subset hch))
    · next =>
        rcases List.mem_map.mp h with ⟨k, hk, rfl⟩
        have hk2 : k < (r.takeWhile isDigitC).length := by
          have := List.mem_range.mp (List.mem_reverse.mp hk)
          omega
        refine ⟨k + 1, by omega, by omega, ?_⟩
        intro ch hch
        have he : r.take (k + 1) = (r.takeWhile isDigitC).take (k + 1) := by
          conv_lhs => rw [← htail]
          rw [List.take_append_of_le_length (by omega)]
        rw [he] at hch
        exact Or.inl (hdigs ch ((List.take_prefix _ _).subset hch))

theorem tok2Cands_chars {s : Bytes} {c1 : Nat} (h : c1 ∈ tok2Cands s) :
    0 < c1 ∧ ∀ ch ∈ s.take c1, ch ≠ '\n' ∧ ch ≠ ' ' ∧ ch ≠ '"' := by
  unfold tok2Cands at h
  have hkw : ∀ (w : Bytes), (bs "true" = w ∨ bs "false" = w ∨ bs "null" = w) →
      w.isPrefixOf s = true → c1 = w.length →
      0 < c1 ∧ ∀ ch ∈ s.take c1, ch ≠ '\n' ∧ ch ≠ ' ' ∧ ch ≠ '"' := by
    intro w hw hp hc
    obtain ⟨tl, htl⟩ := List.isPrefixOf_iff_prefix.mp hp
    have htake : s.take c1 = w := by
      rw [hc, ← htl, List.take_append_of_le_length (le_refl _), List.take_length]
    constructor
    · rcases hw with rfl | rfl | rfl <;> rw [hc] <;> decide
    · intro ch hch
      rw [htake] at hch
      rcases hw with rfl | rfl | rfl <;>
        · refine ⟨?_, ?_, ?_⟩ <;> rintro rfl <;> revert hch <;> decide
  rcases List.mem_append.mp h with h1 | h1
  · rcases List.mem_append.mp h1 with h2 | h2
    · rcases List.mem_append.mp h2 with h3 | h3
      · by_cases hp : (bs "true").isPrefixOf s
        · rw [if_pos hp] at h3
          exact hkw _ (Or.inl rfl) hp (by simpa using h3)
        · rw [if_neg hp] at h3
          exact absurd h3 (List.not_mem_nil _)
      · by_cases hp : (bs "false").isPrefixOf s
        · rw [if_pos hp] at h3
          exact hkw _ (Or.inr (Or.inl rfl)) hp (by simpa using h3)
        · rw [if_neg hp] at h3
          exact absurd h3 (List.not_mem_nil _)
    · by_cases hp : (bs "null").isPrefixOf s
      · rw [if_pos hp] at h2
        exact hkw _ (Or.inr (Or.inr rfl)) hp (by simpa using h2)
      · rw [if_neg hp] at h2
        exact absurd h2 (List.not_mem_nil _)
  · rw [numCands_shape] at h1
    split at h1
    · next r =>
        obtain ⟨k', hk0, rfl, hch⟩ := numCandsAux_chars h1
        refine ⟨by omega, ?_⟩
        intro ch hmem
        rw [show 1 + k' = k' + 1 from by omega, List.take_succ_cons] at hmem
        rcases List.mem_cons.mp hmem with rfl | h2
        · exact ⟨by decide, by decide, by decide⟩
        · rcases hch ch h2 with hd | rfl
          · exact isDigitC_ne hd
          · exact ⟨by decide, by decide, by decide⟩
    · next =>
        obtain ⟨k', hk0, rfl, hch⟩ := numCandsAux_chars h1
        refine ⟨by omega, ?_⟩
        intro ch hmem
        rw [show 0 + k' = k' from by omega] at hmem
        rcases hch ch hmem with hd | rfl
        · exact isDigitC_ne hd
        · exact ⟨by decide, by decide, by decide⟩

theorem tok6Cands_mem {s : Bytes} {c1 : Nat} (h : c1 ∈ tok6Cands s) :
    (c1 = 1 ∧ ∃ c t, s = c :: t ∧ (c = '"' ∨ c = '}' ∨ c = ']')) ∨
      c1 ∈ tok2Cands s := by
  unfold tok6Cands at h
  rcases List.mem_append.mp h with h1 | h1
  · left
    split at h1
    · next c t =>
        by_cases hc : c = '"' ∨ c = '}' ∨ c = ']'
        · rw [if_pos hc] at h1
          exact ⟨by simpa using h1, c, t, rfl, hc⟩
        · rw [if_neg hc] at h1
          exact absurd h1 (List.not_mem_nil _)
    · next => exact absurd h1 (List.not_mem_nil _)
  · exact Or.inr h1

theorem cand_le_first_nl {w X : Bytes} {c1 : Nat} (_hw : '\n' ∉ w)
    (hch : ∀ ch ∈ (w ++ '\n' :: X).take c1, ch ≠ '\n') : c1 ≤ w.length := by
  by_contra hgt
  push_neg at hgt
  obtain ⟨m, hm⟩ : ∃ m, c1 = w.length + (m + 1) := ⟨c1 - w.length - 1, by omega⟩
  have : '\n' ∈ (w ++ '\n' :: X).take c1 := by
    rw [hm, List.take_append, List.take_succ_cons]
    exact List.mem_append.mpr (Or.inr (List.mem_cons_self _ _))
  exact hch '\n' this rfl

theorem pass6TryGo_fail {s : Bytes} (cs : List Nat)
    (h : ∀ c ∈ cs, pass6TryTok s c = none) : pass6TryGo s cs = none := by
  induction cs with
  | nil => rfl
  | cons c1 cs ih =>
    unfold pass6TryGo
    rw [h c1 (List.mem_cons_self _ _)]
    exact ih (fun c hc => h c (List.mem_cons_of_mem _ hc))

theorem pass6TryTok_fail_nonl {s : Bytes} (c1 : Nat)
    (h : lastNlPos ((s.drop c1).takeWhile pyIsSpace) = none) :
    pass6TryTok s c1 = none := by
  unfold pass6TryTok
  simp only [h]

theorem pass6Try_fail_pos {u T : Bytes} {m : Nat}
    (hm : m < u.length)
    (hnl : '\n' ∉ u)
    (hlast : ∃ cl, u.getLast? = some cl ∧ pyIsSpace cl = false)
    (hT : T = [] ∨ (∃ X, T = '\n' :: X) ∧
      (∀ c1, c1 ∈ tok6Cands (u.drop m ++ T) → m + c1 ≠ u.length)) :
    pass6Try (u.drop m ++ T) = none := by
  unfold pass6Try
  apply pass6TryGo_fail
  intro c1 hc1
  apply pass6TryTok_fail_nonl
  have hwnl : '\n' ∉ u.drop m := fun hmem => hnl ((List.drop_subset _ _) hmem)
  have hch : ∀ ch ∈ (u.drop m ++ T).take c1, ch ≠ '\n' := by
    rcases tok6Cands_mem hc1 with ⟨rfl, c, t, hst, hc⟩ | h2
    · intro ch hmem
      rw [hst] at hmem
      have : ch = c := by simpa using hmem
      subst this
      rcases hc with rfl | rfl | rfl <;> decide
    · exact fun ch hm2 => ((tok2Cands_chars h2).2 ch hm2).1
  rcases hT with rfl | ⟨⟨X, rfl⟩, hcross⟩
  · rw [List.append_nil]
    apply lastNlPos_eq_none
    intro hmem
    exact hwnl ((List.drop_subset _ _) ((List.takeWhile_prefix _).subset hmem))
  · have hle : c1 ≤ (u.drop m).length := cand_le_first_nl hwnl hch
    have hlt : c1 < (u.drop m).length := by
      rcases Nat.lt_or_eq_of_le hle with h | h
      · exact h
      · exfalso
        apply hcross c1 hc1
        rw [h, List.length_drop]
        omega
    rw [List.drop_append_of_le_length hle]
    obtain ⟨cl, hcl, hcls⟩ := hlast
    have hlast2 : ((u.drop m).drop c1).getLast? = some cl := by
      rw [getLast?_drop_of_lt _ _ hlt, getLast?_drop_of_lt _ _ hm, hcl]
    rw [takeWhile_append_stop _ _ ⟨cl, mem_of_getLast? hlast2, hcls⟩]
    apply lastNlPos_eq_none
    intro hmem
    exact hwnl ((List.drop_subset _ _) ((List.takeWhile_prefix _).subset hmem))

/- ===== pass 6 success at a line-final token ===== -/

theorem pass6Try_succ_string (X : Bytes) :
    pass6Try ('"' :: '\n' :: '"' :: X) = some (bs "\",\n\"", X) := rfl

theorem pass6Try_succ_true (X : Bytes) :
    pass6Try (bs "true" ++ '\n' :: '"' :: X) = some (bs "true" ++ bs ",\n\"", X) := rfl

theorem pass6Try_succ_false (X : Bytes) :
    pass6Try (bs "false" ++ '\n' :: '"' :: X) = some (bs "false" ++ bs ",\n\"", X) := rfl

theorem pass6Try_succ_null (X : Bytes) :
    pass6Try (bs "null" ++ '\n' :: '"' :: X) = some (bs "null" ++ bs ",\n\"", X) := rfl

theorem fullNumMatch_shape (v : Bytes) : fullNumMatch v =
    (match v with
     | '-' :: r => fullNumAux r
     | _ => fullNumAux v) := by
  unfold fullNumMatch
  split
  · rfl
  · rfl

theorem fullNumAux_parts {t : Bytes} (h : fullNumAux t = true) :
    t.takeWhile isDigitC ≠ [] ∧
      (t.drop (t.takeWhile isDigitC).length = [] ∨
        ∃ fr, t.drop (t.takeWhile isDigitC).length = '.' :: fr ∧
          fr.all isDigitC = true) := by
  unfold fullNumAux at h
  rw [Bool.and_eq_true] at h
  constructor
  · intro e
    rw [e] at h
    exact absurd h.1 (by decide)
  · have h2 := of_decide_eq_true h.2
    rcases h2 with h2 | ⟨hh, hd⟩
    · exact Or.inl h2
    · right
      cases hr : t.drop (t.takeWhile isDigitC).length with
      | nil => rw [hr] at hh; exact absurd hh (by simp)
      | cons a rr =>
        rw [hr] at hh hd
        have ha : a = '.' := by simpa using hh
        subst ha
        exact ⟨rr, rfl, by simpa using hd⟩

theorem range_reverse_succ (n : Nat) :
    (List.range (n + 1)).reverse = n :: (List.range n).reverse := by
  rw [List.range_succ, List.reverse_append]
  rfl

theorem numCandsAux_head {t Y : Bytes} (s0 : Nat)
    (hd1 : t.takeWhile isDigitC ≠ [])
    (hsh : t.drop (t.takeWhile isDigitC).length = [] ∨
      ∃ fr, t.drop (t.takeWhile isDigitC).length = '.' :: fr ∧
        fr.all isDigitC = true)
    (hY : Y.head? = some '\n') :
    ∃ cs', numCandsAux s0 (t ++ Y) = (s0 + t.length) :: cs' := by
  obtain ⟨Y', rfl⟩ : ∃ Y', Y = '\n' :: Y' := by
    cases Y with
    | nil => simp at hY
    | cons a y => exact ⟨y, by rw [show a = '\n' from by simpa using hY]⟩
  have hdigs : ∀ ch ∈ t.takeWhile isDigitC, isDigitC ch = true :=
    fun ch hch => List.mem_takeWhile_imp hch
  obtain ⟨tail, htail⟩ := List.takeWhile_prefix (l := t) (p := isDigitC)
  have htaileq : tail = t.dropWhile isDigitC := by
    have h4 : t.takeWhile isDigitC ++ t.dropWhile isDigitC =
        t.takeWhile isDigitC ++ tail := by
      rw [List.takeWhile_append_dropWhile, htail]
    exact (List.append_cancel_left h4).symm
  rcases hsh with hemp | ⟨fr, hfr, hfrd⟩
  · have htaileq2 : tail = [] := by
      rw [htaileq, ← takeWhile_drop isDigitC t, hemp]
    have hteq : t.takeWhile isDigitC = t := by
      rw [htaileq2, List.append_nil] at htail
      exact htail
    have htne : t ≠ [] := hteq ▸ hd1
    have htd : ∀ ch ∈ t, isDigitC ch = true := hteq ▸ hdigs
    have htw2 : (t ++ '\n' :: Y').takeWhile isDigitC = t := by
      rw [takeWhile_append_all _ _ htd, List.takeWhile_cons]
      rw [show isDigitC '\n' = false from rfl]
      simp
    obtain ⟨n, hn⟩ : ∃ n, t.length = n + 1 := by
      have hpos : 0 < t.length := List.length_pos.mpr htne
      exact ⟨t.length - 1, by omega⟩
    simp only [numCandsAux]
    rw [htw2]
    rw [if_neg htne]
    rw [List.drop_left]
    split
    · next r3 heq =>
        injection heq with h1 h2
        exact absurd h1 (by decide)
    · refine ⟨(List.range n).reverse.map (fun k => s0 + k + 1), ?_⟩
      rw [hn, range_reverse_succ, List.map_cons]
      rw [show s0 + n + 1 = s0 + (n + 1) from by omega]
  · have htaileq2 : tail = '.' :: fr := by
      rw [htaileq, ← takeWhile_drop isDigitC t, hfr]
    have hteq : t = t.takeWhile isDigitC ++ '.' :: fr := by
      rw [← htaileq2, htail]
    have hfrall : ∀ ch ∈ fr, isDigitC ch = true := by
      intro ch hch
      exact List.all_eq_true.mp hfrd ch hch
    have hshape : t ++ '\n' :: Y' =
        t.takeWhile isDigitC ++ '.' :: (fr ++ '\n' :: Y') := by
      conv_lhs => rw [hteq]
      rw [List.append_assoc]
      rfl
    have htw2 : (t ++ '\n' :: Y').takeWhile isDigitC = t.takeWhile isDigitC := by
      rw [hshape, takeWhile_append_all _ _ hdigs, List.takeWhile_cons]
      rw [show isDigitC '.' = false from rfl]
      simp
    have hdrop2 : (t ++ '\n' :: Y').drop (t.takeWhile isDigitC).length =
        '.' :: (fr ++ '\n' :: Y') := by
      rw [hshape, List.drop_left]
    have hd2 : (fr ++ '\n' :: Y').takeWhile isDigitC = fr := by
      rw [takeWhile_append_all _ _ hfrall, List.takeWhile_cons]
      rw [show isDigitC '\n' = false from rfl]
      simp
    simp only [numCandsAux]
    rw [htw2]
    rw [if_neg hd1]
    rw [hdrop2]
    split
    · next r3 heq =>
        have hr3 : r3 = fr ++ '\n' :: Y' := by
          injection heq with h1 h2
          exact h2.symm
        subst hr3
        rw [hd2]
        rw [range_reverse_succ, List.map_cons, List.cons_append]
        have hlen : t.length = (t.takeWhile isDigitC).length + 1 + fr.length := by
          conv_lhs => rw [hteq]
          rw [List.length_append, List.length_cons]
          omega
        rw [show s0 + (t.takeWhile isDigitC).length + 1 + fr.length =
          s0 + t.length from by omega]
        exact ⟨_, rfl⟩
    · next hne => exact absurd rfl (by intro e; exact hne (fr ++ '\n' :: Y') e)

theorem tok6Cands_nonword {s : Bytes} {c : Char} {z : Bytes} (hs : s = c :: z)
    (h1 : ('t' == c) = false) (h2 : ('f' == c) = false) (h3 : ('n' == c) = false)
    (h4 : ¬(c = '"' ∨ c = '}' ∨ c = ']')) :
    tok6Cands s = numCands s := by
  subst hs
  unfold tok6Cands tok2Cands
  show ((if c = '"' ∨ c = '}' ∨ c = ']' then [1] else []) ++
      ((((if (bs "true").isPrefixOf (c :: z) = true then [4] else []) ++
          if (bs "false").isPrefixOf (c :: z) = true then [5] else []) ++
        if (bs "null").isPrefixOf (c :: z) = true then [4] else []) ++
       numCands (c :: z))) = numCands (c :: z)
  rw [if_neg h4]
  have hp1 : (bs "true").isPrefixOf (c :: z) = false := by
    show (('t' == c) && (bs "rue").isPrefixOf z) = false
    rw [h1, Bool.false_and]
  have hp2 : (bs "false").isPrefixOf (c :: z) = false := by
    show (('f' == c) && (bs "alse").isPrefixOf z) = false
    rw [h2, Bool.false_and]
  have hp3 : (bs "null").isPrefixOf (c :: z) = false := by
    show (('n' == c) && (bs "ull").isPrefixOf z) = false
    rw [h3, Bool.false_and]
  rw [if_neg (by rw [hp1]; simp), if_neg (by rw [hp2]; simp), if_neg (by rw [hp3]; simp)]
  simp

theorem pass6TryTok_at_end (v X : Bytes) :
    pass6TryTok (v ++ '\n' :: '"' :: X) v.length = some (v ++ bs ",\n\"", X) := by
  unfold pass6TryTok
  rw [List.take_left, List.drop_left]
  rfl

theorem tok6Cands_num {v X : Bytes} (hv : fullNumMatch v = true) :
    ∃ cs', tok6Cands (v ++ '\n' :: '"' :: X) = v.length :: cs' := by
  rw [fullNumMatch_shape] at hv
  split at hv
  · next r =>
      obtain ⟨hd1, hsh⟩ := fullNumAux_parts hv
      obtain ⟨cs', hcs⟩ := numCandsAux_head (Y := '\n' :: '"' :: X) 1 hd1 hsh rfl
      refine ⟨cs', ?_⟩
      rw [List.cons_append]
      rw [tok6Cands_nonword rfl (by decide) (by decide) (by decide) (by decide)]
      rw [numCands_shape]
      show numCandsAux 1 (r ++ '\n' :: '"' :: X) = ('-' :: r).length :: cs'
      rw [hcs, List.length_cons]
      congr 1
      omega
  · next hnd =>
      obtain ⟨hd1, hsh⟩ := fullNumAux_parts hv
      obtain ⟨c, z, hvz, hdc⟩ : ∃ c z, v = c :: z ∧ isDigitC c = true := by
        cases hvv : v with
        | nil =>
          rw [hvv] at hd1
          simp at hd1
        | cons c z =>
          refine ⟨c, z, rfl, ?_⟩
          by_contra hnd2
          rw [hvv] at hd1
          apply hd1
          rw [List.takeWhile_cons, Bool.eq_false_iff.mpr hnd2]
          rfl
      obtain ⟨cs', hcs⟩ := numCandsAux_head (Y := '\n' :: '"' :: X) 0 hd1 hsh rfl
      refine ⟨cs', ?_⟩
      have h1 : ('t' == c) = false :=
        beq_eq_false_iff_ne.mpr (fun e => by rw [← e] at hdc; exact absurd hdc (by decide))
      have h2 : ('f' == c) = false :=
        beq_eq_false_iff_ne.mpr (fun e => by rw [← e] at hdc; exact absurd hdc (by decide))
      have h3 : ('n' == c) = false :=
        beq_eq_false_iff_ne.mpr (fun e => by rw [← e] at hdc; exact absurd hdc (by decide))
      have h4 : ¬(c = '"' ∨ c = '}' ∨ c = ']') := by
        rintro (rfl | rfl | rfl) <;> exact absurd hdc (by decide)
      rw [hvz] at hcs ⊢
      rw [List.cons_append]
      rw [tok6Cands_nonword rfl h1 h2 h3 h4]
      rw [numCands_shape]
      split
      · next r0 heq =>
          injection heq with e1 e2
          rw [e1] at hdc
          exact absurd hdc (by decide)
      · next =>
          rw [← List.cons_append]
          rw [hcs]
          congr 1
          omega

theorem pass6Try_succ_num {v X : Bytes} (hv : fullNumMatch v = true) :
    pass6Try (v ++ '\n' :: '"' :: X) = some (v ++ bs ",\n\"", X) := by
  obtain ⟨cs', hcs⟩ := tok6Cands_num (X := X) hv
  unfold pass6Try
  rw [hcs]
  unfold pass6TryGo
  rw [pass6TryTok_at_end]

theorem pass6Try_nil : pass6Try [] = none := rfl

theorem chunk_fail {u a t : Bytes} (hut : u = a ++ t) (hnl : '\n' ∉ u)
    (hlast : ∃ cl, u.getLast? = some cl ∧ pyIsSpace cl = false)
    (hblock : ∀ m, m < a.length → ∃ ch ∈ u.drop m, ch = ' ' ∨ ch = '"')
    (ht1 : 1 ≤ t.length) :
    ∀ m, m < a.length → ∀ X, pass6Try (u.drop m ++ '\n' :: '"' :: X) = none := by
  intro m hm X
  have hmu : m < u.length := by
    rw [hut, List.length_append]
    omega
  apply pass6Try_fail_pos hmu hnl hlast
  right
  refine ⟨⟨_, rfl⟩, ?_⟩
  intro c1 hc1 hceq
  rcases tok6Cands_mem hc1 with ⟨rfl, _⟩ | h2
  · have hlen : a.length + t.length = u.length := by
      rw [hut, List.length_append]
    omega
  · obtain ⟨ch, hmem, hsp⟩ := hblock m hm
    have hw'len : (u.drop m).length = c1 := by
      rw [List.length_drop]
      omega
    have htake : (u.drop m ++ '\n' :: '"' :: X).take c1 = u.drop m := by
      rw [← hw'len, List.take_left]
    have hch := (tok2Cands_chars h2).2 ch (by rw [htake]; exact hmem)
    rcases hsp with rfl | rfl
    · exact hch.2.1 rfl
    · exact hch.2.2 rfl

theorem chunk_fail_last {u : Bytes} (hnl : '\n' ∉ u)
    (hlast : ∃ cl, u.getLast? = some cl ∧ pyIsSpace cl = false) :
    ∀ n, pass6Try (u.drop n) = none := by
  intro n
  by_cases hn : n < u.length
  · have h2 := pass6Try_fail_pos (T := []) hn hnl hlast (Or.inl rfl)
    rwa [List.append_nil] at h2
  · rw [List.drop_eq_nil_of_le (by omega)]
    exact pass6Try_nil

theorem pass6Go_id : ∀ (fuel : Nat) (l : Bytes),
    (∀ n, pass6Try (l.drop n) = none) → pass6Go fuel l = l := by
  intro fuel
  induction fuel with
  | zero => intro l _; cases l <;> rfl
  | succ fuel ih =>
    intro l h
    match l with
    | [] => rfl
    | c :: rest =>
      rw [pass6Go]
      rw [show pass6Try (c :: rest) = none from h 0]
      rw [ih rest (fun n => h (n + 1))]

theorem pass6Go_copy : ∀ (a s : Bytes) (fuel : Nat),
    (∀ m, m < a.length → pass6Try (a.drop m ++ s) = none) → a.length ≤ fuel →
    pass6Go fuel (a ++ s) = a ++ pass6Go (fuel - a.length) s := by
  intro a
  induction a with
  | nil =>
    intro s fuel _ _
    simp
  | cons c a' ih =>
    intro s fuel h hf
    match fuel, hf with
    | fuel + 1, hf2 =>
      rw [List.cons_append]
      rw [pass6Go]
      rw [show pass6Try (c :: (a' ++ s)) = none from by
        have h0 := h 0 (by simp)
        rwa [List.drop_zero, List.cons_append] at h0]
      rw [ih s fuel (fun m hm => by
          have hs := h (m + 1) (by simpa using Nat.succ_lt_succ hm)
          rwa [List.drop_succ_cons] at hs)
        (by simpa using Nat.le_of_succ_le_succ hf2)]
      rw [List.length_cons]
      rw [show fuel + 1 - (a'.length + 1) = fuel - a'.length from by omega]
      rfl

theorem pass6_scan : ∀ (cs : List Bytes) (u a t : Bytes) (fuel : Nat),
    u = a ++ t →
    '\n' ∉ u →
    (∃ cl, u.getLast? = some cl ∧ pyIsSpace cl = false) →
    (∀ m, m < a.length → ∃ ch ∈ u.drop m, ch = ' ' ∨ ch = '"') →
    1 ≤ t.length →
    (∀ X, pass6Try (t ++ '\n' :: '"' :: X) = some (t ++ bs ",\n\"", X)) →
    (∀ b ∈ cs, ∃ a' t', b = a' ++ t' ∧ '\n' ∉ b ∧
      (∃ cl, b.getLast? = some cl ∧ pyIsSpace cl = false) ∧
      (∀ m, m < a'.length → ∃ ch ∈ b.drop m, ch = ' ' ∨ ch = '"') ∧
      1 ≤ t'.length ∧
      (∀ X, pass6Try (t' ++ '\n' :: '"' :: X) = some (t' ++ bs ",\n\"", X))) →
    (u ++ (cs.map (fun b => '\n' :: '"' :: b)).flatten).length ≤ fuel →
    pass6Go fuel (u ++ (cs.map (fun b => '\n' :: '"' :: b)).flatten) =
      u ++ (cs.map (fun b => ',' :: '\n' :: '"' :: b)).flatten := by
  intro cs
  induction cs with
  | nil =>
    intro u a t fuel hut hnl hlast _ _ _ _ _
    simp only [List.map_nil, List.flatten_nil, List.append_nil]
    exact pass6Go_id fuel u (chunk_fail_last hnl hlast)
  | cons b cs ih =>
    intro u a t fuel hut hnl hlast hblock ht1 hsucc hcs hfuel
    simp only [List.map_cons, List.flatten_cons] at hfuel ⊢
    have hlen_u : u.length = a.length + t.length := by
      rw [hut, List.length_append]
    have hflen : (u ++ (('\n' :: '"' :: b) ++
        (cs.map (fun b => '\n' :: '"' :: b)).flatten)).length =
        u.length + (2 + (b.length +
          ((cs.map (fun b => '\n' :: '"' :: b)).flatten).length)) := by
      simp only [List.length_append, List.length_cons]
      omega
    rw [hflen] at hfuel
    have hshape : u ++ (('\n' :: '"' :: b) ++
        (cs.map (fun b => '\n' :: '"' :: b)).flatten) =
        a ++ (t ++ '\n' :: '"' ::
          (b ++ (cs.map (fun b => '\n' :: '"' :: b)).flatten)) := by
      rw [hut, List.append_assoc]
      rfl
    rw [hshape]
    have hfail : ∀ m, m < a.length →
        pass6Try (a.drop m ++ (t ++ '\n' :: '"' ::
          (b ++ (cs.map (fun b => '\n' :: '"' :: b)).flatten))) = none := by
      intro m hm
      have h1 := chunk_fail hut hnl hlast hblock ht1 m hm
        (b ++ (cs.map (fun b => '\n' :: '"' :: b)).flatten)
      have h2 : u.drop m = a.drop m ++ t := by
        rw [hut, List.drop_append_of_le_length (le_of_lt hm)]
      rw [h2, List.append_assoc] at h1
      exact h1
    rw [pass6Go_copy a _ fuel hfail (by omega)]
    obtain ⟨f', hf'⟩ : ∃ f', fuel - a.length = f' + 1 :=
      ⟨fuel - a.length - 1, by omega⟩
    rw [hf']
    obtain ⟨tc, t'', htc⟩ : ∃ tc t'', t = tc :: t'' := by
      cases ht : t with
      | nil => rw [ht] at ht1; simp at ht1
      | cons x y => exact ⟨x, y, rfl⟩
    rw [htc, List.cons_append]
    rw [pass6Go]
    rw [show pass6Try (tc :: (t'' ++ '\n' :: '"' ::
        (b ++ (cs.map (fun b => '\n' :: '"' :: b)).flatten))) =
        some ((tc :: t'') ++ bs ",\n\"",
          b ++ (cs.map (fun b => '\n' :: '"' :: b)).flatten) from by
      have hs := hsucc (b ++ (cs.map (fun b => '\n' :: '"' :: b)).flatten)
      rw [htc, List.cons_append] at hs
      exact hs]
    show a ++ (((tc :: t'') ++ bs ",\n\"") ++
        pass6Go f' (b ++ (cs.map (fun b => '\n' :: '"' :: b)).flatten)) =
      u ++ (',' :: '\n' :: '"' :: b ++ (cs.map (fun b => ',' :: '\n' :: '"' :: b)).flatten)
    obtain ⟨a', t', hb, hnl', hlast', hblock', ht1', hsucc'⟩ :=
      hcs b (List.mem_cons_self _ _)
    rw [ih b a' t' f' hb hnl' hlast' hblock' ht1' hsucc'
      (fun b2 hb2 => hcs b2 (List.mem_cons_of_mem _ hb2))
      (by
        have : (b ++ (cs.map (fun b => '\n' :: '"' :: b)).flatten).length =
            b.length + ((cs.map (fun b => '\n' :: '"' :: b)).flatten).length := by
          rw [List.length_append]
        omega)]
    rw [hut, htc]
    simp only [List.append_assoc, List.cons_append]
    rfl

theorem quoteKV_eq (k v : Bytes) : quoteKV k v = '"' :: quoteBody k v := by
  unfold quoteKV quoteBody
  split
  · rfl
  · rfl

theorem quoteBody_no_nl {k v : Bytes} (hk : wfKey k = true) (hv : wfVal v = true) :
    '\n' ∉ quoteBody k v := by
  intro hmem
  have h2 : '\n' ∈ quoteKV k v := by
    rw [quoteKV_eq]
    exact List.mem_cons_of_mem _ hmem
  exact quoteKV_no_nl hk hv '\n' h2 rfl

theorem esc_ne_nil {v : Bytes} (hne : v ≠ []) :
    pyReplaceAll (bs "\"") (bs "\\\"") v ≠ [] := by
  match v, hne with
  | c :: rest, _ =>
    show pyReplaceGo (bs "\"") (bs "\\\"") (c :: rest).length (c :: rest) ≠ []
    rw [List.length_cons, pyReplaceGo]
    by_cases hd : (bs "\"") ≠ [] ∧ (bs "\"").isPrefixOf (c :: rest)
    · rw [if_pos hd]
      intro e
      have hlen := congrArg List.length e
      rw [List.length_append] at hlen
      have h2 : (bs "\\\"").length = 2 := rfl
      simp only [List.length_nil] at hlen
      omega
    · rw [if_neg hd]
      simp

theorem quoteBody_chunk {k v : Bytes} (hk : wfKey k = true) (hv : wfVal v = true) :
    ∃ a t, quoteBody k v = a ++ t ∧ '\n' ∉ quoteBody k v ∧
      (∃ cl, (quoteBody k v).getLast? = some cl ∧ pyIsSpace cl = false) ∧
      (∀ m, m < a.length → ∃ ch ∈ (quoteBody k v).drop m, ch = ' ' ∨ ch = '"') ∧
      1 ≤ t.length ∧
      (∀ X, pass6Try (t ++ '\n' :: '"' :: X) = some (t ++ bs ",\n\"", X)) := by
  have hvp := wfVal_parts hv
  have hvne : v ≠ [] := by intro e; rw [e] at hvp; exact absurd hvp.1 (by decide)
  have hnl := quoteBody_no_nl hk hv
  by_cases hcond : v = bs "true" ∨ v = bs "false" ∨ v = bs "null" ∨
      fullNumMatch v = true
  · -- bare token line
    have hbody : quoteBody k v = (k ++ bs "\": ") ++ v := by
      unfold quoteBody
      rw [if_pos (by
        rcases hcond with h | h | h | h
        · exact Or.inl h
        · exact Or.inr (Or.inl h)
        · exact Or.inr (Or.inr (Or.inl h))
        · exact Or.inr (Or.inr (Or.inr (by rw [h]))))]
    refine ⟨k ++ bs "\": ", v, hbody, hnl, ?_, ?_, ?_, ?_⟩
    · obtain ⟨cv, hcv, hcvs⟩ := val_getLast_nonspace hv
      refine ⟨cv, ?_, hcvs⟩
      rw [hbody, List.getLast?_append_of_ne_nil _ hvne, hcv]
    · intro m hm
      have hlasta : (k ++ bs "\": ").getLast? = some ' ' := by
        rw [List.getLast?_append_of_ne_nil _ (by decide)]
        rfl
      have hmem : ' ' ∈ (k ++ bs "\": ").drop m := by
        apply mem_of_getLast?
        rw [getLast?_drop_of_lt _ _ hm, hlasta]
      refine ⟨' ', ?_, Or.inl rfl⟩
      rw [hbody, List.drop_append_of_le_length (le_of_lt hm)]
      exact List.mem_append.mpr (Or.inl hmem)
    · have := List.length_pos.mpr hvne
      omega
    · intro X
      rcases hcond with rfl | rfl | rfl | h
      · exact pass6Try_succ_true X
      · exact pass6Try_succ_false X
      · exact pass6Try_succ_null X
      · exact pass6Try_succ_num h
  · -- quoted string line
    have hbody : quoteBody k v =
        (k ++ bs "\": \"" ++ pyReplaceAll (bs "\"") (bs "\\\"") v) ++ [('"')] := by
      unfold quoteBody
      rw [if_neg (by
        intro hc
        apply hcond
        rcases hc with h | h | h | h
        · exact Or.inl h
        · exact Or.inr (Or.inl h)
        · exact Or.inr (Or.inr (Or.inl h))
        · exact Or.inr (Or.inr (Or.inr (by rw [← h]))))]
    refine ⟨k ++ bs "\": \"" ++ pyReplaceAll (bs "\"") (bs "\\\"") v, [('"')],
      hbody, hnl, ?_, ?_, ?_, ?_⟩
    · refine ⟨'"', ?_, by decide⟩
      rw [hbody, List.getLast?_append_of_ne_nil _ (by decide)]
      rfl
    · intro m hm
      have hlen : m < (quoteBody k v).length := by
        rw [hbody, List.length_append]
        omega
      refine ⟨'"', ?_, Or.inr rfl⟩
      apply mem_of_getLast?
      rw [getLast?_drop_of_lt _ _ hlen, hbody,
        List.getLast?_append_of_ne_nil _ (by decide)]
      rfl
    · decide
    · intro X
      exact pass6Try_succ_string X

theorem quoteKV_chunk {k v : Bytes} (hk : wfKey k = true) (hv : wfVal v = true) :
    ∃ a t, quoteKV k v = a ++ t ∧ '\n' ∉ quoteKV k v ∧
      (∃ cl, (quoteKV k v).getLast? = some cl ∧ pyIsSpace cl = false) ∧
      (∀ m, m < a.length → ∃ ch ∈ (quoteKV k v).drop m, ch = ' ' ∨ ch = '"') ∧
      1 ≤ t.length ∧
      (∀ X, pass6Try (t ++ '\n' :: '"' :: X) = some (t ++ bs ",\n\"", X)) := by
  obtain ⟨a, t, hb, hnl, hlast, hblock, ht1, hsucc⟩ := quoteBody_chunk hk hv
  have hbne : quoteBody k v ≠ [] := by
    rw [hb]
    intro e
    have := congrArg List.length e
    rw [List.length_append, List.length_nil] at this
    omega
  refine ⟨'"' :: a, t, ?_, ?_, ?_, ?_, ht1, hsucc⟩
  · rw [quoteKV_eq, hb, List.cons_append]
  · intro hmem
    rw [quoteKV_eq] at hmem
    rcases List.mem_cons.mp hmem with he | hmem2
    · exact absurd he (by decide)
    · exact hnl hmem2
  · obtain ⟨cl, hcl, hcls⟩ := hlast
    refine ⟨cl, ?_, hcls⟩
    rw [quoteKV_eq]
    match hq : quoteBody k v, hbne with
    | b0 :: brest, _ =>
      rw [List.getLast?_cons_cons, ← hq, hcl]
  · intro m hm
    match m with
    | 0 =>
      refine ⟨'"', ?_, Or.inr rfl⟩
      rw [List.drop_zero, quoteKV_eq]
      exact List.mem_cons_self _ _
    | m' + 1 =>
      have hm' : m' < a.length := by
        rw [List.length_cons] at hm
        omega
      obtain ⟨ch, hmem, hsp⟩ := hblock m' hm'
      refine ⟨ch, ?_, hsp⟩
      rw [quoteKV_eq, List.drop_succ_cons]
      exact hmem

theorem joinSep_flat : ∀ (bl : List Bytes) (u : Bytes),
    joinSep [('\n')] (u :: bl.map (fun b => '"' :: b)) =
      u ++ (bl.map (fun b => '\n' :: '"' :: b)).flatten := by
  intro bl
  induction bl with
  | nil =>
    intro u
    simp [joinSep]
  | cons b bl ih =>
    intro u
    rw [List.map_cons, joinSep_cons_ne _ _ (by simp), ih ('"' :: b)]
    rw [List.map_cons, List.flatten_cons]
    simp [List.append_assoc]

theorem pass6_quoted (p : Bytes × Bytes) (rest : List (Bytes × Bytes))
    (hk : ∀ r ∈ p :: rest, wfKey r.1 = true)
    (hv : ∀ r ∈ p :: rest, wfVal r.2 = true) :
    pass6 (joinSep [('\n')] ((p :: rest).map (fun r => quoteKV r.1 r.2))) =
      quoteKV p.1 p.2 ++
        ((rest.map (fun r => quoteBody r.1 r.2)).map
          (fun b => ',' :: '\n' :: '"' :: b)).flatten := by
  have hmapeq : (p :: rest).map (fun r => quoteKV r.1 r.2) =
      quoteKV p.1 p.2 ::
        (rest.map (fun r => quoteBody r.1 r.2)).map (fun b => '"' :: b) := by
    rw [List.map_cons]
    congr 1
    rw [List.map_map]
    apply List.map_congr_left
    intro r _
    exact quoteKV_eq r.1 r.2
  rw [hmapeq, joinSep_flat]
  unfold pass6
  obtain ⟨a, t, hb, hnl, hlast, hblock, ht1, hsucc⟩ :=
    quoteKV_chunk (hk p (by simp)) (hv p (by simp))
  refine pass6_scan _ _ a t _ hb hnl hlast hblock ht1 hsucc ?_ (le_refl _)
  intro b hbmem
  rcases List.mem_map.mp hbmem with ⟨r, hr, rfl⟩
  exact quoteBody_chunk (hk r (List.mem_cons_of_mem _ hr))
    (hv r (List.mem_cons_of_mem _ hr))

/- ===== pass 7 is the identity on the pass-6 output ===== -/

theorem wfValC_ne_close {c : Char} (h : wfValC c = true) : c ≠ '}' ∧ c ≠ ']' := by
  constructor <;> rintro rfl <;> exact absurd h (by decide)

theorem wfKeyC_ne_close {c : Char} (h : wfKeyC c = true) : c ≠ '}' ∧ c ≠ ']' := by
  constructor <;> rintro rfl <;> exact absurd h (by decide)

theorem quoteBody_no_close {k v : Bytes} (hk : wfKey k = true) (hv : wfVal v = true) :
    ∀ c ∈ quoteBody k v, c ≠ '}' ∧ c ≠ ']' := by
  intro c hc
  have hkp := wfKey_parts hk
  have hvp := wfVal_parts hv
  unfold quoteBody at hc
  split at hc
  · rcases List.mem_append.mp hc with h1 | h2
    · rcases List.mem_append.mp h1 with ha | hb
      · exact wfKeyC_ne_close (hkp.2.1 c ha)
      · constructor <;> rintro rfl <;> exact absurd hb (by decide)
    · exact wfValC_ne_close (hvp.2.1 c h2)
  · rcases List.mem_append.mp hc with h1 | h2
    · rcases List.mem_append.mp h1 with h1' | hesc
      · rcases List.mem_append.mp h1' with ha | hb
        · exact wfKeyC_ne_close (hkp.2.1 c ha)
        · constructor <;> rintro rfl <;> exact absurd hb (by decide)
      · rcases escGo_chars _ _ hesc with h3 | h3 | h3
        · exact wfValC_ne_close (hvp.2.1 c h3)
        · subst h3; exact ⟨by decide, by decide⟩
        · subst h3; exact ⟨by decide, by decide⟩
    · constructor <;> rintro rfl <;> exact absurd h2 (by decide)

theorem pass7Go_id : ∀ (fuel : Nat) (l : Bytes),
    (∀ c ∈ l, c ≠ '}' ∧ c ≠ ']') → pass7Go fuel l = l := by
  intro fuel
  induction fuel with
  | zero => intro l _; cases l <;> rfl
  | succ fuel ih =>
    intro l h
    cases l with
    | nil => rfl
    | cons c rest =>
      have hrest : ∀ d ∈ rest, d ≠ '}' ∧ d ≠ ']' :=
        fun d hd => h d (List.mem_cons_of_mem c hd)
      rw [pass7Go]
      by_cases hc : c = ','
      · rw [if_pos hc]
        cases hd : rest.dropWhile pyIsSpace with
        | nil => rw [ih rest hrest]
        | cons d r2 =>
          have hdm : d ∈ rest := by
            have h2 : d ∈ rest.dropWhile pyIsSpace := by
              rw [hd]; exact List.mem_cons_self d r2
            exact (List.dropWhile_sublist pyIsSpace).subset h2
          have hne := hrest d hdm
          split
          next r2' heq =>
            injection heq with e1 e2
            exact absurd e1 hne.1
          next r2' heq =>
            injection heq with e1 e2
            exact absurd e1 hne.2
          next => rw [ih rest hrest]
      · rw [if_neg hc, ih rest hrest]

theorem final_no_close (p : Bytes × Bytes) (rest : List (Bytes × Bytes))
    (hk : ∀ r ∈ p :: rest, wfKey r.1 = true)
    (hv : ∀ r ∈ p :: rest, wfVal r.2 = true) :
    ∀ c ∈ quoteKV p.1 p.2 ++
        ((rest.map (fun r => quoteBody r.1 r.2)).map
          (fun b => ',' :: '\n' :: '"' :: b)).flatten,
      c ≠ '}' ∧ c ≠ ']' := by
  intro c hc
  rcases List.mem_append.mp hc with h1 | h2
  · rw [quoteKV_eq] at h1
    rcases List.mem_cons.mp h1 with rfl | h1'
    · exact ⟨by decide, by decide⟩
    · exact quoteBody_no_close (hk p (List.mem_cons_self _ _))
        (hv p (List.mem_cons_self _ _)) c h1'
  · rcases List.mem_flatten.mp h2 with ⟨L, hL, hcL⟩
    rcases List.mem_map.mp hL with ⟨b, hb, rfl⟩
    rcases List.mem_map.mp hb with ⟨r, hr, rfl⟩
    rcases List.mem_cons.mp hcL with rfl | hcL1
    · exact ⟨by decide, by decide⟩
    · rcases List.mem_cons.mp hcL1 with rfl | hcL2
      · exact ⟨by decide, by decide⟩
      · rcases List.mem_cons.mp hcL2 with rfl | hcL3
        · exact ⟨by decide, by decide⟩
        · exact quoteBody_no_close (hk r (List.mem_cons_of_mem _ hr))
            (hv r (List.mem_cons_of_mem _ hr)) c hcL3

theorem pass7_id {l : Bytes} (h : ∀ c ∈ l, c ≠ '}' ∧ c ≠ ']') : pass7 l = l :=
  pass7Go_id l.length l h

/- ===== JSON scanner lemmas for the cleaned text ===== -/

theorem wfValC_ge_space {c : Char} (h : wfValC c = true) : 0x20 ≤ c.toNat := by
  simp only [wfValC, Bool.and_eq_true, decide_eq_true_eq] at h
  exact h.1.1.1.1.1.1

theorem wfValC_ne_backslash {c : Char} (h : wfValC c = true) : c ≠ '\\' := by
  rintro rfl; exact absurd h (by decide)

theorem wfKeyC_string_ok {c : Char} (h : wfKeyC c = true) :
    c ≠ '"' ∧ c ≠ '\\' ∧ ¬ c.toNat < 0x20 := by
  refine ⟨?_, ?_, ?_⟩
  · rintro rfl; exact absurd h (by decide)
  · rintro rfl; exact absurd h (by decide)
  · have h' : isLowerC c = true ∨ c = '_' := by simpa [wfKeyC] using h
    rcases h' with hl | rfl
    · have h2 : 'a' ≤ c ∧ c ≤ 'z' := by simpa [isLowerC] using hl
      have h3 : 97 ≤ c.toNat := h2.1
      omega
    · decide

theorem jStringGo_plain : ∀ (k : Bytes) (fuel : Nat) (X : Bytes),
    (∀ c ∈ k, c ≠ '"' ∧ c ≠ '\\' ∧ ¬ c.toNat < 0x20) → k.length + 1 ≤ fuel →
    jStringGo fuel (k ++ '"' :: X) = some (k, X) := by
  intro k
  induction k with
  | nil =>
    intro fuel X _ hf
    obtain ⟨f, rfl⟩ : ∃ f, fuel = f + 1 := ⟨fuel - 1, by omega⟩
    rfl
  | cons c k' ih =>
    intro fuel X h hf
    obtain ⟨f, rfl⟩ : ∃ f, fuel = f + 1 := ⟨fuel - 1, by omega⟩
    have hc := h c (List.mem_cons_self _ _)
    rw [List.cons_append]
    simp only [jStringGo]
    rw [if_neg hc.1, if_neg hc.2.1, if_neg hc.2.2,
      ih f X (fun d hd => h d (List.mem_cons_of_mem _ hd))
        (by rw [List.length_cons] at hf; omega)]
    rfl

theorem jStringGo_esc : ∀ (v : Bytes) (fuel : Nat) (X : Bytes),
    (∀ c ∈ v, wfValC c = true) → v.length + 1 ≤ fuel →
    jStringGo fuel (pyReplaceGo (bs "\"") (bs "\\\"") v.length v ++ '"' :: X) =
      some (v, X) := by
  intro v
  induction v with
  | nil =>
    intro fuel X _ hf
    obtain ⟨f, rfl⟩ : ∃ f, fuel = f + 1 := ⟨fuel - 1, by omega⟩
    rfl
  | cons c w ih =>
    intro fuel X h hf
    obtain ⟨f, rfl⟩ : ∃ f, fuel = f + 1 := ⟨fuel - 1, by omega⟩
    have hw : ∀ d ∈ w, wfValC d = true := fun d hd => h d (List.mem_cons_of_mem _ hd)
    have hfw : w.length + 1 ≤ f := by rw [List.length_cons] at hf; omega
    have hc := h c (List.mem_cons_self _ _)
    rw [List.length_cons, pyReplaceGo]
    by_cases hq : c = '"'
    · subst hq
      have hpre : (bs "\"") ≠ [] ∧ (bs "\"").isPrefixOf ('"' :: w) := by
        refine ⟨by decide, ?_⟩
        have hb : (bs "\"") = [('"')] := rfl
        rw [hb]
        simp [List.isPrefixOf]
      rw [if_pos hpre]
      show jStringGo (f + 1)
          ((bs "\\\"") ++ pyReplaceGo (bs "\"") (bs "\\\"") w.length w ++ '"' :: X) =
        some ('"' :: w, X)
      have hstep : jStringGo (f + 1)
          ((bs "\\\"") ++ pyReplaceGo (bs "\"") (bs "\\\"") w.length w ++ '"' :: X) =
          (jStringGo f (pyReplaceGo (bs "\"") (bs "\\\"") w.length w ++ '"' :: X)).map
            (fun p => ('"' :: p.1, p.2)) := rfl
      rw [hstep, ih f X hw hfw]
      rfl
    · have hnp : ¬((bs "\"") ≠ [] ∧ (bs "\"").isPrefixOf (c :: w)) := by
        rintro ⟨-, hp⟩
        have hb : (bs "\"") = [('"')] := rfl
        rw [hb] at hp
        simp [List.isPrefixOf] at hp
        exact hq hp.symm
      rw [if_neg hnp, List.cons_append]
      simp only [jStringGo]
      rw [if_neg hq, if_neg (wfValC_ne_backslash hc),
        if_neg (by have := wfValC_ge_space hc; omega), ih f X hw hfw]
      rfl

theorem jNumExp_lit {acc X' : Bytes} {x : Char} (hx : x = ',' ∨ x = '}') :
    jNumExp acc (x :: X') = (acc, x :: X') := by
  rcases hx with rfl | rfl <;> simp [jNumExp]

theorem jNumFrac_lit {acc rest X' : Bytes} {x : Char}
    (hrest : rest = [] ∨ ∃ fr, rest = '.' :: fr ∧ fr ≠ [] ∧ ∀ c ∈ fr, isDigitC c = true)
    (hx : x = ',' ∨ x = '}') :
    jNumFrac acc (rest ++ x :: X') = (acc ++ rest, x :: X') := by
  have hxd : isDigitC x = false := by rcases hx with rfl | rfl <;> decide
  rcases hrest with rfl | ⟨fr, rfl, hfne, hfd⟩
  · rw [List.nil_append, List.append_nil]
    unfold jNumFrac
    rw [if_neg (by rcases hx with rfl | rfl <;> simp), jNumExp_lit hx]
  · rw [List.cons_append]
    unfold jNumFrac
    rw [if_pos (by simp)]
    rw [show ('.' :: (fr ++ x :: X')).drop 1 = fr ++ x :: X' from rfl]
    have htake : (fr ++ x :: X').takeWhile isDigitC = fr := by
      rw [takeWhile_append_all _ _ hfd, List.takeWhile_cons, hxd]
      simp
    rw [htake, if_neg hfne, List.drop_left, jNumExp_lit hx]

theorem jNumBody_lit {sgn ds rest X' : Bytes} {x : Char}
    (hdne : ds ≠ []) (hdd : ∀ c ∈ ds, isDigitC c = true)
    (hd0 : ds.head? = some '0' → ds.length = 1)
    (hrest : rest = [] ∨ ∃ fr, rest = '.' :: fr ∧ fr ≠ [] ∧ ∀ c ∈ fr, isDigitC c = true)
    (hx : x = ',' ∨ x = '}') :
    jNumBody sgn (ds ++ rest ++ x :: X') = some (sgn ++ (ds ++ rest), x :: X') := by
  have hxd : isDigitC x = false := by rcases hx with rfl | rfl <;> decide
  obtain ⟨d, ds', rfl⟩ : ∃ d ds', ds = d :: ds' := by
    cases ds with
    | nil => exact absurd rfl hdne
    | cons a t => exact ⟨a, t, rfl⟩
  have hrd : isDigitC d = true := hdd d (List.mem_cons_self _ _)
  have hdd' : ∀ c ∈ ds', isDigitC c = true :=
    fun c hc => hdd c (List.mem_cons_of_mem _ hc)
  have hin : (d :: ds') ++ rest ++ x :: X' = d :: (ds' ++ (rest ++ x :: X')) := by
    simp [List.append_assoc]
  rw [hin, jNumBody]
  have hstop : ((rest ++ x :: X').takeWhile isDigitC) = [] := by
    rcases hrest with rfl | ⟨fr, rfl, h1, h2⟩
    · rw [List.nil_append, List.takeWhile_cons, hxd]
      simp
    · rw [List.cons_append, List.takeWhile_cons,
        show isDigitC '.' = false from rfl]
      simp
  by_cases h0 : d = '0'
  · subst h0
    have hds' : ds' = [] := by
      have hlen := hd0 rfl
      rw [List.length_cons] at hlen
      exact List.eq_nil_of_length_eq_zero (by omega)
    subst hds'
    rw [if_pos rfl]
    rw [show (('0' :: (([] : Bytes) ++ (rest ++ x :: X'))).drop 1) =
      rest ++ x :: X' from by simp]
    rw [jNumFrac_lit hrest hx]
    simp
  · rw [if_neg h0, if_pos hrd]
    have htw : ((d :: (ds' ++ (rest ++ x :: X'))).takeWhile isDigitC) = d :: ds' := by
      rw [List.takeWhile_cons, if_pos hrd, takeWhile_append_all _ _ hdd', hstop,
        List.append_nil]
    rw [htw]
    have hdr : ((d :: (ds' ++ (rest ++ x :: X'))).drop (d :: ds').length) =
        rest ++ x :: X' := by
      rw [List.length_cons, List.drop_succ_cons, List.drop_left]
    rw [hdr, jNumFrac_lit hrest hx]
    simp [List.append_assoc]

theorem jsonNumCore_parts {w : Bytes} (h : jsonNumCore w = true) :
    ∃ ds rest, w = ds ++ rest ∧ ds ≠ [] ∧ (∀ c ∈ ds, isDigitC c = true) ∧
      (ds.head? = some '0' → ds.length = 1) ∧
      (rest = [] ∨ ∃ fr, rest = '.' :: fr ∧ fr ≠ [] ∧ ∀ c ∈ fr, isDigitC c = true) := by
  simp only [jsonNumCore, Bool.and_eq_true] at h
  refine ⟨w.takeWhile isDigitC, w.drop (w.takeWhile isDigitC).length, ?_, ?_, ?_, ?_, ?_⟩
  · conv_lhs => rw [← List.takeWhile_append_dropWhile isDigitC w]
    rw [takeWhile_drop]
  · intro e
    rw [e] at h
    exact absurd h.1.1 (by decide)
  · exact fun c hc => List.mem_takeWhile_imp hc
  · intro h0
    have h12 := h.1.2
    simp only [Bool.or_eq_true] at h12
    rcases h12 with h1 | h1
    · rw [bne_iff_ne] at h1
      exact absurd h0 h1
    · simp only [beq_iff_eq] at h1
      exact h1
  · rcases hsplit : w.drop (w.takeWhile isDigitC).length with _ | ⟨c, fr⟩
    · exact Or.inl rfl
    · rw [hsplit] at h
      have h2 := h.2
      split at h2
      · exact Or.inl (by assumption)
      · next fr' heq =>
        refine Or.inr ⟨fr', heq, ?_, ?_⟩
        · intro e
          rw [e] at h2
          exact absurd h2 (by decide)
        · have h3 := (Bool.and_eq_true _ _).mp h2
          exact fun c hc => by
            have := (List.all_eq_true.mp h3.2) c hc
            exact this
      · exact absurd h2 (by decide)

theorem jNumber_lit {v X' : Bytes} {x : Char} (hnum : jsonNumOk v = true)
    (hx : x = ',' ∨ x = '}') :
    jNumber (v ++ x :: X') = some (v, x :: X') := by
  unfold jNumber
  by_cases hs : v.head? = some '-'
  · obtain ⟨t, rfl⟩ : ∃ t, v = '-' :: t := by
      cases v with
      | nil => exact absurd hs (by simp)
      | cons c t =>
        have hc : c = '-' := by simpa using hs
        exact ⟨t, by rw [hc]⟩
    have hcore : jsonNumCore t = true := by
      unfold jsonNumOk at hnum
      simpa using hnum
    obtain ⟨ds, rest, hw, hdne, hdd, hd0, hrest⟩ := jsonNumCore_parts hcore
    rw [List.cons_append, if_pos (by simp), List.drop_succ_cons, List.drop_zero]
    subst hw
    rw [show (ds ++ rest) ++ x :: X' = ds ++ rest ++ x :: X' from rfl]
    rw [jNumBody_lit hdne hdd hd0 hrest hx]
    rfl
  · have hcore : jsonNumCore v = true := by
      unfold jsonNumOk at hnum
      rwa [if_neg hs] at hnum
    obtain ⟨ds, rest, hw, hdne, hdd, hd0, hrest⟩ := jsonNumCore_parts hcore
    obtain ⟨d, ds', rfl⟩ : ∃ d ds', ds = d :: ds' := by
      cases ds with
      | nil => exact absurd rfl hdne
      | cons a t => exact ⟨a, t, rfl⟩
    have hvh : v.head? = some d := by rw [hw]; rfl
    have hns : ¬ ((v ++ x :: X').head? = some '-') := by
      intro hcon
      have h2 : v.head? = some '-' := by
        cases v with
        | nil => exact absurd hvh (by simp)
        | cons a t => simpa using hcon
      exact hs h2
    rw [if_neg hns, hw]
    rw [show ((d :: ds') ++ rest) ++ x :: X' = (d :: ds') ++ rest ++ x :: X' from rfl]
    rw [jNumBody_lit hdne hdd hd0 hrest hx]
    rw [List.nil_append]

theorem quoteBody_jPart (k v : Bytes) :
    quoteBody k v = (k ++ bs "\": ") ++ jPart v := by
  unfold quoteBody jPart
  split
  · rfl
  · rw [show bs "\": \"" = bs "\": " ++ [('"')] from rfl]
    simp [List.append_assoc]

theorem escGo_length : ∀ (fuel : Nat) (v : Bytes),
    v.length ≤ (pyReplaceGo (bs "\"") (bs "\\\"") fuel v).length := by
  intro fuel
  induction fuel with
  | zero =>
    intro v
    cases v with
    | nil => simp [pyReplaceGo]
    | cons c rest =>
      rw [show pyReplaceGo (bs "\"") (bs "\\\"") 0 (c :: rest) = c :: rest from rfl]
  | succ f ih =>
    intro v
    cases v with
    | nil => simp [pyReplaceGo]
    | cons c rest =>
      rw [pyReplaceGo]
      by_cases hp : (bs "\"") ≠ [] ∧ (bs "\"").isPrefixOf (c :: rest)
      · rw [if_pos hp, List.length_append, List.length_cons,
          show (bs "\\\"").length = 2 from rfl,
          show ((c :: rest).drop (bs "\"").length) = rest from rfl]
        have := ih rest
        omega
      · rw [if_neg hp, List.length_cons, List.length_cons]
        have := ih rest
        omega

theorem fullNumMatch_head {v : Bytes} (h : fullNumMatch v = true) :
    ∃ d t, v = d :: t ∧ (d = '-' ∨ isDigitC d = true) := by
  rw [fullNumMatch_shape] at h
  split at h
  · exact ⟨'-', _, rfl, Or.inl rfl⟩
  · have hp := fullNumAux_parts h
    cases v with
    | nil => exact absurd rfl hp.1
    | cons c t =>
      by_cases hc : isDigitC c = true
      · exact ⟨c, t, rfl, Or.inr hc⟩
      · exfalso
        apply hp.1
        rw [List.takeWhile_cons]
        simp [Bool.eq_false_iff.mpr hc]

theorem digit_not_ws {d : Char} (h : isDigitC d = true) : jsonWsC d = false := by
  have h2 : '0' ≤ d ∧ d ≤ '9' := by simpa [isDigitC] using h
  have h3 : 48 ≤ d.toNat := h2.1
  have e1 : d ≠ ' ' := fun e => by subst e; exact absurd h3 (by decide)
  have e2 : d ≠ '\t' := fun e => by subst e; exact absurd h3 (by decide)
  have e3 : d ≠ '\n' := fun e => by subst e; exact absurd h3 (by decide)
  have e4 : d ≠ '\r' := fun e => by subst e; exact absurd h3 (by decide)
  simp [jsonWsC, e1, e2, e3, e4]

theorem jValue_val {v X' : Bytes} {x : Char} (hv : wfVal v = true)
    (hx : x = ',' ∨ x = '}') :
    ∀ fuel, 1 ≤ fuel →
    jValue fuel (' ' :: (jPart v ++ x :: X')) = some (specTypedValue v, x :: X') := by
  intro fuel hf
  obtain ⟨f, rfl⟩ : ∃ f, fuel = f + 1 := ⟨fuel - 1, by omega⟩
  by_cases ht : v = bs "true"
  · subst ht
    have hstep : jValue (f + 1) (' ' :: (jPart (bs "true") ++ x :: X')) =
        (if (bs "rue").isPrefixOf (bs "rue" ++ x :: X') then
          some (.bool true, (bs "rue" ++ x :: X').drop 3) else none) := rfl
    rw [hstep, if_pos (List.isPrefixOf_iff_prefix.mpr (List.prefix_append _ _)),
      show ((3 : Nat)) = (bs "rue").length from rfl, List.drop_left]
    rfl
  · by_cases hfa : v = bs "false"
    · subst hfa
      have hstep : jValue (f + 1) (' ' :: (jPart (bs "false") ++ x :: X')) =
          (if (bs "alse").isPrefixOf (bs "alse" ++ x :: X') then
            some (.bool false, (bs "alse" ++ x :: X').drop 4) else none) := rfl
      rw [hstep, if_pos (List.isPrefixOf_iff_prefix.mpr (List.prefix_append _ _)),
        show ((4 : Nat)) = (bs "alse").length from rfl, List.drop_left]
      rfl
    · by_cases hnu : v = bs "null"
      · subst hnu
        have hstep : jValue (f + 1) (' ' :: (jPart (bs "null") ++ x :: X')) =
            (if (bs "ull").isPrefixOf (bs "ull" ++ x :: X') then
              some (.null, (bs "ull" ++ x :: X').drop 3) else none) := rfl
        rw [hstep, if_pos (List.isPrefixOf_iff_prefix.mpr (List.prefix_append _ _)),
          show ((3 : Nat)) = (bs "ull").length from rfl, List.drop_left]
        rfl
      · by_cases hn : fullNumMatch v = true
        · -- a numeric literal: falls through to the number branch
          have hnum : jsonNumOk v = true := (wfVal_parts hv).2.2.2.2 hn
          obtain ⟨d, t, rfl, hd⟩ := fullNumMatch_head hn
          have hjp : jPart (d :: t) = d :: t := by
            unfold jPart
            rw [if_pos (Or.inr (Or.inr (Or.inr hn)))]
          rw [hjp]
          have hdws : jsonWsC d = false := by
            rcases hd with rfl | hdig
            · rfl
            · exact digit_not_ws hdig
          have hswu : skipWs (' ' :: ((d :: t) ++ x :: X')) = d :: (t ++ x :: X') := by
            show List.dropWhile jsonWsC (' ' :: ((d :: t) ++ x :: X')) = d :: (t ++ x :: X')
            rw [List.dropWhile_cons, if_pos (by decide : jsonWsC ' ' = true),
              List.cons_append, List.dropWhile_cons, hdws]
            simp
          rw [jValue, hswu]
          split
          · next r heq =>
            injection heq with e1 _
            rcases hd with h | h
            · rw [e1] at h; exact absurd h (by decide)
            · rw [e1] at h; exact absurd h (by decide)
          · next r heq =>
            injection heq with e1 _
            rcases hd with h | h
            · rw [e1] at h; exact absurd h (by decide)
            · rw [e1] at h; exact absurd h (by decide)
          · next r heq =>
            injection heq with e1 _
            rcases hd with h | h
            · rw [e1] at h; exact absurd h (by decide)
            · rw [e1] at h; exact absurd h (by decide)
          · next r heq =>
            injection heq with e1 _
            rcases hd with h | h
            · rw [e1] at h; exact absurd h (by decide)
            · rw [e1] at h; exact absurd h (by decide)
          · next r heq =>
            injection heq with e1 _
            rcases hd with h | h
            · rw [e1] at h; exact absurd h (by decide)
            · rw [e1] at h; exact absurd h (by decide)
          · next r heq =>
            injection heq with e1 _
            rcases hd with h | h
            · rw [e1] at h; exact absurd h (by decide)
            · rw [e1] at h; exact absurd h (by decide)
          · next =>
            rw [show d :: (t ++ x :: X') = (d :: t) ++ x :: X' from rfl,
              jNumber_lit hnum hx]
            have h1 : specTypedValue (d :: t) = .num (d :: t) := by
              unfold specTypedValue
              rw [if_neg ht, if_neg hfa, if_neg hnu, if_pos hn]
            rw [h1]
            rfl
        · -- everything else: a quoted, escaped string
          have hjp : jPart v =
              '"' :: (pyReplaceAll (bs "\"") (bs "\\\"") v ++ [('"')]) := by
            unfold jPart
            rw [if_neg (by
              rintro (h | h | h | h)
              · exact ht h
              · exact hfa h
              · exact hnu h
              · exact hn h)]
          rw [hjp, List.cons_append]
          have hstep : ∀ r : Bytes, jValue (f + 1) (' ' :: ('"' :: r)) =
              (jStringGo (r.length + 1) r).map (fun p => (Json.str p.1, p.2)) :=
            fun r => rfl
          rw [hstep]
          rw [show (pyReplaceAll (bs "\"") (bs "\\\"") v ++ [('"')]) ++ x :: X' =
              pyReplaceGo (bs "\"") (bs "\\\"") v.length v ++ '"' :: (x :: X') from by
            rw [show pyReplaceAll (bs "\"") (bs "\\\"") v =
              pyReplaceGo (bs "\"") (bs "\\\"") v.length v from rfl]
            simp [List.append_assoc]]
          rw [jStringGo_esc v _ _ (wfVal_parts hv).2.1 (by
            rw [List.length_append, List.length_cons]
            have := escGo_length v.length v
            omega)]
          have h1 : specTypedValue v = .str v := by
            unfold specTypedValue
            rw [if_neg ht, if_neg hfa, if_neg hnu, if_neg (by
              intro h; exact hn (by rw [h]))]
          rw [h1]
          rfl

theorem jObjLoop_run : ∀ (kvs : List (Bytes × Bytes)) (p : Bytes × Bytes)
    (f : Nat) (l : Bytes) (acc : List (Bytes × Json)),
    (∀ r ∈ p :: kvs, wfKey r.1 = true) →
    (∀ r ∈ p :: kvs, wfVal r.2 = true) →
    skipWs l = '"' :: (quoteBody p.1 p.2 ++ objTail kvs) →
    kvs.length + 2 ≤ f →
    jObjLoop f l acc =
      some (.obj (acc ++ (p :: kvs).map (fun r => (r.1, specTypedValue r.2))), []) := by
  intro kvs
  induction kvs with
  | nil =>
    intro p f l acc hk hv hsw hf
    obtain ⟨f', rfl⟩ : ∃ f', f = f' + 1 := ⟨f - 1, by omega⟩
    have hkw : wfKey p.1 = true := hk p (List.mem_cons_self _ _)
    have hvw : wfVal p.2 = true := hv p (List.mem_cons_self _ _)
    have hR : quoteBody p.1 p.2 ++ objTail [] =
        p.1 ++ '"' :: (':' :: ' ' :: (jPart p.2 ++ '}' :: [])) := by
      rw [quoteBody_jPart, show bs "\": " = [('"'), (':'), (' ')] from rfl,
        show objTail [] = '}' :: [] from rfl]
      simp [List.append_assoc]
    simp only [jObjLoop]
    rw [hsw, hR]
    simp only []
    rw [jStringGo_plain p.1 _ _
      (fun c hc => wfKeyC_string_ok ((wfKey_parts hkw).2.1 c hc))
      (by rw [List.length_append]; omega)]
    simp only []
    rw [show skipWs (':' :: ' ' :: (jPart p.2 ++ '}' :: [])) =
      ':' :: ' ' :: (jPart p.2 ++ '}' :: []) from rfl]
    simp only []
    rw [jValue_val hvw (Or.inr rfl) f' (by omega)]
    simp only []
    rw [show skipWs ('}' :: ([] : Bytes)) = '}' :: [] from rfl]
    simp only [List.map_cons, List.map_nil]
  | cons q qs ih =>
    intro p f l acc hk hv hsw hf
    obtain ⟨f', rfl⟩ : ∃ f', f = f' + 1 := ⟨f - 1, by omega⟩
    have hkw : wfKey p.1 = true := hk p (List.mem_cons_self _ _)
    have hvw : wfVal p.2 = true := hv p (List.mem_cons_self _ _)
    have hR : quoteBody p.1 p.2 ++ objTail (q :: qs) =
        p.1 ++ '"' :: (':' :: ' ' :: (jPart p.2 ++
          ',' :: ('\n' :: '"' :: (quoteBody q.1 q.2 ++ objTail qs)))) := by
      rw [quoteBody_jPart, show bs "\": " = [('"'), (':'), (' ')] from rfl,
        show objTail (q :: qs) =
          ',' :: '\n' :: '"' :: (quoteBody q.1 q.2 ++ objTail qs) from rfl]
      simp [List.append_assoc]
    simp only [jObjLoop]
    rw [hsw, hR]
    simp only []
    rw [jStringGo_plain p.1 _ _
      (fun c hc => wfKeyC_string_ok ((wfKey_parts hkw).2.1 c hc))
      (by rw [List.length_append]; omega)]
    simp only []
    rw [show skipWs (':' :: ' ' :: (jPart p.2 ++
        ',' :: ('\n' :: '"' :: (quoteBody q.1 q.2 ++ objTail qs)))) =
      ':' :: ' ' :: (jPart p.2 ++
        ',' :: ('\n' :: '"' :: (quoteBody q.1 q.2 ++ objTail qs))) from rfl]
    simp only []
    rw [jValue_val hvw (Or.inl rfl) f' (by omega)]
    simp only []
    rw [show skipWs (',' :: ('\n' :: '"' :: (quoteBody q.1 q.2 ++ objTail qs))) =
      ',' :: ('\n' :: '"' :: (quoteBody q.1 q.2 ++ objTail qs)) from rfl]
    simp only []
    rw [ih q f' ('\n' :: '"' :: (quoteBody q.1 q.2 ++ objTail qs))
      (acc ++ [(p.1, specTypedValue p.2)])
      (fun r hr => hk r (List.mem_cons_of_mem _ hr))
      (fun r hr => hv r (List.mem_cons_of_mem _ hr))
      rfl
      (by rw [List.length_cons] at hf; omega)]
    simp [List.append_assoc]

theorem objTail_length : ∀ (rest : List (Bytes × Bytes)),
    rest.length ≤ (objTail rest).length := by
  intro rest
  induction rest with
  | nil => simp [objTail]
  | cons q qs ih =>
    rw [show objTail (q :: qs) =
      ',' :: '\n' :: '"' :: (quoteBody q.1 q.2 ++ objTail qs) from rfl]
    simp only [List.length_cons, List.length_append]
    omega

theorem flat_objTail : ∀ (rest : List (Bytes × Bytes)),
    ((rest.map (fun r => quoteBody r.1 r.2)).map
      (fun b => ',' :: '\n' :: '"' :: b)).flatten ++ [('}')] = objTail rest := by
  intro rest
  induction rest with
  | nil => rfl
  | cons q qs ih =>
    rw [List.map_cons, List.map_cons, List.flatten_cons,
      show objTail (q :: qs) =
        ',' :: '\n' :: '"' :: (quoteBody q.1 q.2 ++ objTail qs) from rfl,
      ← ih]
    simp [List.append_assoc]

theorem pyJsonLoads_obj (p : Bytes × Bytes) (rest : List (Bytes × Bytes))
    (hk : ∀ r ∈ p :: rest, wfKey r.1 = true)
    (hv : ∀ r ∈ p :: rest, wfVal r.2 = true) :
    pyJsonLoads (('{' :: (quoteKV p.1 p.2 ++
        ((rest.map (fun r => quoteBody r.1 r.2)).map
          (fun b => ',' :: '\n' :: '"' :: b)).flatten)) ++ [('}')]) =
      .ok (.obj ((p :: rest).map (fun r => (r.1, specTypedValue r.2)))) := by
  have hT : ('{' :: (quoteKV p.1 p.2 ++
      ((rest.map (fun r => quoteBody r.1 r.2)).map
        (fun b => ',' :: '\n' :: '"' :: b)).flatten)) ++ [('}')] =
      '{' :: ('"' :: (quoteBody p.1 p.2 ++ objTail rest)) := by
    rw [quoteKV_eq]
    simp only [List.cons_append, List.append_assoc]
    rw [flat_objTail]
  rw [hT]
  have hjv : jValue (2 * ('{' :: ('"' :: (quoteBody p.1 p.2 ++ objTail rest))).length + 8)
      ('{' :: ('"' :: (quoteBody p.1 p.2 ++ objTail rest))) =
      some (.obj ((p :: rest).map (fun r => (r.1, specTypedValue r.2))), []) := by
    rw [show (2 * ('{' :: ('"' :: (quoteBody p.1 p.2 ++ objTail rest))).length + 8) =
        (2 * ('{' :: ('"' :: (quoteBody p.1 p.2 ++ objTail rest))).length + 7) + 1 from rfl]
    simp only [jValue]
    rw [show skipWs ('{' :: ('"' :: (quoteBody p.1 p.2 ++ objTail rest))) =
        '{' :: ('"' :: (quoteBody p.1 p.2 ++ objTail rest)) from rfl]
    simp only []
    rw [show skipWs ('"' :: (quoteBody p.1 p.2 ++ objTail rest)) =
        '"' :: (quoteBody p.1 p.2 ++ objTail rest) from rfl]
    show jObjLoop (2 * ('{' :: ('"' :: (quoteBody p.1 p.2 ++ objTail rest))).length + 7)
        ('"' :: (quoteBody p.1 p.2 ++ objTail rest)) [] =
      some (.obj ((p :: rest).map (fun r => (r.1, specTypedValue r.2))), [])
    exact jObjLoop_run rest p _ _ [] hk hv rfl (by
      have h1 := objTail_length rest
      simp only [List.length_cons, List.length_append]
      omega)
  unfold pyJsonLoads
  rw [hjv]
  rfl

/-- C4 counterexample: the claim says values containing an opening bracket
round-trip as strings, but pass 3 of clean_and_load_json refuses any value
containing an opening brace or bracket (its regex class is the complement
of those two characters), the line survives unconverted, and json.loads
fails: the whole call raises ValueError instead of producing a record. -/
theorem c4_bracket_value_not_roundtrip :
    cleanAndLoadJson (bs "a = x[") = .error .valueError ∧
      .error .valueError ≠
        (.ok (.obj [(bs "a", .str (bs "x["))]) : PRes Json) := by
  constructor
  · rfl
  · intro h
    exact Except.noConfusion h

/-- C4 (amended): for every nonempty block of `key = value` lines whose keys
are lowercase-letter/underscore words not starting with a JSON keyword, and
whose values are nonempty printable scalars with no backslash, brace or
bracket characters, no leading/trailing blank, and in canonical JSON form
whenever they look numeric, clean_and_load_json succeeds and maps each key,
in order, to its right-hand side with the correct type: true/false become
booleans, null the null value, numeric literals numbers, and every other
value comes back as exactly the original string, double quotes unescaped. -/
theorem c4_kv_block_roundtrip (kvs : List (Bytes × Bytes))
    (hne : kvs ≠ [])
    (hk : ∀ r ∈ kvs, wfKey r.1 = true)
    (hv : ∀ r ∈ kvs, wfVal r.2 = true) :
    cleanAndLoadJson (mkText kvs) =
      .ok (.obj (kvs.map (fun r => (r.1, specTypedValue r.2)))) := by
  obtain ⟨p, rest, rfl⟩ : ∃ p rest, kvs = p :: rest := by
    cases kvs with
    | nil => exact absurd rfl hne
    | cons a t => exact ⟨a, t, rfl⟩
  unfold cleanAndLoadJson
  rw [mkText_pass1_id _ hk hv, mkText_pass2_id _ hk hv, pass3_mkText _ hk hv]
  have hql : ∀ L ∈ (p :: rest).map (fun r => quoteKV r.1 r.2),
      L ≠ [] ∧ L.head? = some '"' ∧ ∀ c ∈ L, c ≠ '\n' := by
    intro L hl
    rcases List.mem_map.mp hl with ⟨r, hr, rfl⟩
    refine ⟨quoteKV_ne_nil _ _, ?_, quoteKV_no_nl (hk r hr) (hv r hr)⟩
    obtain ⟨t, ht⟩ := quoteKV_head r.1 r.2
    rw [ht]
    rfl
  rw [pass4_quoted _ hql, pass5_quoted _ hql, pass6_quoted p rest hk hv,
    pass7_id (final_no_close p rest hk hv)]
  exact pyJsonLoads_obj p rest hk hv

/-- C4 witness: a concrete block exercising a boolean, a decimal number, a
negative number and a string value containing double quotes. -/
theorem c4_kv_block_roundtrip_witness :
    ([(bs "a", bs "true"), (bs "bb", bs "12.5"), (bs "msg", bs "say \"hi\" now"),
      (bs "neg", bs "-3")] : List (Bytes × Bytes)) ≠ [] ∧
    cleanAndLoadJson (mkText [(bs "a", bs "true"), (bs "bb", bs "12.5"),
        (bs "msg", bs "say \"hi\" now"), (bs "neg", bs "-3")]) =
      .ok (.obj [(bs "a", .bool true), (bs "bb", .num (bs "12.5")),
        (bs "msg", .str (bs "say \"hi\" now")), (bs "neg", .num (bs "-3"))]) :=
  ⟨by decide, by
    rw [c4_kv_block_roundtrip _ (by decide) (by decide) (by decide)]
    rfl⟩
